import Mathlib

/-!
# Verification of the `dual_tree_hvg` horizontal-visibility-graph library

This file embeds the algorithms of the repository in Lean 4 and proves (or
refutes) the behavioural claims made about them.

Embedded components:

* the ground-truth horizontal visibility relation (spec §3);
* `dt_hvg.py`: the streaming/incremental builder `HVG` with `add_one`,
  `add_batch` and `merge` (value domain: `ℚ`; the `numpy` infinities
  `np.inf` / `-np.inf` are modelled by `WithTop ℚ` / `WithBot ℚ`);
* `linear_hvg.py`: the batch function `batch_hvg`;
* `dc_hvg.py`: the recursive divide-and-conquer enumeration;
* `bst_hvg.py`: the binary-search-tree encoding;
* `run_experiment.py`: the retrying time-series generation step;
* `merge_experiment3_ipp.py`: the merge-timing loop of the cluster driver;
* a small heap model of the Python dict / ChainMap aliasing used by
  `HVG.merge(copy=True)`.

Python lists that are used as stacks (`vis_p`, `vis_f`) are stored here with
the *most recently appended element first* (the head of the Lean list is the
end of the Python list); comments note the correspondence at each use site.
-/

namespace HVGLib

/-- `X[k]`: value of the series `X` at index `k` (out-of-range reads default
to `0`; they are never exercised by the theorems below). -/
def val (X : List ℚ) (k : Nat) : ℚ := X.getD k 0

/-- Core ground-truth horizontal visibility between positions `i < j` of `X`
(spec §3): every strictly intervening value is strictly below
`min (X i) (X j)`.  Length framing is kept separate (see `Vis`). -/
def VisV (X : List ℚ) (i j : Nat) : Prop :=
  i < j ∧ ∀ k, k < j → i < k → val X k < min (val X i) (val X j)

/-- Ground-truth visibility as a relation on valid vertex indices. -/
def Vis (X : List ℚ) (i j : Nat) : Prop :=
  j < X.length ∧ VisV X i j

instance (X : List ℚ) (i j : Nat) : Decidable (VisV X i j) := by
  unfold VisV; infer_instance

instance (X : List ℚ) (i j : Nat) : Decidable (Vis X i j) := by
  unfold Vis; infer_instance

/-! ## The abstract stack recurrence

Both `dt_hvg.HVG.add_one` and the loop body of `linear_hvg.batch_hvg` run the
same scan over the visible-future stack: pop entries whose value is `≤` the
new value (stopping after an exact tie), and also emit an edge to the first
retained entry.  We factor that scan out on bare indices; the two embeddings
below are related to it by simulation lemmas. -/

/-- Indices of stack entries that receive an edge to the new vertex `v`:
entries are scanned from the head (most recent); every entry with value
`≤ X v` is visited, a tie stops the scan, and the first entry with value
`> X v` is visited (it stays on the stack). -/
def visited (X : List ℚ) (v : Nat) : List Nat → List Nat
  | [] => []
  | u :: rest =>
    if val X u ≤ val X v then
      if val X u = val X v then [u] else u :: visited X v rest
    else [u]

/-- The stack remaining after the scan for new vertex `v` (the new vertex is
pushed separately, see `stepStack`). -/
def popStack (X : List ℚ) (v : Nat) : List Nat → List Nat
  | [] => []
  | u :: rest =>
    if val X u ≤ val X v then
      if val X u = val X v then rest else popStack X v rest
    else u :: rest

/-- Processing vertex `v`: scan the stack, then push `v`. -/
def stepStack (X : List ℚ) (stk : List Nat) (v : Nat) : List Nat :=
  v :: popStack X v stk

/-- Stack contents (most recent first) after processing vertices `0,…,m-1`. -/
def stackUpTo (X : List ℚ) : Nat → List Nat
  | 0 => []
  | m + 1 => stepStack X (stackUpTo X m) m

/-- All `(u, v)` index pairs emitted while processing vertices `0,…,m-1`. -/
def edgesUpTo (X : List ℚ) : Nat → List (Nat × Nat)
  | 0 => []
  | m + 1 => edgesUpTo X m ++ (visited X m (stackUpTo X m)).map (fun u => (u, m))

/-- `u` is unblocked at time `m`: no vertex processed after `u` (and before
`m`) reaches its height.  These are exactly the stack inhabitants. -/
def Ub (X : List ℚ) (m u : Nat) : Prop :=
  ∀ k, k < m → u < k → val X k < val X u

instance (X : List ℚ) (m u : Nat) : Decidable (Ub X m u) := by
  unfold Ub; infer_instance

/-- The intended stack contents: unblocked indices `< m`, most recent first. -/
def goodStack (X : List ℚ) (m : Nat) : List Nat :=
  ((List.range m).filter fun u => decide (Ub X m u)).reverse

lemma mem_goodStack {X : List ℚ} {m u : Nat} :
    u ∈ goodStack X m ↔ u < m ∧ Ub X m u := by
  simp [goodStack, List.mem_filter, List.mem_range, and_comm]

lemma goodStack_pairwise_gt (X : List ℚ) (m : Nat) :
    (goodStack X m).Pairwise (fun a b => b < a) := by
  have h := (List.pairwise_lt_range m).filter (fun u => decide (Ub X m u))
  simpa [goodStack, List.pairwise_reverse] using h

/-- Two unblocked indices: the later one has the strictly smaller value. -/
lemma Ub.val_lt {X : List ℚ} {m u u' : Nat} (hu : Ub X m u)
    (huu : u < u') (hu' : u' < m) : val X u' < val X u :=
  hu u' hu' huu

lemma pairwise_val_of_ub {X : List ℚ} {m : Nat} :
    ∀ {l : List Nat}, l.Pairwise (fun a b => b < a) →
      (∀ u ∈ l, u < m ∧ Ub X m u) →
      l.Pairwise (fun a b => val X a < val X b)
  | [], _, _ => List.Pairwise.nil
  | a :: l, h, hmem => by
    rcases List.pairwise_cons.1 h with ⟨ha, hl⟩
    refine List.pairwise_cons.2 ⟨fun b hb => ?_, ?_⟩
    · have hbm := hmem b (List.mem_cons_of_mem a hb)
      have ham := hmem a (List.mem_cons_self a l)
      exact hbm.2.val_lt (ha b hb) ham.1
    · exact pairwise_val_of_ub hl (fun u hu => hmem u (List.mem_cons_of_mem a hu))

/-- Along the stack (most recent first), values strictly increase. -/
lemma goodStack_pairwise_val (X : List ℚ) (m : Nat) :
    (goodStack X m).Pairwise (fun a b => val X a < val X b) :=
  pairwise_val_of_ub (goodStack_pairwise_gt X m) (fun u hu => mem_goodStack.1 hu)

/-- On a value-increasing stack, the scan removes exactly the entries whose
value does not exceed the new value. -/
lemma popStack_eq_filter {X : List ℚ} {v : Nat} {stk : List Nat}
    (h : stk.Pairwise (fun a b => val X a < val X b)) :
    popStack X v stk = stk.filter fun u => decide (val X v < val X u) := by
  induction stk with
  | nil => simp [popStack]
  | cons u rest ih =>
    rcases List.pairwise_cons.1 h with ⟨hu, hrest⟩
    by_cases hle : val X u ≤ val X v
    · by_cases heq : val X u = val X v
      · have : rest.filter (fun u => decide (val X v < val X u)) = rest :=
          List.filter_eq_self.2 fun b hb => by
            simpa using heq ▸ hu b hb
        simp [popStack, hle, heq, not_lt.2 hle, this]
      · simp [popStack, hle, heq, not_lt.2 hle, ih hrest]
    · have hvu : val X v < val X u := lt_of_not_le hle
      have : (u :: rest).filter (fun u => decide (val X v < val X u)) = u :: rest :=
        List.filter_eq_self.2 fun b hb => by
          rcases List.mem_cons.1 hb with rfl | hb
          · simpa using hvu
          · simpa using hvu.trans (hu b hb)
      simp only [popStack, if_neg hle]
      exact this.symm

lemma Ub_succ_iff {X : List ℚ} {m u : Nat} (hum : u < m) :
    Ub X (m + 1) u ↔ Ub X m u ∧ val X m < val X u := by
  constructor
  · intro h
    exact ⟨fun k hk hu => h k (Nat.lt_succ_of_lt hk) hu, h m (Nat.lt_succ_self m) hum⟩
  · rintro ⟨h1, h2⟩ k hk hu
    rcases Nat.lt_succ_iff_lt_or_eq.1 hk with hk | rfl
    · exact h1 k hk hu
    · exact h2

/-- The stack invariant: the recurrence maintains exactly the unblocked
indices, most recent first. -/
theorem stackUpTo_eq_goodStack (X : List ℚ) (m : Nat) :
    stackUpTo X m = goodStack X m := by
  induction m with
  | zero => simp [stackUpTo, goodStack]
  | succ m ih =>
    have hpop : popStack X m (goodStack X m)
        = (goodStack X m).filter fun u => decide (val X m < val X u) :=
      popStack_eq_filter (goodStack_pairwise_val X m)
    have hfilter : ((List.range m).filter fun u => decide (Ub X (m+1) u))
        = ((List.range m).filter fun u => decide (Ub X m u)).filter
            fun u => decide (val X m < val X u) := by
      rw [List.filter_filter]
      refine List.filter_congr fun u hu => ?_
      have hum : u < m := List.mem_range.1 hu
      simp [Ub_succ_iff hum, Bool.and_comm]
    have hrange : List.range (m + 1) = List.range m ++ [m] := by
      simp [List.range_succ]
    have hm : Ub X (m + 1) m := fun k hk hu => absurd (lt_of_le_of_lt hu hk) (by omega)
    calc stackUpTo X (m + 1) = m :: popStack X m (goodStack X m) := by
          simp [stackUpTo, stepStack, ih]
      _ = m :: (goodStack X m).filter (fun u => decide (val X m < val X u)) := by rw [hpop]
      _ = goodStack X (m + 1) := by
          simp only [goodStack, hrange, List.filter_append, List.reverse_append,
            hfilter, List.filter_reverse]
          simp [hm]

/-- Membership in the scan's visited list, on a well-formed stack: `u` is
reached (and receives an edge) iff every stack entry more recent than `u`
has value below the new value. -/
lemma visited_mem_of {X : List ℚ} {v u : Nat} :
    ∀ {stk : List Nat}, stk.Pairwise (fun a b => b < a) →
      stk.Pairwise (fun a b => val X a < val X b) →
      (u ∈ visited X v stk ↔
        u ∈ stk ∧ ∀ w ∈ stk, u < w → val X w < val X v)
  | [], _, _ => by simp [visited]
  | a :: rest, hgt, hval => by
    rcases List.pairwise_cons.1 hgt with ⟨hgta, hgtr⟩
    rcases List.pairwise_cons.1 hval with ⟨hvala, hvalr⟩
    have hne : u ∈ rest → u ≠ a := fun hu => Nat.ne_of_lt (hgta u hu)
    by_cases hle : val X a ≤ val X v
    · by_cases heq : val X a = val X v
      · simp only [visited, if_pos hle, if_pos heq, List.mem_singleton]
        constructor
        · rintro rfl
          refine ⟨List.mem_cons_self _ _, fun w hw huw => ?_⟩
          rcases List.mem_cons.1 hw with rfl | hw
          · omega
          · exact absurd (hgta w hw) (by omega)
        · rintro ⟨hu, hall⟩
          rcases List.mem_cons.1 hu with rfl | hu
          · rfl
          · exact absurd (heq ▸ hall a (List.mem_cons_self _ _) (hgta u hu))
              (lt_irrefl _)
      · simp only [visited, if_pos hle, if_neg heq]
        have hav : val X a < val X v := lt_of_le_of_ne hle heq
        constructor
        · intro hu
          rcases List.mem_cons.1 hu with rfl | hu
          · refine ⟨List.mem_cons_self _ _, fun w hw huw => ?_⟩
            rcases List.mem_cons.1 hw with rfl | hw
            · omega
            · exact absurd (hgta w hw) (by omega)
          · rcases (visited_mem_of hgtr hvalr).1 hu with ⟨h1, h2⟩
            refine ⟨List.mem_cons_of_mem a h1, fun w hw huw => ?_⟩
            rcases List.mem_cons.1 hw with rfl | hw
            · exact hav
            · exact h2 w hw huw
        · rintro ⟨hu, hall⟩
          rcases List.mem_cons.1 hu with rfl | hu
          · exact List.mem_cons_self _ _
          · exact List.mem_cons_of_mem a ((visited_mem_of hgtr hvalr).2
              ⟨hu, fun w hw huw => hall w (List.mem_cons_of_mem a hw) huw⟩)
    · have hva : val X v < val X a := lt_of_not_le hle
      simp only [visited, if_neg hle, List.mem_singleton]
      constructor
      · rintro rfl
        refine ⟨List.mem_cons_self _ _, fun w hw huw => ?_⟩
        rcases List.mem_cons.1 hw with rfl | hw
        · omega
        · exact absurd (hgta w hw) (by omega)
      · rintro ⟨hu, hall⟩
        rcases List.mem_cons.1 hu with rfl | hu
        · rfl
        · exact absurd (hall a (List.mem_cons_self _ _) (hgta u hu))
            (not_lt.2 hva.le)

/-- The scan at step `v` visits exactly the ground-truth-visible partners. -/
theorem visited_stackUpTo_iff (X : List ℚ) (v u : Nat) :
    u ∈ visited X v (stackUpTo X v) ↔ VisV X u v := by
  rw [stackUpTo_eq_goodStack]
  rw [visited_mem_of (goodStack_pairwise_gt X v) (goodStack_pairwise_val X v)]
  constructor
  · rintro ⟨hu, hall⟩
    rcases mem_goodStack.1 hu with ⟨huv, hub⟩
    refine ⟨huv, fun k hk huk => ?_⟩
    have hklow : val X k < val X u := hub k hk huk
    have key : ∀ d k, v - k ≤ d → u < k → k < v → val X k < val X v := by
      intro d
      induction d with
      | zero => intro k h1 _ h3; omega
      | succ d ih =>
        intro k h1 h2 h3
        by_cases hkub : Ub X v k
        · exact hall k (mem_goodStack.2 ⟨h3, hkub⟩) h2
        · simp only [Ub, not_forall] at hkub
          rcases hkub with ⟨k', hk1, hk2, hk3⟩
          have : val X k' < val X v := ih k' (by omega) (by omega) hk1
          exact lt_of_le_of_lt (not_lt.1 hk3) this
    exact lt_min hklow (key (v - k) k le_rfl huk hk)
  · rintro ⟨huv, hvis⟩
    have hub : Ub X v u := fun k hk huk =>
      lt_of_lt_of_le (hvis k hk huk) (min_le_left _ _)
    refine ⟨mem_goodStack.2 ⟨huv, hub⟩, fun w hw huw => ?_⟩
    rcases mem_goodStack.1 hw with ⟨hwv, _⟩
    exact lt_of_lt_of_le (hvis w hwv huw) (min_le_right _ _)

/-- Abstract correctness: the recurrence emits exactly the visible pairs. -/
theorem edgesUpTo_mem (X : List ℚ) (m u w : Nat) :
    (u, w) ∈ edgesUpTo X m ↔ w < m ∧ VisV X u w := by
  induction m with
  | zero => simp [edgesUpTo]
  | succ m ih =>
    simp only [edgesUpTo, List.mem_append, List.mem_map, ih]
    constructor
    · rintro (⟨h1, h2⟩ | ⟨a, ha, heq⟩)
      · exact ⟨by omega, h2⟩
      · obtain ⟨rfl, rfl⟩ := Prod.mk.inj heq
        exact ⟨Nat.lt_succ_self m, (visited_stackUpTo_iff X m a).1 ha⟩
    · rintro ⟨h1, h2⟩
      rcases Nat.lt_succ_iff_lt_or_eq.1 h1 with h1 | rfl
      · exact Or.inl ⟨h1, h2⟩
      · exact Or.inr ⟨u, (visited_stackUpTo_iff X w u).2 h2, rfl⟩

/-- Abstract correctness at full length, stated with the length framing. -/
theorem edgesUpTo_length_iff (X : List ℚ) (u w : Nat) :
    (u, w) ∈ edgesUpTo X X.length ↔ Vis X u w := by
  simpa [Vis] using edgesUpTo_mem X X.length u w

/-- `k` is a strict running-maximum position of `X` (all earlier values are
strictly smaller).  These are the positions recorded in `vis_p`. -/
def PrefMax (X : List ℚ) (m : Nat) : Prop :=
  ∀ k, k < m → val X k < val X m

instance (X : List ℚ) (m : Nat) : Decidable (PrefMax X m) := by
  unfold PrefMax; infer_instance

/-- Running maximum of the first `m` values, `⊥` standing for `-np.inf`. -/
def maxUpTo (X : List ℚ) : Nat → WithBot ℚ
  | 0 => ⊥
  | m + 1 => max (maxUpTo X m) (val X m : WithBot ℚ)

lemma maxUpTo_lt_iff {X : List ℚ} {m : Nat} {q : ℚ} :
    maxUpTo X m < (q : WithBot ℚ) ↔ ∀ k, k < m → val X k < q := by
  induction m with
  | zero =>
    simp only [maxUpTo]
    exact ⟨fun _ k hk => absurd hk (Nat.not_lt_zero k), fun _ => WithBot.bot_lt_coe q⟩
  | succ m ih =>
    simp only [maxUpTo, max_lt_iff, ih, WithBot.coe_lt_coe]
    constructor
    · rintro ⟨h1, h2⟩ k hk
      rcases Nat.lt_succ_iff_lt_or_eq.1 hk with hk | rfl
      · exact h1 k hk
      · exact h2
    · intro h
      exact ⟨fun k hk => h k (Nat.lt_succ_of_lt hk), h m (Nat.lt_succ_self m)⟩

/-- The `vis_p` stack contents after `m` steps: strict running-maximum
positions, most recent first (abstract index level). -/
def pmaxStack (X : List ℚ) (m : Nat) : List Nat :=
  ((List.range m).filter fun u => decide (PrefMax X u)).reverse

lemma mem_pmaxStack {X : List ℚ} {m u : Nat} :
    u ∈ pmaxStack X m ↔ u < m ∧ PrefMax X u := by
  simp [pmaxStack, List.mem_filter, List.mem_range, and_comm]

lemma pmaxStack_succ (X : List ℚ) (m : Nat) :
    pmaxStack X (m + 1) =
      if PrefMax X m then (m :: pmaxStack X m) else pmaxStack X m := by
  by_cases h : PrefMax X m <;>
    simp [pmaxStack, List.range_succ, List.filter_append, h]

namespace DT

/-- Edge weights of `dt_hvg.py`: finite heights, or `np.inf` (`⊤`), the
default `neighbour_weight` sentinel. -/
abbrev Wt := WithTop ℚ

/-- Python exceptions that `HVG.merge` can raise. -/
inductive Err
  | assertionError  -- `assert self.neighbour_weight == other.neighbour_weight`
  | indexError      -- `self.vis_f[-1]` / `other.vis_p[0]` on an empty list
  | valueError      -- `vtx_vals, vtx_labels = zip(*join_vtx)` with no entries
  deriving DecidableEq, Repr

/-- State of a `dt_hvg.HVG` instance.  `V` and `E` record the dict
assignments in order (a later assignment to the same key wins, see
`lookupE`); merging layers further assignment lists on the right, which
models the `ChainMap` lookup order.  `vis_p` and `vis_f` hold `(value,
label)` pairs, stored most recently appended first. -/
structure St where
  V : List (Nat × ℚ)
  E : List ((Nat × Nat) × Wt)
  vis_p : List (ℚ × Nat)
  vis_f : List (ℚ × Nat)
  max_val : WithBot ℚ
  neighbour_weight : Wt
  deriving DecidableEq, Repr

/-- `HVG.__init__` with no initial sequence. -/
def init (nw : Wt) : St :=
  { V := [], E := [], vis_p := [], vis_f := [], max_val := ⊥,
    neighbour_weight := nw }

/-- The `while self.vis_f:` loop of `HVG.add_one`, processing the stack from
its top.  Returns the `E` assignments made (in order) and what remains of
`vis_f`.  Arguments `neighbour_added` and `h` are the loop-carried locals of
the Python code (`h` starts out unbound there; it is read only after
`neighbour_added` has become true, which also assigns it, so the initial
value `0` passed by `addOne` is never read). -/
def scan (vx : ℚ) (v : Nat) (nw : Wt) :
    List (ℚ × Nat) → Bool → ℚ → List ((Nat × Nat) × Wt) × List (ℚ × Nat)
  | [], _, _ => ([], [])
  | (ux, u) :: rest, neighbour_added, h =>
    if ux ≤ vx then
      let w : Wt := if neighbour_added then ((ux - h : ℚ) : Wt) else nw
      if ux = vx then ([((u, v), w)], rest)
      else
        let p := scan vx v nw rest true ux
        (((u, v), w) :: p.1, p.2)
    else
      let w : Wt := if neighbour_added then ((vx - h : ℚ) : Wt) else nw
      ([((u, v), w)], (ux, u) :: rest)

/-- `HVG.add_one(vx, v)` (with an explicitly supplied vertex label). -/
def addOne (s : St) (vx : ℚ) (v : Nat) : St :=
  let pm :=
    if s.max_val < (vx : WithBot ℚ) then ((vx, v) :: s.vis_p, (vx : WithBot ℚ))
    else (s.vis_p, s.max_val)
  let sc := scan vx v s.neighbour_weight s.vis_f false 0
  { V := s.V ++ [(v, vx)]
    E := s.E ++ sc.1
    vis_p := pm.1
    vis_f := (vx, v) :: sc.2
    max_val := pm.2
    neighbour_weight := s.neighbour_weight }

/-- `HVG.add_batch(batch, vertices)`: `add_one` on each (value, label) pair
in turn. -/
def addSeq (s : St) (xs : List (ℚ × Nat)) : St :=
  xs.foldl (fun t p => addOne t p.1 p.2) s

/-- Building an `HVG` from scratch over values `X` with sequential vertex
labels `off, off+1, …` (i.e. `HVG().add_batch(X, range(off, off+len(X)))`).
Label-explicit batches are how chunked graphs are prepared for merging. -/
def buildFrom (off : Nat) (X : List ℚ) : St :=
  addSeq (init ⊤) (X.zip (List.range' off X.length))

/-- `dt_hvg.hvg(X)` with sequential labels starting at 0. -/
def build (X : List ℚ) : St := buildFrom 0 X

/-- Resolved edge lookup: the most recent assignment to key `k` wins (this
is both dict-update order and, across the `++` layers added by `merge`, the
`ChainMap` resolution order). -/
def lookupE (s : St) (k : Nat × Nat) : Option Wt :=
  (s.E.reverse.find? fun e => decide (e.1 = k)).map (·.2)

/-- The edge keys (vertex-label pairs) that have been assigned. -/
def edgeKeys (s : St) : List (Nat × Nat) := s.E.map (·.1)

/-- `HVG.merge(other)`: the returned state is the same for `copy=True` and
`copy=False`; aliasing effects of `copy=True` are modelled separately by the
store semantics in the `Alias` namespace below. -/
def merge (s o : St) : Except Err St :=
  if s.neighbour_weight ≠ o.neighbour_weight then .error .assertionError
  else
    -- join_vtx = self.vis_f + other.vis_p, in Python (oldest-first) order
    let join_vtx : List (ℚ × Nat) := s.vis_f.reverse ++ o.vis_p.reverse
    if join_vtx.isEmpty then .error .valueError  -- zip(*join_vtx) unpacking
    else
      -- join_hvg = HVG(): built with the *default* np.inf neighbour weight
      let join_hvg := addSeq (init ⊤) join_vtx
      match s.vis_f, o.vis_p.getLast? with
      | [], _ => .error .indexError    -- self.vis_f[-1]
      | _, none => .error .indexError  -- other.vis_p[0]
      | (_, fu) :: _, some (_, p0) =>
        let merge_edges :=
          ((fu, p0), s.neighbour_weight) ::
            join_hvg.E.filter fun e => decide (e.2 ≠ s.neighbour_weight)
        let keep_p :=
          o.vis_p.takeWhile fun e => decide (s.max_val < (e.1 : WithBot ℚ))
        let keep_f :=
          (s.vis_f.reverse.takeWhile fun e =>
            decide (o.max_val < (e.1 : WithBot ℚ))).reverse
        .ok { V := s.V ++ o.V
              E := s.E ++ o.E ++ merge_edges
              vis_p := keep_p ++ s.vis_p
              vis_f := o.vis_f ++ keep_f
              max_val := max s.max_val o.max_val
              neighbour_weight := s.neighbour_weight }

/-! ### Simulation of the builder by the abstract recurrence -/

/-- The value-label pair stored for abstract index `u`. -/
def pair (X : List ℚ) (lab : Nat → Nat) (u : Nat) : ℚ × Nat :=
  (val X u, lab u)

/-- The `E` assignment log produced by the first `m` `add_one` steps,
expressed over the abstract stack. -/
def edgesW (X : List ℚ) (lab : Nat → Nat) (nw : Wt) : Nat → List ((Nat × Nat) × Wt)
  | 0 => []
  | m + 1 =>
    edgesW X lab nw m ++
      (scan (val X m) (lab m) nw ((stackUpTo X m).map (pair X lab)) false 0).1

lemma scan_snd (X : List ℚ) (lab : Nat → Nat) (v' v : Nat) (nw : Wt) :
    ∀ (stk : List Nat) (na : Bool) (h : ℚ),
      (scan (val X v') v nw (stk.map (pair X lab)) na h).2
        = (popStack X v' stk).map (pair X lab)
  | [], _, _ => by simp [scan, popStack]
  | u :: rest, na, h => by
    by_cases hle : val X u ≤ val X v'
    · by_cases heq : val X u = val X v'
      · simp [scan, popStack, pair, hle, heq]
      · simp [scan, popStack, pair, hle, heq, scan_snd X lab v' v nw rest true (val X u)]
    · simp [scan, popStack, pair, hle]

lemma scan_keys (X : List ℚ) (lab : Nat → Nat) (v' v : Nat) (nw : Wt) :
    ∀ (stk : List Nat) (na : Bool) (h : ℚ),
      (scan (val X v') v nw (stk.map (pair X lab)) na h).1.map (·.1)
        = (visited X v' stk).map fun u => (lab u, v)
  | [], _, _ => by simp [scan, visited]
  | u :: rest, na, h => by
    by_cases hle : val X u ≤ val X v'
    · by_cases heq : val X u = val X v'
      · simp [scan, visited, pair, hle, heq]
      · simp [scan, visited, pair, hle, heq, scan_keys X lab v' v nw rest true (val X u)]
    · simp [scan, visited, pair, hle]

lemma maxUpTo_succ_ite (X : List ℚ) (m : Nat) :
    maxUpTo X (m + 1) =
      if maxUpTo X m < (val X m : WithBot ℚ) then (val X m : WithBot ℚ)
      else maxUpTo X m := by
  by_cases h : maxUpTo X m < (val X m : WithBot ℚ)
  · simp [maxUpTo, max_eq_right h.le, h]
  · simp [maxUpTo, max_eq_left (not_lt.1 h), h]

/-- Complete characterisation of the builder state after processing the
first `m` values of `X` with labels from `L` (provided `L` covers `X`). -/
theorem addSeq_take_spec (nw : Wt) (X : List ℚ) (L : List Nat)
    (hL : L.length = X.length) :
    ∀ m, m ≤ X.length →
      addSeq (init nw) ((X.zip L).take m) =
        { V := ((X.zip L).take m).map fun p => (p.2, p.1)
          E := edgesW X (fun u => L.getD u 0) nw m
          vis_p := (pmaxStack X m).map (pair X fun u => L.getD u 0)
          vis_f := (stackUpTo X m).map (pair X fun u => L.getD u 0)
          max_val := maxUpTo X m
          neighbour_weight := nw } := by
  intro m hm
  induction m with
  | zero => simp [addSeq, init, edgesW, pmaxStack, stackUpTo, maxUpTo]
  | succ m ih =>
    have hmX : m < X.length := hm
    have hmz : m < (X.zip L).length := by
      simpa [List.length_zip, hL] using hmX
    have hval : (X.zip L)[m].1 = val X m := by
      simp [List.getElem_zip, val, List.getD_eq_getElem?_getD, List.getElem?_eq_getElem hmX]
    have hlab : (X.zip L)[m].2 = L.getD m 0 := by
      have hmL : m < L.length := by omega
      simp [List.getElem_zip, List.getD_eq_getElem?_getD, List.getElem?_eq_getElem hmL]
    have htake : (X.zip L).take (m + 1) = (X.zip L).take m ++ [(X.zip L)[m]] := by
      simp [List.take_succ, List.getElem?_eq_getElem hmz]
    have hstep : addSeq (init nw) ((X.zip L).take (m + 1))
        = addOne (addSeq (init nw) ((X.zip L).take m)) (X.zip L)[m].1 (X.zip L)[m].2 := by
      simp [htake, addSeq, List.foldl_append]
    rw [hstep, ih (by omega)]
    have hsnd := scan_snd X (fun u => L.getD u 0) m (L.getD m 0) nw (stackUpTo X m) false 0
    have hVgoal : ((X.zip L).take m).map (fun p => (p.2, p.1)) ++ [(L.getD m 0, val X m)]
        = ((X.zip L).take (m + 1)).map fun p => (p.2, p.1) := by
      have hmL : m < L.length := by omega
      have h1 : L[m]?.getD 0 = L[m] := by rw [List.getElem?_eq_getElem hmL]; rfl
      have h2 : val X m = X[m] := by
        rw [val, List.getD_eq_getElem?_getD, List.getElem?_eq_getElem hmX]; rfl
      rw [htake]
      simp [hval, hlab, h1, h2]
    by_cases hmax : maxUpTo X m < (val X m : WithBot ℚ)
    · have hpm : PrefMax X m := fun k hk => maxUpTo_lt_iff.1 hmax k hk
      simp only [addOne, hval, hlab, if_pos hmax]
      simp only [St.mk.injEq]
      refine ⟨hVgoal, rfl, ?_, ?_, ?_, trivial⟩
      · rw [pmaxStack_succ, if_pos hpm]; simp [pair]
      · rw [hsnd]; simp [stackUpTo, stepStack, pair]
      · rw [maxUpTo_succ_ite, if_pos hmax]
    · have hpm : ¬ PrefMax X m := fun hc => hmax (maxUpTo_lt_iff.2 fun k hk => hc k hk)
      simp only [addOne, hval, hlab, if_neg hmax]
      simp only [St.mk.injEq]
      refine ⟨hVgoal, rfl, ?_, ?_, ?_, trivial⟩
      · rw [pmaxStack_succ, if_neg hpm]
      · rw [hsnd]; simp [stackUpTo, stepStack, pair]
      · rw [maxUpTo_succ_ite, if_neg hmax]


/-- The sequential label function used by `buildFrom`. -/
def labFn (off n : Nat) : Nat → Nat := fun u => (List.range' off n).getD u 0

lemma labFn_eq {off n u : Nat} (h : u < n) : labFn off n u = off + u := by
  have hlen : u < (List.range' off n).length := by simpa using h
  rw [labFn, List.getD_eq_getElem?_getD, List.getElem?_eq_getElem hlen]
  simp

/-- The builder state reached by `buildFrom`, in closed form. -/
theorem buildFrom_spec (off : Nat) (X : List ℚ) :
    buildFrom off X =
      { V := ((X.zip (List.range' off X.length)).map fun p => (p.2, p.1))
        E := edgesW X (labFn off X.length) ⊤ X.length
        vis_p := (pmaxStack X X.length).map (pair X (labFn off X.length))
        vis_f := (stackUpTo X X.length).map (pair X (labFn off X.length))
        max_val := maxUpTo X X.length
        neighbour_weight := ⊤ } := by
  have h := addSeq_take_spec ⊤ X (List.range' off X.length) (by simp) X.length le_rfl
  have htake : (X.zip (List.range' off X.length)).take X.length
      = X.zip (List.range' off X.length) := by
    apply List.take_of_length_le; simp
  rw [buildFrom, ← htake, h]
  rfl

lemma edgesW_keys (X : List ℚ) (lab : Nat → Nat) (nw : Wt) (m : Nat) :
    (edgesW X lab nw m).map (·.1)
      = (edgesUpTo X m).map fun p => (lab p.1, lab p.2) := by
  induction m with
  | zero => simp [edgesW, edgesUpTo]
  | succ m ih =>
    have hk := scan_keys X lab m (lab m) nw (stackUpTo X m) false 0
    simp only [edgesW, edgesUpTo, List.map_append, ih, hk, List.map_map]
    rfl

lemma edgesUpTo_bounds {X : List ℚ} {m : Nat} {p : Nat × Nat}
    (h : p ∈ edgesUpTo X m) : p.1 < m ∧ p.2 < m := by
  rcases p with ⟨u, w⟩
  rcases (edgesUpTo_mem X m u w).1 h with ⟨h1, h2⟩
  exact ⟨lt_trans h2.1 h1, h1⟩

/-- The edge keys laid down by a sequential-label build are exactly the
abstract pairs. -/
theorem edgeKeys_build (X : List ℚ) :
    edgeKeys (build X) = edgesUpTo X X.length := by
  rw [build, edgeKeys, buildFrom_spec, edgesW_keys]
  have hcongr : ∀ p ∈ edgesUpTo X X.length,
      (fun p : Nat × Nat => (labFn 0 X.length p.1, labFn 0 X.length p.2)) p = id p := by
    intro p hp
    rcases edgesUpTo_bounds hp with ⟨h1, h2⟩
    simp [labFn_eq h1, labFn_eq h2]
  rw [List.map_congr_left hcongr, List.map_id]

end DT

/-! ## The batch algorithm of `linear_hvg.py` -/

namespace Lin

/-- State carried by the loop of `linear_hvg.batch_hvg`.  Here `vis_f`
entries are `(index, bottom)` pairs where `⊥` stands for `-np.inf`, and
`vis_p` entries are `(index, previous running max)`; both stacks are stored
most recently appended first.  Edge triples `(u, v, w)` are kept in append
order. -/
structure St where
  E : List (Nat × Nat × ℚ)
  vis_p : List (Nat × WithBot ℚ)
  vis_f : List (Nat × WithBot ℚ)
  max_val : WithBot ℚ
  deriving DecidableEq, Repr

/-- The `while len(vis_f) > 0:` loop body over translated values `Y`; the
`-np.inf` bottom is replaced by the finite baseline `0` before weighting
(`if bottom == -np.inf: bottom = 0`). -/
def scan (Y : List ℚ) (v : Nat) :
    List (Nat × WithBot ℚ) → List (Nat × Nat × ℚ) × List (Nat × WithBot ℚ)
  | [] => ([], [])
  | (u, b) :: rest =>
    let bottom : ℚ := b.unbot' 0
    if val Y u ≤ val Y v then
      if val Y u = val Y v then ([(u, v, val Y u - bottom)], rest)
      else
        let p := scan Y v rest
        ((u, v, val Y u - bottom) :: p.1, p.2)
    else
      ([(u, v, val Y v - bottom)], (u, (val Y v : WithBot ℚ)) :: rest)

/-- One iteration of the `for v in V:` loop of `batch_hvg`. -/
def step (Y : List ℚ) (s : St) (v : Nat) : St :=
  let pm :=
    if s.max_val < (val Y v : WithBot ℚ) then
      ((v, s.max_val) :: s.vis_p, (val Y v : WithBot ℚ))
    else (s.vis_p, s.max_val)
  let sc := scan Y v s.vis_f
  { E := s.E ++ sc.1
    vis_p := pm.1
    vis_f := (v, (⊥ : WithBot ℚ)) :: sc.2
    max_val := pm.2 }

/-- Initial loop state (`E = []`, empty stacks, `max_val = -np.inf`). -/
def stInit : St := ⟨[], [], [], ⊥⟩

/-- `np.min` of the nonempty sequence `x :: xs`. -/
def minVal (x : ℚ) (xs : List ℚ) : ℚ := xs.foldl min x

/-- `linear_hvg.batch_hvg(X)`: shift the values so their minimum is `1`,
then run the single pass.  Returns the final loop state, the translated
series and the shift.  `none` models the `np.min` failure on empty input. -/
def batchHvg (X : List ℚ) : Option (St × List ℚ × ℚ) :=
  match X with
  | [] => none
  | x :: xs =>
    let translate := -(minVal x xs) + 1
    let Y := (x :: xs).map (· + translate)
    let s := (List.range (x :: xs).length).foldl (step Y) stInit
    some (s, Y, translate)

/-- The unweighted edge pairs of a batch result (`hvg(X)` with
`include_weights=False`); `[]` when `batch_hvg` raises. -/
def pairs (X : List ℚ) : List (Nat × Nat) :=
  match batchHvg X with
  | none => []
  | some (s, _, _) => s.E.map fun e => (e.1, e.2.1)

lemma scan_spec (Y : List ℚ) (v : Nat) :
    ∀ stk : List (Nat × WithBot ℚ),
      (scan Y v stk).1.map (fun e => (e.1, e.2.1))
          = (visited Y v (stk.map Prod.fst)).map (fun u => (u, v)) ∧
        (scan Y v stk).2.map Prod.fst = popStack Y v (stk.map Prod.fst)
  | [] => by simp [scan, visited, popStack]
  | (u, b) :: rest => by
    by_cases hle : val Y u ≤ val Y v
    · by_cases heq : val Y u = val Y v
      · simp [scan, visited, popStack, hle, heq]
      · have ih := scan_spec Y v rest
        simp [scan, visited, popStack, hle, heq, ih.1, ih.2]
    · simp [scan, visited, popStack, hle]

/-- Joint invariant of the single pass: edge-index pairs match the abstract
recurrence, and the `vis_f` indices are the abstract stack. -/
theorem foldSteps_spec (Y : List ℚ) (m : Nat) :
    (((List.range m).foldl (step Y) stInit).E.map fun e => (e.1, e.2.1))
        = edgesUpTo Y m ∧
      ((List.range m).foldl (step Y) stInit).vis_f.map Prod.fst
        = stackUpTo Y m := by
  induction m with
  | zero => simp [stInit, edgesUpTo, stackUpTo]
  | succ m ih =>
    have hr : List.range (m + 1) = List.range m ++ [m] := List.range_succ m
    rw [hr, List.foldl_append]
    set s := (List.range m).foldl (step Y) stInit
    have hsc := scan_spec Y m s.vis_f
    constructor
    · simp only [List.foldl_cons, List.foldl_nil, step, List.map_append, ih.1,
        edgesUpTo]
      rw [hsc.1, ih.2]
    · simp only [List.foldl_cons, List.foldl_nil, step, List.map_cons,
        stackUpTo, stepStack]
      rw [hsc.2, ih.2]

lemma val_map_add {X : List ℚ} {t : ℚ} {u : Nat} (h : u < X.length) :
    val (X.map (· + t)) u = val X u + t := by
  have h' : u < (X.map (· + t)).length := by simpa using h
  rw [val, val, List.getD_eq_getElem?_getD, List.getD_eq_getElem?_getD,
    List.getElem?_eq_getElem h', List.getElem?_eq_getElem h]
  simp

lemma visited_map_add (X : List ℚ) (t : ℚ) {v : Nat} (hv : v < X.length) :
    ∀ stk : List Nat, (∀ u ∈ stk, u < X.length) →
      visited (X.map (· + t)) v stk = visited X v stk
  | [], _ => rfl
  | u :: rest, hmem => by
    have hu : u < X.length := hmem u (List.mem_cons_self u rest)
    have h1 := @val_map_add X t _ hu
    have h2 := @val_map_add X t _ hv
    have hle : (val (X.map (· + t)) u ≤ val (X.map (· + t)) v)
        = (val X u ≤ val X v) := by rw [h1, h2]; simp
    have heq : (val (X.map (· + t)) u = val (X.map (· + t)) v)
        = (val X u = val X v) := by rw [h1, h2]; simp
    simp only [visited, hle, heq,
      visited_map_add X t hv rest (fun w hw => hmem w (List.mem_cons_of_mem u hw))]

lemma popStack_map_add (X : List ℚ) (t : ℚ) {v : Nat} (hv : v < X.length) :
    ∀ stk : List Nat, (∀ u ∈ stk, u < X.length) →
      popStack (X.map (· + t)) v stk = popStack X v stk
  | [], _ => rfl
  | u :: rest, hmem => by
    have hu : u < X.length := hmem u (List.mem_cons_self u rest)
    have h1 := @val_map_add X t _ hu
    have h2 := @val_map_add X t _ hv
    have hle : (val (X.map (· + t)) u ≤ val (X.map (· + t)) v)
        = (val X u ≤ val X v) := by rw [h1, h2]; simp
    have heq : (val (X.map (· + t)) u = val (X.map (· + t)) v)
        = (val X u = val X v) := by rw [h1, h2]; simp
    simp only [popStack, hle, heq,
      popStack_map_add X t hv rest (fun w hw => hmem w (List.mem_cons_of_mem u hw))]

lemma stackUpTo_mem_lt {X : List ℚ} {m u : Nat} (h : u ∈ stackUpTo X m) :
    u < m := by
  rw [stackUpTo_eq_goodStack] at h
  exact (mem_goodStack.1 h).1

lemma stackUpTo_map_add (X : List ℚ) (t : ℚ) :
    ∀ m, m ≤ X.length → stackUpTo (X.map (· + t)) m = stackUpTo X m
  | 0, _ => rfl
  | m + 1, hm => by
    have ih := stackUpTo_map_add X t m (by omega)
    have hmem : ∀ u ∈ stackUpTo X m, u < X.length := fun u hu =>
      lt_of_lt_of_le (stackUpTo_mem_lt hu) (by omega)
    simp only [stackUpTo, stepStack, ih,
      popStack_map_add X t (show m < X.length by omega) _ hmem]

lemma edgesUpTo_map_add (X : List ℚ) (t : ℚ) :
    ∀ m, m ≤ X.length → edgesUpTo (X.map (· + t)) m = edgesUpTo X m
  | 0, _ => rfl
  | m + 1, hm => by
    have ih := edgesUpTo_map_add X t m (by omega)
    have hmem : ∀ u ∈ stackUpTo X m, u < X.length := fun u hu =>
      lt_of_lt_of_le (stackUpTo_mem_lt hu) (by omega)
    simp only [edgesUpTo, ih, stackUpTo_map_add X t m (by omega),
      visited_map_add X t (show m < X.length by omega) _ hmem]

/-- For a nonempty series, the batch algorithm's edge-index pairs are the
abstract pairs (the baseline translation does not change any comparison). -/
theorem pairs_eq (X : List ℚ) (hX : X ≠ []) :
    pairs X = edgesUpTo X X.length := by
  obtain ⟨x, xs, rfl⟩ := List.exists_cons_of_ne_nil hX
  have hfold := foldSteps_spec ((x :: xs).map (· + (-(minVal x xs) + 1)))
    (x :: xs).length
  have hlen : ((x :: xs).map (· + (-(minVal x xs) + 1))).length
      = (x :: xs).length := by simp
  rw [pairs, batchHvg]
  simp only
  rw [hfold.1, edgesUpTo_map_add (x :: xs) _ _ le_rfl]

end Lin

/-! ## Generic list helpers -/

lemma val_eq_getElem {X : List ℚ} {k : Nat} (h : k < X.length) :
    val X k = X[k] := by
  rw [val, List.getD_eq_getElem?_getD, List.getElem?_eq_getElem h]; rfl

/-- In an assignment log with distinct keys, resolving a key that was
assigned the value `w` yields `w` (the "most recent assignment wins" search
finds the only one). -/
lemma find?_eq_of_nodup_keys {α β : Type} [DecidableEq α] {k : α} {w : β} :
    ∀ {l : List (α × β)}, (l.map Prod.fst).Nodup → (k, w) ∈ l →
      l.find? (fun e => decide (e.1 = k)) = some (k, w)
  | [], _, hmem => absurd hmem (List.not_mem_nil _)
  | (k', w') :: t, hnd, hmem => by
    rcases List.pairwise_cons.1 hnd with ⟨hk', hnd'⟩
    by_cases hkk : k' = k
    · subst hkk
      rcases List.mem_cons.1 hmem with heq | hmem'
      · rw [List.find?_cons_of_pos _ (by simp)]
        exact congrArg some heq.symm
      · exact absurd rfl (hk' k' (by simpa using List.mem_map_of_mem Prod.fst hmem'))
    · rcases List.mem_cons.1 hmem with heq | hmem'
      · exact absurd (congrArg Prod.fst heq).symm hkk
      · rw [List.find?_cons_of_neg _ (by simp [hkk])]
        exact find?_eq_of_nodup_keys hnd' hmem'

/-- On a list ordered by `R`, a predicate that propagates backwards along
`R` is prefix-closed, so `takeWhile` and `filter` agree. -/
lemma takeWhile_eq_filter_of_pairwise {α : Type} {p : α → Bool} {R : α → α → Prop} :
    ∀ {l : List α}, l.Pairwise R → (∀ a b, R a b → p b = true → p a = true) →
      l.takeWhile p = l.filter p
  | [], _, _ => rfl
  | a :: t, hl, hp => by
    rcases List.pairwise_cons.1 hl with ⟨ha, ht⟩
    by_cases hpa : p a = true
    · rw [List.takeWhile_cons_of_pos hpa, List.filter_cons_of_pos hpa,
        takeWhile_eq_filter_of_pairwise ht hp]
    · rw [List.takeWhile_cons_of_neg (by simpa using hpa),
        List.filter_cons_of_neg (by simpa using hpa)]
      have : t.filter p = [] := List.filter_eq_nil_iff.2 fun b hb hpb =>
        hpa (hp a b (ha b hb) hpb)
      exact this.symm

/-- `maxUpTo` over the whole list is `List.maximum`. -/
lemma maxUpTo_length_eq_maximum (X : List ℚ) :
    maxUpTo X X.length = X.maximum := by
  have h : ∀ m, m ≤ X.length → maxUpTo X m = (X.take m).maximum := by
    intro m
    induction m with
    | zero =>
      intro _
      simp only [List.take_zero, List.maximum_nil]
      rfl
    | succ m ih =>
      intro hm
      have hmX : m < X.length := hm
      have htake : X.take (m + 1) = X.take m ++ [X[m]] := by
        rw [List.take_succ, List.getElem?_eq_getElem hmX]
        rfl
      rw [maxUpTo, ih (by omega), htake, List.maximum_concat, val_eq_getElem hmX]
  rw [h X.length le_rfl, List.take_length]

namespace DT

/-- Builder with a configurable `neighbour_weight` sentinel
(`HVG(neighbour_weight=nw).add_batch(X, range(off, off+len(X)))`). -/
def buildCfg (nw : Wt) (off : Nat) (X : List ℚ) : St :=
  addSeq (init nw) (X.zip (List.range' off X.length))

lemma buildFrom_eq_buildCfg (off : Nat) (X : List ℚ) :
    buildFrom off X = buildCfg ⊤ off X := rfl

/-- `buildFrom_spec`, for any configured sentinel. -/
theorem buildCfg_spec (nw : Wt) (off : Nat) (X : List ℚ) :
    buildCfg nw off X =
      { V := ((X.zip (List.range' off X.length)).map fun p => (p.2, p.1))
        E := edgesW X (labFn off X.length) nw X.length
        vis_p := (pmaxStack X X.length).map (pair X (labFn off X.length))
        vis_f := (stackUpTo X X.length).map (pair X (labFn off X.length))
        max_val := maxUpTo X X.length
        neighbour_weight := nw } := by
  have h := addSeq_take_spec nw X (List.range' off X.length) (by simp) X.length le_rfl
  have htake : (X.zip (List.range' off X.length)).take X.length
      = X.zip (List.range' off X.length) := by
    apply List.take_of_length_le; simp
  rw [buildCfg, ← htake, h]
  rfl

/-- The opened entries of the scan are a sublist of the stack. -/
lemma visited_sublist (X : List ℚ) (v : Nat) :
    ∀ stk : List Nat, List.Sublist (visited X v stk) stk
  | [] => List.Sublist.refl []
  | u :: rest => by
    by_cases hle : val X u ≤ val X v
    · by_cases heq : val X u = val X v
      · simp only [visited, if_pos hle, if_pos heq]
        exact (List.nil_sublist rest).cons₂ u
      · simp only [visited, if_pos hle, if_neg heq]
        exact (visited_sublist X v rest).cons₂ u
    · simp only [visited, if_neg hle]
      exact (List.nil_sublist rest).cons₂ u

lemma stackUpTo_nodup (X : List ℚ) (m : Nat) : (stackUpTo X m).Nodup := by
  rw [stackUpTo_eq_goodStack]
  exact (goodStack_pairwise_gt X m).imp fun h => Nat.ne_of_gt h

/-- No `(u, v)` pair is ever emitted twice by the abstract recurrence. -/
lemma edgesUpTo_nodup (X : List ℚ) (m : Nat) : (edgesUpTo X m).Nodup := by
  induction m with
  | zero => simp [edgesUpTo]
  | succ m ih =>
    rw [edgesUpTo]
    refine List.Nodup.append ih ?_ ?_
    · refine List.Nodup.map (fun a b h => (Prod.mk.inj h).1) ?_
      exact ((visited_sublist X m (stackUpTo X m)).nodup (stackUpTo_nodup X m))
    · intro p hp hp'
      rcases List.mem_map.1 hp' with ⟨a, _, rfl⟩
      exact absurd (edgesUpTo_bounds hp).2 (lt_irrefl m)

end DT

namespace Claims

/-- **C1.** For every finite sequence, the edge set produced by the linear
stack-based batch algorithm — the streaming builder's per-element `add_one`
recurrence (`dt_hvg`), and `batch_hvg` (`linear_hvg`, defined on nonempty
input: `np.min` of the empty array raises) — equals the ground-truth
horizontal visibility relation: exactly the pairs `(i, j)`, `i < j`, whose
intervening values all lie strictly below `min (X i) (X j)`. -/
theorem batch_edges_match_ground_truth (X : List ℚ) :
    (∀ p : Nat × Nat, p ∈ DT.edgeKeys (DT.build X) ↔ Vis X p.1 p.2) ∧
    (X ≠ [] → ∀ p : Nat × Nat, p ∈ Lin.pairs X ↔ Vis X p.1 p.2) := by
  constructor
  · rintro ⟨u, w⟩
    rw [DT.edgeKeys_build]
    exact edgesUpTo_length_iff X u w
  · rintro hX ⟨u, w⟩
    rw [Lin.pairs_eq X hX]
    exact edgesUpTo_length_iff X u w

theorem batch_edges_match_ground_truth_witness :
    (([1, 5, 2, 4, 3] : List ℚ) ≠ []) ∧
      (((1, 3) : Nat × Nat) ∈ Lin.pairs [1, 5, 2, 4, 3] ↔
        Vis [1, 5, 2, 4, 3] 1 3) :=
  ⟨List.cons_ne_nil _ _,
    (batch_edges_match_ground_truth [1, 5, 2, 4, 3]).2 (List.cons_ne_nil _ _) (1, 3)⟩

end Claims

/-! Helpers for monotone input sequences (claim C6). -/

lemma stackUpTo_of_incr {X : List ℚ}
    (h : ∀ k m, k < m → m < X.length → val X k < val X m) :
    ∀ m, 1 ≤ m → m ≤ X.length → stackUpTo X m = [m - 1]
  | 1, _, _ => by simp [stackUpTo, stepStack, popStack]
  | m + 2, _, hm => by
    have ih : stackUpTo X (m + 1) = [m] := by
      simpa using stackUpTo_of_incr h (m + 1) (by omega) (by omega)
    show stepStack X (stackUpTo X (m + 1)) (m + 1) = [m + 2 - 1]
    rw [ih]
    have hlt : val X m < val X (m + 1) := h m (m + 1) (by omega) (by omega)
    simp [stepStack, popStack, hlt.le, hlt.ne]

lemma pmaxStack_of_incr {X : List ℚ}
    (h : ∀ k m, k < m → m < X.length → val X k < val X m) :
    ∀ m, m ≤ X.length → pmaxStack X m = (List.range m).reverse := by
  intro m hm
  rw [pmaxStack, List.filter_eq_self.2]
  intro u hu
  exact decide_eq_true fun k hk => h k u hk (by have := List.mem_range.1 hu; omega)

lemma stackUpTo_of_decr {X : List ℚ}
    (h : ∀ k m, k < m → m < X.length → val X m < val X k) :
    ∀ m, m ≤ X.length → stackUpTo X m = (List.range m).reverse := by
  intro m hm
  rw [stackUpTo_eq_goodStack, goodStack, List.filter_eq_self.2]
  intro u hu
  exact decide_eq_true fun k hk hku =>
    h u k hku (by have := List.mem_range.1 hu; omega)

lemma filter_range_eq_singleton {p : Nat → Bool} :
    ∀ m, 1 ≤ m → p 0 = true → (∀ u, 1 ≤ u → u < m → p u = false) →
      (List.range m).filter p = [0]
  | 1, _, h0, _ => by simp [List.range_succ, h0]
  | m + 2, _, h0, h1 => by
    rw [List.range_succ, List.filter_append,
      filter_range_eq_singleton (m + 1) (by omega) h0
        (fun u hu1 hu2 => h1 u hu1 (by omega))]
    simp [h1 (m + 1) (by omega) (by omega)]

lemma pmaxStack_of_decr {X : List ℚ}
    (h : ∀ k m, k < m → m < X.length → val X m < val X k) :
    ∀ m, 1 ≤ m → m ≤ X.length → pmaxStack X m = [0] := by
  intro m hm1 hm
  rw [pmaxStack, filter_range_eq_singleton m hm1 ?_ ?_]
  · rfl
  · exact decide_eq_true fun k hk => by omega
  · intro u hu1 hu2
    refine decide_eq_false fun hc => ?_
    exact absurd (hc 0 (by omega)) (not_lt.2 (h 0 u (by omega) (by omega)).le)

namespace Claims

/-- **C6.** After ingesting a (nonempty) strictly increasing sequence of
length `n` into an empty streaming builder, `vis_p` has exactly `n` entries
and `vis_f` exactly one; for a strictly decreasing sequence, `vis_f` has
exactly `n` entries and `vis_p` exactly one; and `vis_f` never exceeds the
number of ingested values. -/
theorem boundary_stack_sizes (X : List ℚ) :
    (X ≠ [] → X.Chain' (· < ·) →
      (DT.build X).vis_p.length = X.length ∧ (DT.build X).vis_f.length = 1) ∧
    (X ≠ [] → X.Chain' (· > ·) →
      (DT.build X).vis_f.length = X.length ∧ (DT.build X).vis_p.length = 1) ∧
    (DT.build X).vis_f.length ≤ X.length := by
  have hlen1 : 1 ≤ X.length ↔ X ≠ [] := by
    cases X <;> simp
  refine ⟨?_, ?_, ?_⟩
  · intro hX hchain
    have hpw := (List.chain'_iff_pairwise).1 hchain
    have hmono : ∀ k m, k < m → m < X.length → val X k < val X m := by
      intro k m hkm hm
      have hk : k < X.length := by omega
      rw [val_eq_getElem hk, val_eq_getElem hm]
      exact List.pairwise_iff_getElem.1 hpw k m hk hm hkm
    rw [DT.build, DT.buildFrom_spec]
    constructor
    · simp [pmaxStack_of_incr hmono X.length le_rfl]
    · simp [stackUpTo_of_incr hmono X.length (hlen1.2 hX) le_rfl]
  · intro hX hchain
    have hpw := (List.chain'_iff_pairwise).1 hchain
    have hmono : ∀ k m, k < m → m < X.length → val X m < val X k := by
      intro k m hkm hm
      have hk : k < X.length := by omega
      rw [val_eq_getElem hk, val_eq_getElem hm]
      exact List.pairwise_iff_getElem.1 hpw k m hk hm hkm
    rw [DT.build, DT.buildFrom_spec]
    constructor
    · simp [stackUpTo_of_decr hmono X.length le_rfl]
    · simp [pmaxStack_of_decr hmono X.length (hlen1.2 hX) le_rfl]
  · rw [DT.build, DT.buildFrom_spec]
    simp only [List.length_map, stackUpTo_eq_goodStack, goodStack,
      List.length_reverse]
    exact le_trans (List.length_filter_le _ _) (by simp)

theorem boundary_stack_sizes_witness :
    (([1, 2, 3] : List ℚ) ≠ []) ∧ ([1, 2, 3] : List ℚ).Chain' (· < ·) ∧
      (DT.build [1, 2, 3]).vis_p.length = 3 ∧
      (DT.build [1, 2, 3]).vis_f.length = 1 := by
  have hchain : (([1, 2, 3] : List ℚ)).Chain' (· < ·) := by
    norm_num [List.chain'_cons]
  exact ⟨List.cons_ne_nil _ _, hchain,
    (boundary_stack_sizes [1, 2, 3]).1 (List.cons_ne_nil _ _) hchain⟩

end Claims

namespace DT

/-- Whatever the branch, the first edge assigned during an `add_one` scan
(with `neighbour_added` still false) connects the stack top — the
previously added vertex — to `v`, with the sentinel weight. -/
lemma scan_fst_head (vx : ℚ) (v : Nat) (nw : Wt) (ux : ℚ) (u : Nat)
    (stk : List (ℚ × Nat)) (h : ℚ) :
    ∃ rest, (scan vx v nw ((ux, u) :: stk) false h).1 = ((u, v), nw) :: rest := by
  by_cases hle : ux ≤ vx
  · by_cases heq : ux = vx
    · exact ⟨[], by simp [scan, hle, heq]⟩
    · exact ⟨(scan vx v nw stk true ux).1, by simp [scan, hle, heq]⟩
  · exact ⟨[], by simp [scan, hle]⟩

lemma edgesW_mem_of_step {X : List ℚ} {lab : Nat → Nat} {nw : Wt}
    {e : (Nat × Nat) × Wt} :
    ∀ {m v : Nat}, v < m →
      e ∈ (scan (val X v) (lab v) nw ((stackUpTo X v).map (pair X lab)) false 0).1 →
      e ∈ edgesW X lab nw m := by
  intro m
  induction m with
  | zero => intro v hv; omega
  | succ m ih =>
    intro v hv he
    rcases Nat.lt_succ_iff_lt_or_eq.1 hv with hv | rfl
    · exact List.mem_append_left _ (ih hv he)
    · exact List.mem_append_right _ he

lemma edgesW_keys_nodup (off : Nat) (X : List ℚ) (nw : Wt) {m : Nat}
    (hm : m ≤ X.length) :
    ((edgesW X (labFn off X.length) nw m).map (·.1)).Nodup := by
  rw [edgesW_keys]
  refine (edgesUpTo_nodup X m).map_on ?_
  intro p hp q hq hpq
  rcases edgesUpTo_bounds hp with ⟨hp1, hp2⟩
  rcases edgesUpTo_bounds hq with ⟨hq1, hq2⟩
  have e1 := @labFn_eq off _ _ (show p.1 < X.length by omega)
  have e2 := @labFn_eq off _ _ (show p.2 < X.length by omega)
  have e3 := @labFn_eq off _ _ (show q.1 < X.length by omega)
  have e4 := @labFn_eq off _ _ (show q.2 < X.length by omega)
  rcases Prod.mk.inj hpq with ⟨hfst, hsnd⟩
  rw [e1, e3] at hfst
  rw [e2, e4] at hsnd
  exact Prod.ext (by omega) (by omega)

/-- In any configured build, the edge between temporal neighbours `i` and
`i+1` resolves to exactly the configured sentinel. -/
theorem lookupE_buildCfg_adjacent (nw : Wt) (off : Nat) (X : List ℚ)
    {i : Nat} (h : i + 1 < X.length) :
    lookupE (buildCfg nw off X) (off + i, off + (i + 1)) = some nw := by
  have hstk : stackUpTo X (i + 1) = i :: popStack X i (stackUpTo X i) := rfl
  have hmem : (((labFn off X.length) i, (labFn off X.length) (i + 1)), nw)
      ∈ edgesW X (labFn off X.length) nw X.length := by
    refine edgesW_mem_of_step h ?_
    rw [hstk]
    rcases scan_fst_head (val X (i + 1)) (labFn off X.length (i + 1)) nw
      (val X i) (labFn off X.length i)
      ((popStack X i (stackUpTo X i)).map (pair X (labFn off X.length))) 0 with ⟨rest, hr⟩
    rw [List.map_cons, pair, hr]
    exact List.mem_cons_self _ _
  rw [labFn_eq (show i < X.length by omega), labFn_eq h] at hmem
  rw [buildCfg_spec, lookupE]
  have hnd : (((edgesW X (labFn off X.length) nw X.length).reverse.map (·.1))).Nodup := by
    rw [List.map_reverse]
    exact List.nodup_reverse.2 (edgesW_keys_nodup off X nw le_rfl)
  rw [find?_eq_of_nodup_keys hnd (List.mem_reverse.2 hmem)]
  rfl

end DT

namespace Claims

/-- **C4 (amended).** In the streaming builder (`dt_hvg`), whether values
arrive one at a time, as a batch, or through the constructor, every edge
between temporally adjacent vertices resolves to exactly the configured
`neighbour_weight` sentinel, regardless of the sequence's values.  (In the
batch algorithm of `linear_hvg` this fails: adjacent edges get finite
value-dependent weights — see the counterexample.) -/
theorem adjacent_edges_carry_sentinel (nw : DT.Wt) (off : Nat) (X : List ℚ)
    (i : Nat) (h : i + 1 < X.length) :
    DT.lookupE (DT.buildCfg nw off X) (off + i, off + (i + 1)) = some nw :=
  DT.lookupE_buildCfg_adjacent nw off X h

theorem adjacent_edges_carry_sentinel_witness :
    (1 + 1 < ([1, 5, 2] : List ℚ).length) ∧
      DT.lookupE (DT.buildCfg ⊤ 0 [1, 5, 2]) (0 + 1, 0 + (1 + 1)) = some ⊤ :=
  ⟨by norm_num, adjacent_edges_carry_sentinel ⊤ 0 [1, 5, 2] 1 (by norm_num)⟩

/-- **C4 (counterexample).** In `linear_hvg.batch_hvg` the weights of the
adjacent edges `(0,1)` and `(1,2)` of the series `[1,2,3]` are `1` and `2`:
adjacent-edge weights depend on the sequence's values, so they cannot all
equal one configured sentinel. -/
theorem adjacent_weight_not_sentinel_in_linear_batch :
    (Lin.batchHvg [1, 2, 3]).map (fun r => r.1.E)
        = some [(0, 1, (1 : ℚ)), (1, 2, 2)] ∧ (1 : ℚ) ≠ 2 := by
  constructor
  · norm_num [Lin.batchHvg, Lin.minVal, Lin.stInit, Lin.step, Lin.scan, val,
      List.range_succ, WithBot.bot_lt_coe, WithBot.coe_lt_coe]
  · norm_num

end Claims

namespace Ipp

/-- The merge-timing phase of `record_run_times_parallel` in
`merge_experiment3_ipp.py`: `merged += hvg` is folded left-to-right over the
chunk HVGs.  An exception aborts the fold. -/
def mergeFold : DT.St → List DT.St → Except DT.Err DT.St
  | s, [] => .ok s
  | s, h :: t =>
    match DT.merge s h with
    | .error e => .error e
    | .ok m => mergeFold m t

/-- The `merge_times` list that the driver returns.  The fold above runs
inside `try: ... except Exception:`, so *any* merge exception — including
the neighbour-weight `AssertionError` — is caught, printed, and replaced by
the `[-1]` sentinel.  Wall-clock durations are not representable here; a
successful run is modelled as one `0` entry per completed merge, keeping
exactly the control-flow content (`[-1]` vs. per-merge entries). -/
def mergeTimes (first : DT.St) (rest : List DT.St) : List Int :=
  match mergeFold first rest with
  | .error _ => [-1]
  | .ok _ => List.replicate rest.length 0

end Ipp

namespace Gen

/-- Python exception raised by `tries -= 1` when no local `tries` exists. -/
inductive PyErr
  | unboundLocalError
  deriving DecidableEq, Repr

/-- The `while time_series is None and tries_remaining > 0:` loop of
`run_experiment.generate_time_series` (the same loop appears in
`experiments_01.py`), embedded *including its slip*: the `except` branch
executes `tries -= 1`, but the only counter in scope is named
`tries_remaining`, so the first caught generator exception raises
`UnboundLocalError`, which propagates out of the function.  The source
function is modelled as `src : Nat → Option (List ℚ)` from the attempt
number to the produced series (`none` = the generator raised); the `Nat`
paired with each outcome counts how many times `src` was invoked. -/
def genLoop (src : Nat → Option (List ℚ)) :
    Nat → Nat → Except (PyErr × Nat) (Option (List ℚ) × Nat)
  | 0, attempts => .ok (none, attempts)
  | _tries_remaining + 1, attempts =>
    match src attempts with
    | some ts => .ok (some ts, attempts + 1)
    | none => .error (.unboundLocalError, attempts + 1)

/-- `generate_time_series`: `tries_remaining = 10; time_series = None`,
then the loop above. -/
def generateTimeSeries (src : Nat → Option (List ℚ)) :
    Except (PyErr × Nat) (Option (List ℚ) × Nat) :=
  genLoop src 10 0

end Gen

namespace Claims

/-- **C7 (amended).** `HVG.merge` on operands with different
`neighbour_weight` sentinels always fails the leading assertion — before
reading or modifying any state — and never returns a merged graph; within
`dt_hvg` nothing catches it.  However, the cluster merge-scaling driver
(`merge_experiment3_ipp.py`) runs its merge loop inside a catch-all
`except Exception:` handler, so there the assertion failure *is* caught and
recorded as a `[-1]` sentinel instead of aborting the run. -/
theorem merge_sentinel_mismatch_asserts (s o : DT.St)
    (h : s.neighbour_weight ≠ o.neighbour_weight) :
    DT.merge s o = .error .assertionError ∧
      (∀ st, DT.merge s o ≠ .ok st) ∧
      Ipp.mergeTimes s [o] = [-1] := by
  have hm : DT.merge s o = .error .assertionError := by
    rw [DT.merge, if_pos h]
  refine ⟨hm, fun st hc => by rw [hm] at hc; exact Except.noConfusion hc, ?_⟩
  rw [Ipp.mergeTimes, Ipp.mergeFold, hm]

theorem merge_sentinel_mismatch_asserts_witness :
    ((DT.init ⊤).neighbour_weight ≠ (DT.init ((5 : ℚ) : DT.Wt)).neighbour_weight) ∧
      DT.merge (DT.init ⊤) (DT.init ((5 : ℚ) : DT.Wt)) = .error .assertionError :=
  ⟨by decide, (merge_sentinel_mismatch_asserts _ _ (by decide)).1⟩

/-- **C7 (counterexample to "never caught anywhere in the library").**
Feeding two differently-configured builders through the cluster driver's
merge loop: the assertion failure is caught there and turned into the
`[-1]` sentinel result — the driver does not let it propagate. -/
theorem merge_assertion_caught_in_cluster_driver :
    Ipp.mergeTimes (DT.init ⊤) [DT.init ((5 : ℚ) : DT.Wt)] = [-1] ∧
      DT.merge (DT.init ⊤) (DT.init ((5 : ℚ) : DT.Wt)) = .error .assertionError :=
  ⟨rfl, rfl⟩

/-- **C10 (amended).** With equal sentinels, merging fails on empty
operands before producing any graph: an `IndexError` (`self.vis_f[-1]` or
`other.vis_p[0]`) when exactly one of left `vis_f` / right `vis_p` is
empty, but a `ValueError` (unpacking `zip(*join_vtx)` with no entries) when
both are empty.  For built graphs, `vis_f` (resp. `vis_p`) is empty iff no
value was ever added. -/
theorem merge_empty_operand_errors (s o : DT.St)
    (hnw : s.neighbour_weight = o.neighbour_weight) :
    (s.vis_f = [] → o.vis_p ≠ [] → DT.merge s o = .error .indexError) ∧
    (s.vis_f ≠ [] → o.vis_p = [] → DT.merge s o = .error .indexError) ∧
    (s.vis_f = [] → o.vis_p = [] → DT.merge s o = .error .valueError) ∧
    (∀ X : List ℚ, ((DT.build X).vis_f = [] ↔ X = []) ∧
      ((DT.build X).vis_p = [] ↔ X = [])) := by
  refine ⟨?_, ?_, ?_, ?_⟩
  · intro hf hp
    obtain ⟨p, t, hpv⟩ := List.exists_cons_of_ne_nil hp
    rw [DT.merge, if_neg (by simp [hnw]), hf, hpv]
    simp
  · intro hf hp
    obtain ⟨f, t, hfv⟩ := List.exists_cons_of_ne_nil hf
    rw [DT.merge, if_neg (by simp [hnw]), hfv, hp]
    simp
  · intro hf hp
    rw [DT.merge, if_neg (by simp [hnw]), hf, hp]
    simp
  · intro X
    rw [DT.build, DT.buildFrom_spec]
    cases X with
    | nil => simp [stackUpTo, pmaxStack]
    | cons x xs =>
      have h0 : 0 ∈ pmaxStack (x :: xs) (x :: xs).length :=
        mem_pmaxStack.2 ⟨by simp, fun k hk => by omega⟩
      refine ⟨⟨fun hc => ?_, fun hc => absurd hc (List.cons_ne_nil x xs)⟩,
              ⟨fun hc => ?_, fun hc => absurd hc (List.cons_ne_nil x xs)⟩⟩
      · exact absurd hc (by simp [stackUpTo, stepStack])
      · exact absurd hc (List.ne_nil_of_mem (List.mem_map_of_mem _ h0))

theorem merge_empty_operand_errors_witness :
    ((DT.St.mk [] [] [] [(1, 0)] 1 ⊤).neighbour_weight
        = (DT.init ⊤).neighbour_weight) ∧
      DT.merge (DT.St.mk [] [] [] [(1, 0)] 1 ⊤) (DT.init ⊤)
        = .error .indexError :=
  ⟨rfl, (merge_empty_operand_errors _ _ rfl).2.1 (by decide) rfl⟩

/-- **C10 (counterexample).** Merging two builders that have had no values
added raises the tuple-unpacking `ValueError` of `zip(*join_vtx)` — before
the `IndexError` lines are reached — so the failure is not an indexing
error in that case. -/
theorem merge_two_empty_builders_value_error :
    DT.merge (DT.init ⊤) (DT.init ⊤) = .error .valueError ∧
      DT.Err.valueError ≠ DT.Err.indexError :=
  ⟨rfl, by decide⟩

/-- **C8.** A source function that raises on every invocation is attempted
exactly once, after which `generate_time_series` raises
`UnboundLocalError` from `tries -= 1` (there is no local `tries`; the
counter is `tries_remaining`): the documented retry-10-times-then-None
policy is unreachable, and no diagnostic is ever produced.  A first-call
success, by contrast, is returned after exactly one attempt. -/
theorem generation_raises_after_one_attempt :
    Gen.generateTimeSeries (fun _ => none) = .error (.unboundLocalError, 1) ∧
      Gen.generateTimeSeries (fun _ => some [0]) = .ok (some [0], 1) :=
  ⟨rfl, rfl⟩

end Claims

/-! ## The divide-and-conquer algorithm of `dc_hvg.py` -/

namespace DC

/-- `np.argmax(X[l:r]) + l`: position of a maximum of the window `[l, r)`
(`l` itself for an empty window). -/
def argmaxFrom (X : List ℚ) (l r : Nat) : Nat :=
  (List.range' l (r - l)).foldl (fun k i => if val X k < val X i then i else k) l

lemma foldl_argmax_spec (X : List ℚ) :
    ∀ (L : List Nat) (k0 : Nat),
      ((L.foldl (fun k i => if val X k < val X i then i else k) k0) = k0 ∨
        (L.foldl (fun k i => if val X k < val X i then i else k) k0) ∈ L) ∧
      val X k0 ≤ val X (L.foldl (fun k i => if val X k < val X i then i else k) k0) ∧
      ∀ i ∈ L, val X i ≤ val X (L.foldl (fun k i => if val X k < val X i then i else k) k0)
  | [], k0 => ⟨Or.inl rfl, le_refl _, by simp⟩
  | i :: L, k0 => by
    simp only [List.foldl_cons]
    rcases foldl_argmax_spec X L (if val X k0 < val X i then i else k0) with ⟨h1, h2, h3⟩
    have hacc : val X k0 ≤ val X (if val X k0 < val X i then i else k0) ∧
        val X i ≤ val X (if val X k0 < val X i then i else k0) := by
      by_cases hc : val X k0 < val X i
      · simp [hc, hc.le]
      · simp [hc, not_lt.1 hc]
    refine ⟨?_, le_trans hacc.1 h2, ?_⟩
    · rcases h1 with h1 | h1
      · rw [h1]
        by_cases hc : val X k0 < val X i
        · simp [hc]
        · simp [hc]
      · exact Or.inr (List.mem_cons_of_mem i h1)
    · intro j hj
      rcases List.mem_cons.1 hj with rfl | hj
      · exact le_trans hacc.2 h2
      · exact h3 j hj

lemma argmaxFrom_bounds {X : List ℚ} {l r : Nat} (h : l < r) :
    l ≤ argmaxFrom X l r ∧ argmaxFrom X l r < r := by
  show l ≤ (List.range' l (r - l)).foldl (fun k i => if val X k < val X i then i else k) l ∧
    (List.range' l (r - l)).foldl (fun k i => if val X k < val X i then i else k) l < r
  rcases (foldl_argmax_spec X (List.range' l (r - l)) l).1 with h1 | h1
  · rw [h1]; omega
  · have := List.mem_range'_1.1 h1; omega

lemma argmaxFrom_is_max {X : List ℚ} {l r : Nat} (h : l < r) :
    ∀ i, l ≤ i → i < r → val X i ≤ val X (argmaxFrom X l r) := by
  intro i hi1 hi2
  exact (foldl_argmax_spec X (List.range' l (r - l)) l).2.2 i
    (List.mem_range'_1.2 ⟨hi1, by omega⟩)

/-- The visibility check done for each candidate `i` against the pivot `k`
(`a = min(i,k)`, `b = max(i,k)`, `all(yc[t] < min(X[a], X[b]))`). -/
def Sees (X : List ℚ) (a b : Nat) : Prop :=
  ∀ j, j < b → a < j → val X j < min (val X a) (val X b)

instance (X : List ℚ) (a b : Nat) : Decidable (Sees X a b) := by
  unfold Sees; infer_instance

lemma visV_iff_sees {X : List ℚ} {a b : Nat} :
    VisV X a b ↔ a < b ∧ Sees X a b := Iff.rfl

/-- `dc_hvg.hvg(X, left, right)` with the early-break `elif` removed (the
claim compares the algorithms "without the early-break short-circuit"; the
faithful scan otherwise checks each `i ≠ k` with the full condition and
collects the pivot's adjacency entry before recursing on both sides). -/
def hvgRec (X : List ℚ) (l r : Nat) : List (Nat × List Nat) :=
  if h : l < r then
    let k := argmaxFrom X l r
    let node_visible := (List.range' l (r - l)).filter fun i =>
      decide (i ≠ k) && decide (Sees X (min i k) (max i k))
    (if node_visible.length > 0 then [(k, node_visible)] else []) ++
      hvgRec X l k ++ hvgRec X (k + 1) r
  else []
termination_by r - l
decreasing_by
· have := @argmaxFrom_bounds X _ _ h
  omega
· have := @argmaxFrom_bounds X _ _ h
  omega

/-- Flatten the pivot-keyed adjacency entries into vertex pairs. -/
def pairsOf (entries : List (Nat × List Nat)) : List (Nat × Nat) :=
  entries.flatMap fun e => e.2.map fun i => (min i e.1, max i e.1)

/-- The edge pairs of the divide-and-conquer algorithm (no early break). -/
def dcPairs (X : List ℚ) : List (Nat × Nat) :=
  pairsOf (hvgRec X 0 X.length)

lemma pairsOf_append (a b : List (Nat × List Nat)) :
    pairsOf (a ++ b) = pairsOf a ++ pairsOf b := by
  simp [pairsOf]

/-- Membership in the pivot entry of one `hvgRec` level. -/
lemma mem_node_pairs {X : List ℚ} {k u w : Nat} {cand : List Nat} :
    ((u, w) ∈ pairsOf (if (cand.filter fun i =>
        decide (i ≠ k) && decide (Sees X (min i k) (max i k))).length > 0
      then [(k, cand.filter fun i =>
        decide (i ≠ k) && decide (Sees X (min i k) (max i k)))] else []) ↔
      ∃ i, i ∈ cand ∧ i ≠ k ∧ Sees X (min i k) (max i k) ∧
        u = min i k ∧ w = max i k) := by
  set flt := cand.filter fun i =>
    decide (i ≠ k) && decide (Sees X (min i k) (max i k)) with hflt
  have hmemflt : ∀ i, i ∈ flt ↔ i ∈ cand ∧ i ≠ k ∧ Sees X (min i k) (max i k) := by
    intro i
    rw [hflt, List.mem_filter, Bool.and_eq_true, decide_eq_true_iff, decide_eq_true_iff]
  by_cases hc : flt.length > 0
  · rw [if_pos hc]
    constructor
    · intro hmem
      simp only [pairsOf, List.flatMap_cons, List.flatMap_nil, List.append_nil,
        List.mem_map] at hmem
      rcases hmem with ⟨i, hi, heq⟩
      rcases (Prod.mk.inj heq.symm) with ⟨h1, h2⟩
      rcases (hmemflt i).1 hi with ⟨g1, g2, g3⟩
      exact ⟨i, g1, g2, g3, h1, h2⟩
    · rintro ⟨i, g1, g2, g3, h1, h2⟩
      simp only [pairsOf, List.flatMap_cons, List.flatMap_nil, List.append_nil,
        List.mem_map]
      exact ⟨i, (hmemflt i).2 ⟨g1, g2, g3⟩, by rw [h1, h2]⟩
  · rw [if_neg hc]
    have hempty : flt = [] := by
      cases hfe : flt with
      | nil => rfl
      | cons a b => rw [hfe] at hc; simp at hc
    constructor
    · intro hmem
      simp [pairsOf] at hmem
    · rintro ⟨i, g1, g2, g3, _, _⟩
      have : i ∈ flt := (hmemflt i).2 ⟨g1, g2, g3⟩
      rw [hempty] at this
      exact absurd this (List.not_mem_nil i)

/-- Window-level correctness of the no-early-break scan. -/
theorem hvgRec_pairs_mem (X : List ℚ) :
    ∀ (n l r : Nat), r - l ≤ n → ∀ u w,
      ((u, w) ∈ pairsOf (hvgRec X l r) ↔ l ≤ u ∧ w < r ∧ VisV X u w) := by
  intro n
  induction n with
  | zero =>
    intro l r hn u w
    rw [hvgRec, dif_neg (by omega)]
    simp only [pairsOf, List.flatMap_nil, List.not_mem_nil, false_iff]
    rintro ⟨h1, h2, h3, _⟩
    omega
  | succ n ih =>
    intro l r hn u w
    by_cases hlr : l < r
    · rw [hvgRec, dif_pos hlr]
      have hkb := @argmaxFrom_bounds X _ _ hlr
      have hkmax := @argmaxFrom_is_max X _ _ hlr
      set k := argmaxFrom X l r with hk
      rw [pairsOf_append, pairsOf_append]
      simp only [List.mem_append]
      rw [mem_node_pairs, ih l k (by omega) u w, ih (k + 1) r (by omega) u w]
      constructor
      · intro hin
        rcases hin with (hN | hL) | hR
        · rcases hN with ⟨i, hi1, hi2, hi3, hu, hw⟩
          have hir := List.mem_range'_1.1 hi1
          subst hu
          subst hw
          have hminmax : min i k < max i k := by
            rcases lt_or_gt_of_ne hi2 with h | h
            · rw [min_eq_left h.le, max_eq_right h.le]; exact h
            · rw [min_eq_right h.le, max_eq_left h.le]; exact h
          refine ⟨?_, ?_, hminmax, hi3⟩
          · rcases lt_or_gt_of_ne hi2 with h | h
            · rw [min_eq_left h.le]; exact hir.1
            · rw [min_eq_right h.le]; exact hkb.1
          · rcases lt_or_gt_of_ne hi2 with h | h
            · rw [max_eq_right h.le]; exact hkb.2
            · rw [max_eq_left h.le]; omega
        · exact ⟨hL.1, by omega, hL.2.2⟩
        · exact ⟨by omega, hR.2.1, hR.2.2⟩
      · rintro ⟨h1, h2, huw, hsee⟩
        by_cases hku : k = u
        · subst hku
          refine Or.inl (Or.inl ⟨w, List.mem_range'_1.2 ⟨by omega, by omega⟩,
            by omega, ?_, ?_, ?_⟩)
          · rw [min_eq_right huw.le, max_eq_left huw.le]
            exact hsee
          · rw [min_eq_right huw.le]
          · rw [max_eq_left huw.le]
        · by_cases hkw : k = w
          · subst hkw
            refine Or.inl (Or.inl ⟨u, List.mem_range'_1.2 ⟨h1, by omega⟩,
              by omega, ?_, ?_, ?_⟩)
            · rw [min_eq_left huw.le, max_eq_right huw.le]
              exact hsee
            · rw [min_eq_left huw.le]
            · rw [max_eq_right huw.le]
          · have hnostraddle : ¬ (u < k ∧ k < w) := by
              rintro ⟨hc1, hc2⟩
              have h4 := hsee k hc2 hc1
              have h5 := hkmax u h1 (by omega)
              exact absurd (lt_of_lt_of_le h4 (le_trans (min_le_left _ _) h5))
                (lt_irrefl _)
            rcases Nat.lt_or_ge u k with hu | hu
            · have hwk : w < k := by
                rcases Nat.lt_or_ge w k with h | h
                · exact h
                · exact absurd ⟨hu, lt_of_le_of_ne h hkw⟩ hnostraddle
              exact Or.inl (Or.inr ⟨h1, hwk, huw, hsee⟩)
            · have huk : k < u := lt_of_le_of_ne hu hku
              exact Or.inr ⟨by omega, h2, huw, hsee⟩
    · rw [hvgRec, dif_neg hlr]
      simp only [pairsOf, List.flatMap_nil, List.not_mem_nil, false_iff]
      rintro ⟨h1, h2, h3, _⟩
      omega

/-- The divide-and-conquer pairs are exactly the ground-truth pairs. -/
theorem dcPairs_mem (X : List ℚ) (u w : Nat) :
    (u, w) ∈ dcPairs X ↔ Vis X u w := by
  rw [dcPairs, hvgRec_pairs_mem X (X.length - 0) 0 X.length le_rfl u w]
  unfold Vis
  constructor
  · rintro ⟨_, h2, h3⟩; exact ⟨h2, h3⟩
  · rintro ⟨h1, h2⟩; exact ⟨Nat.zero_le u, h1, h2⟩

end DC

/-! ## The binary-search-tree encoding of `bst_hvg.py` -/

namespace BST

/-- A `bst_hvg.Node`: binary-search-tree node keyed on the temporal index
(`value` field), carrying the sample value (`data` field). -/
inductive Tree
  | nil
  | node (l : Tree) (idx : Nat) (x : ℚ) (r : Tree)
  deriving DecidableEq, Repr

/-- `Node.add`: descend left when the new index is smaller, else right
(indices are distinct, so no equal-key case arises); an empty node takes
the value in place. -/
def insert : Tree → Nat → ℚ → Tree
  | .nil, i, x => .node .nil i x .nil
  | .node l j y r, i, x =>
    if i < j then .node (insert l i x) j y r else .node l j y (insert r i x)

/-- The stable value-ascending comparison realised by
`np.argsort(X, kind='mergesort')`: by value, ties by original index. -/
def leIdx (X : List ℚ) (i j : Nat) : Bool :=
  decide (val X i < val X j) || (decide (val X i = val X j) && decide (i ≤ j))

/-- The insertion order of `bst_hvg.hvg`: the stable ascending argsort,
reversed (`[::-1]`) — value descending, ties by index descending. -/
def insOrder (X : List ℚ) : List Nat :=
  ((List.range X.length).mergeSort (leIdx X)).reverse

/-- `bst_hvg.hvg(X)`: insert every index (with its value) in that order. -/
def hvgTree (X : List ℚ) : Tree :=
  (insOrder X).foldl (fun t i => insert t i (val X i)) .nil

/-- `a` precedes `b` in insertion order: strictly greater value, or equal
value and strictly greater index. -/
def pGT (X : List ℚ) (a b : Nat) : Prop :=
  val X b < val X a ∨ (val X a = val X b ∧ b < a)

lemma pGT.val_le {X : List ℚ} {a b : Nat} (h : pGT X a b) : val X b ≤ val X a := by
  rcases h with h | ⟨h, _⟩
  · exact h.le
  · exact h.ge

lemma pGT.val_lt_of_lt {X : List ℚ} {a b : Nat} (h : pGT X a b) (hab : a < b) :
    val X b < val X a := by
  rcases h with h | ⟨_, hba⟩
  · exact h
  · omega

lemma insOrder_nodup (X : List ℚ) : (insOrder X).Nodup := by
  rw [insOrder, List.nodup_reverse]
  exact ((List.mergeSort_perm (List.range X.length) (leIdx X)).nodup_iff).2
    (List.nodup_range X.length)

lemma mem_insOrder {X : List ℚ} {i : Nat} : i ∈ insOrder X ↔ i < X.length := by
  rw [insOrder, List.mem_reverse, List.mem_mergeSort, List.mem_range]

lemma insOrder_pairwise (X : List ℚ) : (insOrder X).Pairwise (pGT X) := by
  have htrans : ∀ a b c, leIdx X a b → leIdx X b c → leIdx X a c := by
    intro a b c hab hbc
    rw [leIdx, Bool.or_eq_true, Bool.and_eq_true, decide_eq_true_iff, decide_eq_true_iff,
      decide_eq_true_iff] at hab hbc ⊢
    rcases hab with h1 | ⟨h1, h1'⟩ <;> rcases hbc with h2 | ⟨h2, h2'⟩
    · exact Or.inl (h1.trans h2)
    · exact Or.inl (h2 ▸ h1)
    · exact Or.inl (h1 ▸ h2)
    · exact Or.inr ⟨h1.trans h2, h1'.trans h2'⟩
  have htotal : ∀ a b, leIdx X a b || leIdx X b a := by
    intro a b
    rw [Bool.or_eq_true, leIdx, leIdx, Bool.or_eq_true, Bool.or_eq_true,
      Bool.and_eq_true, Bool.and_eq_true, decide_eq_true_iff, decide_eq_true_iff,
      decide_eq_true_iff, decide_eq_true_iff, decide_eq_true_iff, decide_eq_true_iff]
    rcases lt_trichotomy (val X a) (val X b) with h | h | h
    · exact Or.inl (Or.inl h)
    · rcases Nat.le_total a b with h' | h'
      · exact Or.inl (Or.inr ⟨h, h'⟩)
      · exact Or.inr (Or.inr ⟨h.symm, h'⟩)
    · exact Or.inr (Or.inl h)
  have hsorted := @List.sorted_mergeSort _ (leIdx X) htrans htotal (List.range X.length)
  have hrev : (insOrder X).Pairwise fun a b => leIdx X b a := by
    rw [insOrder, List.pairwise_reverse]
    exact hsorted
  have hnd := insOrder_nodup X
  refine List.Pairwise.imp_of_mem ?_ (hrev.and hnd)
  rintro a b _ _ ⟨hle, hne⟩
  rw [leIdx, Bool.or_eq_true, Bool.and_eq_true, decide_eq_true_iff, decide_eq_true_iff,
    decide_eq_true_iff] at hle
  rcases hle with h | ⟨h, h'⟩
  · exact Or.inl h
  · exact Or.inr ⟨h.symm, lt_of_le_of_ne h' (fun hc => hne hc.symm)⟩

/-- The recursive shape the insertion fold produces: each call's head is
the root, the remaining keys split around it. -/
def buildT (X : List ℚ) : List Nat → Tree
  | [] => .nil
  | i :: rest =>
    .node (buildT X (rest.filter fun j => decide (j < i))) i (val X i)
      (buildT X (rest.filter fun j => decide (i < j)))
termination_by o => o.length
decreasing_by
· exact Nat.lt_succ_of_le (List.length_filter_le _ _)
· exact Nat.lt_succ_of_le (List.length_filter_le _ _)

lemma foldl_insert_into_node (X : List ℚ) (i : Nat) (x : ℚ) :
    ∀ (o : List Nat) (tl tr : Tree), (∀ j ∈ o, j ≠ i) →
      o.foldl (fun t j => insert t j (val X j)) (.node tl i x tr)
        = .node ((o.filter fun j => decide (j < i)).foldl
              (fun t j => insert t j (val X j)) tl)
            i x
            ((o.filter fun j => decide (i < j)).foldl
              (fun t j => insert t j (val X j)) tr)
  | [], _, _, _ => rfl
  | j :: rest, tl, tr, hne => by
    have hji := hne j (List.mem_cons_self _ _)
    have hrest := fun a ha => hne a (List.mem_cons_of_mem _ ha)
    by_cases hj : j < i
    · have hstep : insert (.node tl i x tr) j (val X j)
          = .node (insert tl j (val X j)) i x tr := by
        simp [insert, hj]
      rw [List.foldl_cons, hstep,
        foldl_insert_into_node X i x rest (insert tl j (val X j)) tr hrest]
      have h1 : (j :: rest).filter (fun j => decide (j < i))
          = j :: rest.filter (fun j => decide (j < i)) := by
        simp [List.filter_cons, hj]
      have h2 : (j :: rest).filter (fun j => decide (i < j))
          = rest.filter (fun j => decide (i < j)) := by
        simp [List.filter_cons, show ¬ i < j by omega]
      rw [h1, h2, List.foldl_cons]
    · have hij : i < j := by omega
      have hstep : insert (.node tl i x tr) j (val X j)
          = .node tl i x (insert tr j (val X j)) := by
        simp [insert, hj]
      rw [List.foldl_cons, hstep,
        foldl_insert_into_node X i x rest tl (insert tr j (val X j)) hrest]
      have h1 : (j :: rest).filter (fun j => decide (j < i))
          = rest.filter (fun j => decide (j < i)) := by
        simp [List.filter_cons, hj]
      have h2 : (j :: rest).filter (fun j => decide (i < j))
          = j :: rest.filter (fun j => decide (i < j)) := by
        simp [List.filter_cons, hij]
      rw [h1, h2, List.foldl_cons]

lemma foldl_insert_eq_buildT (X : List ℚ) :
    ∀ (n : Nat) (o : List Nat), o.length ≤ n → o.Nodup →
      o.foldl (fun t j => insert t j (val X j)) .nil = buildT X o := by
  intro n
  induction n with
  | zero =>
    intro o ho _
    have hno : o = [] := List.length_eq_zero.1 (by omega)
    subst hno
    rw [buildT]
    rfl
  | succ n ih =>
    intro o ho hnd
    cases o with
    | nil => rw [buildT]; rfl
    | cons i rest =>
      rcases List.pairwise_cons.1 hnd with ⟨hi, hnd'⟩
      have hne : ∀ j ∈ rest, j ≠ i := fun j hj => fun hc => hi j hj hc.symm
      rw [List.foldl_cons]
      have hstep : insert .nil i (val X i) = .node .nil i (val X i) .nil := rfl
      rw [hstep, foldl_insert_into_node X i (val X i) rest .nil .nil hne]
      rw [ih _ (le_trans (List.length_filter_le _ _) (by simpa using ho)) (hnd'.filter _),
        ih _ (le_trans (List.length_filter_le _ _) (by simpa using ho)) (hnd'.filter _)]
      rw [buildT]

theorem hvgTree_eq_buildT (X : List ℚ) : hvgTree X = buildT X (insOrder X) :=
  foldl_insert_eq_buildT X (insOrder X).length (insOrder X) le_rfl (insOrder_nodup X)

/-- All `(index, value)` entries of a tree, in symmetric order. -/
def entries : Tree → List (Nat × ℚ)
  | .nil => []
  | .node l i x r => entries l ++ [(i, x)] ++ entries r

/-- Whether the subtree holds a value reaching height `q`. -/
def anyGe (t : Tree) (q : ℚ) : Bool :=
  (entries t).any fun e => decide (q ≤ e.2)

lemma entries_buildT_mem (X : List ℚ) :
    ∀ (n : Nat) (o : List Nat), o.length ≤ n → o.Nodup → ∀ j y,
      ((j, y) ∈ entries (buildT X o) ↔ j ∈ o ∧ y = val X j) := by
  intro n
  induction n with
  | zero =>
    intro o ho _ j y
    have hno : o = [] := List.length_eq_zero.1 (by omega)
    subst hno
    rw [buildT]
    simp [entries]
  | succ n ih =>
    intro o ho hnd j y
    cases o with
    | nil => rw [buildT]; simp [entries]
    | cons i rest =>
      rcases List.pairwise_cons.1 hnd with ⟨hi, hnd'⟩
      rw [buildT]
      simp only [entries, List.mem_append, List.mem_singleton]
      have hlen : rest.length ≤ n := by simpa using ho
      rw [ih _ (le_trans (List.length_filter_le _ _) hlen) (hnd'.filter _) j y,
        ih _ (le_trans (List.length_filter_le _ _) hlen) (hnd'.filter _) j y]
      constructor
      · rintro ((⟨hmem, rfl⟩ | heq) | ⟨hmem, rfl⟩)
        · rw [List.mem_filter] at hmem
          exact ⟨List.mem_cons_of_mem i hmem.1, rfl⟩
        · rcases Prod.mk.inj heq with ⟨rfl, rfl⟩
          exact ⟨List.mem_cons_self _ _, rfl⟩
        · rw [List.mem_filter] at hmem
          exact ⟨List.mem_cons_of_mem i hmem.1, rfl⟩
      · rintro ⟨hmem, rfl⟩
        rcases List.mem_cons.1 hmem with rfl | hmem
        · exact Or.inl (Or.inr rfl)
        · have hji : j ≠ i := fun hc => hi j hmem hc.symm
          rcases Nat.lt_trichotomy j i with h | h | h
          · exact Or.inl (Or.inl ⟨List.mem_filter.2 ⟨hmem, by simpa using h⟩, rfl⟩)
          · exact absurd h hji
          · exact Or.inr ⟨List.mem_filter.2 ⟨hmem, by simpa using h⟩, rfl⟩

lemma anyGe_buildT_eq_false (X : List ℚ) {n : Nat} {o : List Nat}
    (ho : o.length ≤ n) (hnd : o.Nodup) (q : ℚ) :
    (anyGe (buildT X o) q = false ↔ ∀ j ∈ o, val X j < q) := by
  rw [anyGe, List.any_eq_false]
  constructor
  · intro h j hj
    have := h (j, val X j) ((entries_buildT_mem X n o ho hnd j _).2 ⟨hj, rfl⟩)
    simpa using this
  · rintro h ⟨j, y⟩ he
    rcases (entries_buildT_mem X n o ho hnd j y).1 he with ⟨h1, rfl⟩
    simpa using h j h1

/-- The candidate edge to the nearest left-side ancestor: present unless
the left subtree (the nodes strictly between the ancestor and this node)
shadows the view by reaching this node's height. -/
def sideL (pl : Option Nat) (l : Tree) (x : ℚ) (i : Nat) : List (Nat × Nat) :=
  match pl with
  | some a => if anyGe l x then [] else [(a, i)]
  | none => []

/-- The candidate edge to the nearest right-side ancestor. -/
def sideR (pr : Option Nat) (r : Tree) (x : ℚ) (i : Nat) : List (Nat × Nat) :=
  match pr with
  | some b => if anyGe r x then [] else [(i, b)]
  | none => []

/-- Modelled from the spec: the repository builds the encoding tree
(`bst_hvg.hvg`) but ships no decoder for it; spec §4.2 describes the
encoded edges: "an edge exists between a node and its nearest ancestor on
each side whose value has not yet been 'shadowed'".  Descending the tree
while tracking the nearest left-side and right-side ancestor indices, each
node contributes the edge to its nearest ancestor on a side unless that
view is shadowed — i.e. unless some node strictly between them (exactly
this node's subtree on that side) rises to the node's own height. -/
def decode : Tree → Option Nat → Option Nat → List (Nat × Nat)
  | .nil, _, _ => []
  | .node l i x r, pl, pr =>
    sideL pl l x i ++ (sideR pr r x i ++
      (decode l pl (some i) ++ decode r (some i) pr))

/-- The edge pairs read off the `bst_hvg` tree. -/
def bstPairs (X : List ℚ) : List (Nat × Nat) :=
  decode (hvgTree X) none none

/-- `j` lies strictly inside the (optional) ancestor bounds. -/
def inB (pl pr : Option Nat) (j : Nat) : Prop :=
  (∀ a, pl = some a → a < j) ∧ (∀ b, pr = some b → j < b)

lemma mem_sideL {pl : Option Nat} {l : Tree} {x : ℚ} {i u w : Nat} :
    (u, w) ∈ sideL pl l x i ↔ (pl = some u ∧ w = i ∧ anyGe l x = false) := by
  cases pl with
  | none => simp [sideL]
  | some a =>
    rw [sideL]
    cases hc : anyGe l x with
    | true => simp [hc]
    | false =>
      simp only [hc, Bool.false_eq_true, if_false, List.mem_singleton]
      constructor
      · intro h
        rcases Prod.mk.inj h with ⟨rfl, rfl⟩
        exact ⟨rfl, rfl, trivial⟩
      · rintro ⟨h1, rfl, _⟩
        rcases Option.some.inj h1 with rfl
        rfl

lemma mem_sideR {pr : Option Nat} {r : Tree} {x : ℚ} {i u w : Nat} :
    (u, w) ∈ sideR pr r x i ↔ (pr = some w ∧ u = i ∧ anyGe r x = false) := by
  cases pr with
  | none => simp [sideR]
  | some b =>
    rw [sideR]
    cases hc : anyGe r x with
    | true => simp [hc]
    | false =>
      simp only [hc, Bool.false_eq_true, if_false, List.mem_singleton]
      constructor
      · intro h
        rcases Prod.mk.inj h with ⟨rfl, rfl⟩
        exact ⟨rfl, rfl, trivial⟩
      · rintro ⟨h1, h2, _⟩
        rcases Option.some.inj h1 with rfl
        rw [h2]

lemma visV_no_middle {X : List ℚ} {u w i : Nat} (h : VisV X u w)
    (h1 : u < i) (h2 : i < w)
    (h3 : val X u ≤ val X i ∨ val X w ≤ val X i) : False := by
  have hv := h.2 i h2 h1
  rcases h3 with h3 | h3
  · exact absurd (lt_of_lt_of_le hv (le_trans (min_le_left _ _) h3)) (lt_irrefl _)
  · exact absurd (lt_of_lt_of_le hv (le_trans (min_le_right _ _) h3)) (lt_irrefl _)

/-- Central structural theorem for the decode: inside a window of the
built tree bounded by its nearest outer ancestors, the decoded pairs are
exactly the ground-truth-visible pairs lying in the window (or connecting
it to its bounding ancestors). -/
theorem decode_buildT_mem (X : List ℚ) :
    ∀ (n : Nat) (o : List Nat) (pl pr : Option Nat), o.length ≤ n → o.Nodup →
      o.Pairwise (pGT X) →
      (∀ j, j ∈ o ↔ j < X.length ∧ inB pl pr j) →
      (∀ a, pl = some a → a < X.length ∧ ∀ j ∈ o, pGT X a j) →
      (∀ b, pr = some b → b < X.length ∧ ∀ j ∈ o, pGT X b j) →
      ∀ u w, ((u, w) ∈ decode (buildT X o) pl pr ↔
        VisV X u w ∧ ((u ∈ o ∧ w ∈ o) ∨ (pl = some u ∧ w ∈ o) ∨
          (u ∈ o ∧ pr = some w))) := by
  intro n
  induction n with
  | zero =>
    intro o pl pr ho _ _ _ _ _ u w
    have hno : o = [] := List.length_eq_zero.1 (by omega)
    subst hno
    rw [buildT]
    simp [decode]
  | succ n ih =>
    intro o pl pr ho hnd hpw hset hdl hdr u w
    cases o with
    | nil => rw [buildT]; simp [decode]
    | cons i rest =>
      rcases List.pairwise_cons.1 hnd with ⟨hidist, hnd'⟩
      rcases List.pairwise_cons.1 hpw with ⟨hpwi, hpw'⟩
      have hiO : i ∈ i :: rest := List.mem_cons_self _ _
      rcases (hset i).1 hiO with ⟨hilen, hiB⟩
      have hlen : rest.length ≤ n := by simpa using ho
      have hmem_rest : ∀ j, j ∈ rest ↔ (j ∈ i :: rest ∧ j ≠ i) := by
        intro j
        constructor
        · intro hj
          exact ⟨List.mem_cons_of_mem _ hj, fun hc => hidist j hj hc.symm⟩
        · rintro ⟨hj, hne⟩
          rcases List.mem_cons.1 hj with rfl | hj
          · exact absurd rfl hne
          · exact hj
      have hmemL : ∀ j, j ∈ rest.filter (fun j => decide (j < i)) ↔
          (j < X.length ∧ inB pl (some i) j) := by
        intro j
        rw [List.mem_filter, decide_eq_true_iff, hmem_rest, hset j]
        constructor
        · rintro ⟨⟨⟨h1, hB⟩, hne⟩, hji⟩
          refine ⟨h1, hB.1, fun b hb => ?_⟩
          rcases Option.some.inj hb with rfl
          exact hji
        · rintro ⟨h1, hB⟩
          have hji : j < i := hB.2 i rfl
          exact ⟨⟨⟨h1, hB.1, fun b hb => lt_trans hji (hiB.2 b hb)⟩, by omega⟩, hji⟩
      have hmemR : ∀ j, j ∈ rest.filter (fun j => decide (i < j)) ↔
          (j < X.length ∧ inB (some i) pr j) := by
        intro j
        rw [List.mem_filter, decide_eq_true_iff, hmem_rest, hset j]
        constructor
        · rintro ⟨⟨⟨h1, hB⟩, hne⟩, hij⟩
          refine ⟨h1, fun a ha => ?_, hB.2⟩
          rcases Option.some.inj ha with rfl
          exact hij
        · rintro ⟨h1, hB⟩
          have hij : i < j := hB.1 i rfl
          exact ⟨⟨⟨h1, fun a ha => lt_trans (hiB.1 a ha) hij, hB.2⟩, by omega⟩, hij⟩
      have hndL := hnd'.filter (fun j => decide (j < i))
      have hndR := hnd'.filter (fun j => decide (i < j))
      have hpwL := hpw'.filter (fun j => decide (j < i))
      have hpwR := hpw'.filter (fun j => decide (i < j))
      have hsubL : ∀ j ∈ rest.filter (fun j => decide (j < i)), j ∈ i :: rest :=
        fun j hj => List.mem_cons_of_mem _ (List.mem_filter.1 hj).1
      have hsubR : ∀ j ∈ rest.filter (fun j => decide (i < j)), j ∈ i :: rest :=
        fun j hj => List.mem_cons_of_mem _ (List.mem_filter.1 hj).1
      have hdlL : ∀ a, pl = some a →
          a < X.length ∧ ∀ j ∈ rest.filter (fun j => decide (j < i)), pGT X a j :=
        fun a ha => ⟨(hdl a ha).1, fun j hj => (hdl a ha).2 j (hsubL j hj)⟩
      have hdrL : ∀ b, some i = some b →
          b < X.length ∧ ∀ j ∈ rest.filter (fun j => decide (j < i)), pGT X b j := by
        rintro b hb
        rcases Option.some.inj hb with rfl
        exact ⟨hilen, fun j hj => hpwi j (List.mem_filter.1 hj).1⟩
      have hdlR : ∀ a, some i = some a →
          a < X.length ∧ ∀ j ∈ rest.filter (fun j => decide (i < j)), pGT X a j := by
        rintro a ha
        rcases Option.some.inj ha with rfl
        exact ⟨hilen, fun j hj => hpwi j (List.mem_filter.1 hj).1⟩
      have hdrR : ∀ b, pr = some b →
          b < X.length ∧ ∀ j ∈ rest.filter (fun j => decide (i < j)), pGT X b j :=
        fun b hb => ⟨(hdr b hb).1, fun j hj => (hdr b hb).2 j (hsubR j hj)⟩
      have ihL := ih (rest.filter (fun j => decide (j < i))) pl (some i)
        (le_trans (List.length_filter_le _ _) hlen) hndL hpwL hmemL hdlL hdrL u w
      have ihR := ih (rest.filter (fun j => decide (i < j))) (some i) pr
        (le_trans (List.length_filter_le _ _) hlen) hndR hpwR hmemR hdlR hdrR u w
      have hAnyL := anyGe_buildT_eq_false X
        (le_trans (List.length_filter_le _ _) hlen) hndL (val X i)
      have hAnyR := anyGe_buildT_eq_false X
        (le_trans (List.length_filter_le _ _) hlen) hndR (val X i)
      have hmemL' : ∀ j, j ∈ i :: rest → j < i →
          j ∈ rest.filter (fun j => decide (j < i)) := fun j hj hji =>
        List.mem_filter.2 ⟨(hmem_rest j).2 ⟨hj, by omega⟩, by simpa using hji⟩
      have hmemR' : ∀ j, j ∈ i :: rest → i < j →
          j ∈ rest.filter (fun j => decide (i < j)) := fun j hj hij =>
        List.mem_filter.2 ⟨(hmem_rest j).2 ⟨hj, by omega⟩, by simpa using hij⟩
      have hmax : ∀ j ∈ (i :: rest), val X j ≤ val X i := by
        intro j hj
        rcases List.mem_cons.1 hj with rfl | hj
        · exact le_refl _
        · exact (hpwi j hj).val_le
      have hA : ∀ u', pl = some u' →
          ((anyGe (buildT X (rest.filter (fun j => decide (j < i)))) (val X i) = false)
            ↔ VisV X u' i) := by
        intro u' hplu
        have hui : u' < i := hiB.1 u' hplu
        have hvui : val X i < val X u' := ((hdl u' hplu).2 i hiO).val_lt_of_lt hui
        rw [hAnyL]
        constructor
        · intro h
          refine ⟨hui, fun k hk huk => ?_⟩
          have hkmem : k ∈ rest.filter (fun j => decide (j < i)) := by
            refine (hmemL k).2 ⟨by omega, fun a ha => ?_, fun b hb => ?_⟩
            · rcases Option.some.inj (hplu.symm.trans ha) with rfl
              exact huk
            · rcases Option.some.inj hb with rfl
              exact hk
          exact lt_min (lt_trans (h k hkmem) hvui) (h k hkmem)
        · intro hv j hj
          rcases (hmemL j).1 hj with ⟨hjlen, hjB⟩
          have h1 : u' < j := hjB.1 u' hplu
          have h2 : j < i := hjB.2 i rfl
          exact lt_of_lt_of_le (hv.2 j h2 h1) (min_le_right _ _)
      have hB : ∀ w', pr = some w' →
          ((anyGe (buildT X (rest.filter (fun j => decide (i < j)))) (val X i) = false)
            ↔ VisV X i w') := by
        intro w' hprw
        have hiw : i < w' := hiB.2 w' hprw
        have hwlen : w' < X.length := (hdr w' hprw).1
        have hvwi : val X i ≤ val X w' := ((hdr w' hprw).2 i hiO).val_le
        rw [hAnyR]
        constructor
        · intro h
          refine ⟨hiw, fun k hk hik => ?_⟩
          have hkmem : k ∈ rest.filter (fun j => decide (i < j)) := by
            refine (hmemR k).2 ⟨by omega, fun a ha => ?_, fun b hb => ?_⟩
            · rcases Option.some.inj ha with rfl
              exact hik
            · rcases Option.some.inj (hprw.symm.trans hb) with rfl
              exact hk
          exact lt_min (h k hkmem) (lt_of_lt_of_le (h k hkmem) hvwi)
        · intro hv j hj
          rcases (hmemR j).1 hj with ⟨hjlen, hjB⟩
          have h1 : i < j := hjB.1 i rfl
          have h2 : j < w' := hjB.2 w' hprw
          exact lt_of_lt_of_le (hv.2 j h2 h1) (min_le_left _ _)
      rw [buildT, decode]
      simp only [List.mem_append]
      rw [mem_sideL, mem_sideR, ihL, ihR]
      constructor
      · rintro (⟨hplu, rfl, hsh⟩ | ⟨hprw, rfl, hsh⟩ | ⟨hv, hcase⟩ | ⟨hv, hcase⟩)
        · exact ⟨(hA u hplu).1 hsh, Or.inr (Or.inl ⟨hplu, hiO⟩)⟩
        · exact ⟨(hB w hprw).1 hsh, Or.inr (Or.inr ⟨hiO, hprw⟩)⟩
        · rcases hcase with ⟨h1, h2⟩ | ⟨hplu, h2⟩ | ⟨h1, hw⟩
          · exact ⟨hv, Or.inl ⟨hsubL u h1, hsubL w h2⟩⟩
          · exact ⟨hv, Or.inr (Or.inl ⟨hplu, hsubL w h2⟩)⟩
          · rcases Option.some.inj hw with rfl
            exact ⟨hv, Or.inl ⟨hsubL u h1, hiO⟩⟩
        · rcases hcase with ⟨h1, h2⟩ | ⟨hu, h2⟩ | ⟨h1, hprw⟩
          · exact ⟨hv, Or.inl ⟨hsubR u h1, hsubR w h2⟩⟩
          · rcases Option.some.inj hu with rfl
            exact ⟨hv, Or.inl ⟨hiO, hsubR w h2⟩⟩
          · exact ⟨hv, Or.inr (Or.inr ⟨hsubR u h1, hprw⟩)⟩
      · rintro ⟨hv, hcase⟩
        have huw : u < w := hv.1
        rcases hcase with ⟨hu, hw⟩ | ⟨hplu, hw⟩ | ⟨hu, hprw⟩
        · rcases Nat.lt_trichotomy u i with hui | rfl | hiu
          · rcases Nat.lt_trichotomy w i with hwi | rfl | hiw
            · exact Or.inr (Or.inr (Or.inl
                ⟨hv, Or.inl ⟨hmemL' u hu hui, hmemL' w hw hwi⟩⟩))
            · exact Or.inr (Or.inr (Or.inl
                ⟨hv, Or.inr (Or.inr ⟨hmemL' u hu hui, rfl⟩)⟩))
            · exact (visV_no_middle hv hui hiw (Or.inl (hmax u hu))).elim
          · exact Or.inr (Or.inr (Or.inr
              ⟨hv, Or.inr (Or.inl ⟨rfl, hmemR' w hw (by omega)⟩)⟩))
          · exact Or.inr (Or.inr (Or.inr
              ⟨hv, Or.inl ⟨hmemR' u hu hiu, hmemR' w hw (by omega)⟩⟩))
        · rcases Nat.lt_trichotomy w i with hwi | rfl | hiw
          · exact Or.inr (Or.inr (Or.inl
              ⟨hv, Or.inr (Or.inl ⟨hplu, hmemL' w hw hwi⟩)⟩))
          · exact Or.inl ⟨hplu, rfl, (hA u hplu).2 hv⟩
          · exact (visV_no_middle hv (hiB.1 u hplu) hiw (Or.inr (hmax w hw))).elim
        · rcases Nat.lt_trichotomy u i with hui | rfl | hiu
          · exact (visV_no_middle hv hui (hiB.2 w hprw) (Or.inl (hmax u hu))).elim
          · exact Or.inr (Or.inl ⟨hprw, rfl, (hB w hprw).2 hv⟩)
          · exact Or.inr (Or.inr (Or.inr
              ⟨hv, Or.inr (Or.inr ⟨hmemR' u hu hiu, hprw⟩)⟩))

/-- The decoded tree edges are exactly the ground-truth visible pairs. -/
theorem bstPairs_mem (X : List ℚ) (u w : Nat) :
    (u, w) ∈ bstPairs X ↔ Vis X u w := by
  rw [bstPairs, hvgTree_eq_buildT]
  have hset : ∀ j, j ∈ insOrder X ↔ j < X.length ∧ inB none none j := by
    intro j
    rw [mem_insOrder]
    constructor
    · intro h
      exact ⟨h, fun a ha => Option.noConfusion ha, fun b hb => Option.noConfusion hb⟩
    · rintro ⟨h, _⟩
      exact h
  rw [decode_buildT_mem X (insOrder X).length (insOrder X) none none le_rfl
    (insOrder_nodup X) (insOrder_pairwise X) hset
    (fun a ha => Option.noConfusion ha) (fun b hb => Option.noConfusion hb) u w]
  constructor
  · rintro ⟨hv, hcase⟩
    rcases hcase with ⟨h1, h2⟩ | ⟨h, _⟩ | ⟨_, h⟩
    · exact ⟨mem_insOrder.1 h2, hv⟩
    · exact Option.noConfusion h
    · exact Option.noConfusion h
  · rintro ⟨hlen, hv⟩
    have hu : u < X.length := by have := hv.1; omega
    exact ⟨hv, Or.inl ⟨mem_insOrder.2 hu, mem_insOrder.2 hlen⟩⟩

end BST

namespace Claims

/-- **C3.** For every finite sequence, the unweighted edge sets determined
by the BST-encoding tree (decoded as described by spec §4.2), by the
divide-and-conquer algorithm without its early-break short-circuit, and by
the linear stack-based algorithm (the streaming builder's `add_one`
recurrence) are pairwise identical as sets of vertex pairs — all three
coincide with the ground-truth visibility relation. -/
theorem bst_dc_linear_pairwise_identical (X : List ℚ) (p : Nat × Nat) :
    (p ∈ BST.bstPairs X ↔ p ∈ DC.dcPairs X) ∧
    (p ∈ DC.dcPairs X ↔ p ∈ DT.edgeKeys (DT.build X)) ∧
    (p ∈ BST.bstPairs X ↔ p ∈ DT.edgeKeys (DT.build X)) := by
  rcases p with ⟨u, w⟩
  have h1 := BST.bstPairs_mem X u w
  have h2 := DC.dcPairs_mem X u w
  have h3 : (u, w) ∈ DT.edgeKeys (DT.build X) ↔ Vis X u w := by
    rw [DT.edgeKeys_build]
    exact edgesUpTo_length_iff X u w
  exact ⟨h1.trans h2.symm, h2.trans h3.symm, h1.trans h3.symm⟩

end Claims

/-! ## Decomposition of the abstract structures over concatenation -/

lemma val_append_left {X1 X2 : List ℚ} {u : Nat} (h : u < X1.length) :
    val (X1 ++ X2) u = val X1 u := by
  rw [val, val, List.getD_eq_getElem?_getD, List.getD_eq_getElem?_getD,
    List.getElem?_append, if_pos h]

lemma val_append_right (X1 X2 : List ℚ) (j : Nat) :
    val (X1 ++ X2) (X1.length + j) = val X2 j := by
  rw [val, val, List.getD_eq_getElem?_getD, List.getD_eq_getElem?_getD]
  congr 1
  rw [List.getElem?_append_right (by omega)]
  congr 1
  omega

lemma visV_append_left {X1 X2 : List ℚ} {a b : Nat} (h : b < X1.length) :
    VisV (X1 ++ X2) a b ↔ VisV X1 a b := by
  unfold VisV
  refine and_congr_right fun hab => ?_
  constructor
  · intro hv k hk1 hk2
    have := hv k hk1 hk2
    rwa [val_append_left (by omega), val_append_left (by omega),
      val_append_left (by omega)] at this
  · intro hv k hk1 hk2
    rw [val_append_left (by omega), val_append_left (by omega),
      val_append_left (by omega)]
    exact hv k hk1 hk2

lemma visV_append_right (X1 X2 : List ℚ) (a b : Nat) :
    VisV (X1 ++ X2) (X1.length + a) (X1.length + b) ↔ VisV X2 a b := by
  unfold VisV
  constructor
  · rintro ⟨hab, hv⟩
    refine ⟨by omega, fun k hk1 hk2 => ?_⟩
    have := hv (X1.length + k) (by omega) (by omega)
    rwa [val_append_right, val_append_right, val_append_right] at this
  · rintro ⟨hab, hv⟩
    refine ⟨by omega, fun k hk1 hk2 => ?_⟩
    have hk : X1.length ≤ k := by omega
    obtain ⟨k', rfl⟩ : ∃ k', k = X1.length + k' := ⟨k - X1.length, by omega⟩
    rw [val_append_right, val_append_right, val_append_right]
    exact hv k' (by omega) (by omega)

lemma ub_append_left {X1 X2 : List ℚ} {u : Nat} (h : u < X1.length) :
    Ub (X1 ++ X2) (X1.length + X2.length) u ↔
      (Ub X1 X1.length u ∧ maxUpTo X2 X2.length < (val X1 u : WithBot ℚ)) := by
  rw [maxUpTo_lt_iff]
  constructor
  · intro hub
    constructor
    · intro k hk huk
      have := hub k (by omega) huk
      rwa [val_append_left (by omega), val_append_left h] at this
    · intro j hj
      have := hub (X1.length + j) (by omega) (by omega)
      rwa [val_append_right, val_append_left h] at this
  · rintro ⟨h1, h2⟩ k hk huk
    rw [val_append_left h]
    rcases Nat.lt_or_ge k X1.length with hkl | hkl
    · rw [val_append_left hkl]
      exact h1 k hkl huk
    · obtain ⟨j, rfl⟩ : ∃ j, k = X1.length + j := ⟨k - X1.length, by omega⟩
      rw [val_append_right]
      exact h2 j (by omega)

lemma ub_append_right (X1 X2 : List ℚ) (j : Nat) :
    Ub (X1 ++ X2) (X1.length + X2.length) (X1.length + j) ↔ Ub X2 X2.length j := by
  constructor
  · intro hub k hk hjk
    have := hub (X1.length + k) (by omega) (by omega)
    rwa [val_append_right, val_append_right] at this
  · intro hub k hk hjk
    obtain ⟨k', rfl⟩ : ∃ k', k = X1.length + k' := ⟨k - X1.length, by omega⟩
    rw [val_append_right, val_append_right]
    exact hub k' (by omega) (by omega)

lemma prefMax_append_left {X1 X2 : List ℚ} {u : Nat} (h : u < X1.length) :
    PrefMax (X1 ++ X2) u ↔ PrefMax X1 u := by
  constructor
  · intro hp k hk
    have := hp k hk
    rwa [val_append_left (by omega), val_append_left h] at this
  · intro hp k hk
    rw [val_append_left (by omega), val_append_left h]
    exact hp k hk

lemma prefMax_append_right (X1 X2 : List ℚ) (j : Nat) :
    PrefMax (X1 ++ X2) (X1.length + j) ↔
      (PrefMax X2 j ∧ maxUpTo X1 X1.length < (val X2 j : WithBot ℚ)) := by
  rw [maxUpTo_lt_iff]
  constructor
  · intro hp
    constructor
    · intro k hk
      have := hp (X1.length + k) (by omega)
      rwa [val_append_right, val_append_right] at this
    · intro k hk
      have := hp k (by omega)
      rwa [val_append_left hk, val_append_right] at this
  · rintro ⟨h1, h2⟩ k hk
    rw [val_append_right]
    rcases Nat.lt_or_ge k X1.length with hkl | hkl
    · rw [val_append_left hkl]
      exact h2 k hkl
    · obtain ⟨k', rfl⟩ : ∃ k', k = X1.length + k' := ⟨k - X1.length, by omega⟩
      rw [val_append_right]
      exact h1 k' (by omega)

lemma maxUpTo_add (X1 X2 : List ℚ) :
    ∀ m, maxUpTo (X1 ++ X2) (X1.length + m) = max (maxUpTo X1 X1.length) (maxUpTo X2 m)
  | 0 => by
    have h : ∀ m, m ≤ X1.length → maxUpTo (X1 ++ X2) m = maxUpTo X1 m := by
      intro m
      induction m with
      | zero => intro _; rfl
      | succ m ih =>
        intro hm
        rw [maxUpTo, maxUpTo, ih (by omega), val_append_left (by omega)]
    simp [maxUpTo, h X1.length le_rfl]
  | m + 1 => by
    rw [show X1.length + (m + 1) = (X1.length + m) + 1 from rfl, maxUpTo,
      maxUpTo_add X1 X2 m, val_append_right, maxUpTo, max_assoc]

lemma goodStack_append (X1 X2 : List ℚ) :
    goodStack (X1 ++ X2) (X1.length + X2.length)
      = (goodStack X2 X2.length).map (X1.length + ·) ++
        (goodStack X1 X1.length).filter
          (fun u => decide (maxUpTo X2 X2.length < (val X1 u : WithBot ℚ))) := by
  have hrange : List.range (X1.length + X2.length)
      = List.range X1.length ++ (List.range X2.length).map (X1.length + ·) :=
    List.range_add X1.length X2.length
  rw [goodStack, hrange, List.filter_append, List.reverse_append]
  congr 1
  · rw [List.filter_map, ← List.map_reverse, goodStack]
    congr 2
    refine List.filter_congr fun j hj => ?_
    rw [List.mem_range] at hj
    simp only [Function.comp]
    exact decide_eq_decide.2 (ub_append_right X1 X2 j)
  · rw [goodStack, List.filter_reverse]
    congr 1
    rw [List.filter_filter]
    refine List.filter_congr fun u hu => ?_
    rw [List.mem_range] at hu
    rw [← Bool.decide_and]
    exact decide_eq_decide.2 ((ub_append_left hu).trans and_comm)

lemma pmaxStack_append (X1 X2 : List ℚ) :
    pmaxStack (X1 ++ X2) (X1.length + X2.length)
      = ((pmaxStack X2 X2.length).filter
          (fun j => decide (maxUpTo X1 X1.length < (val X2 j : WithBot ℚ)))).map
            (X1.length + ·) ++ pmaxStack X1 X1.length := by
  have hrange : List.range (X1.length + X2.length)
      = List.range X1.length ++ (List.range X2.length).map (X1.length + ·) :=
    List.range_add X1.length X2.length
  rw [pmaxStack, hrange, List.filter_append, List.reverse_append]
  congr 1
  · rw [List.filter_map, ← List.map_reverse, pmaxStack, List.filter_reverse]
    congr 1
    rw [List.filter_filter]
    congr 1
    refine List.filter_congr fun j hj => ?_
    rw [List.mem_range] at hj
    simp only [Function.comp]
    rw [← Bool.decide_and]
    refine decide_eq_decide.2 ?_
    exact (prefMax_append_right X1 X2 j).trans and_comm
  · rw [pmaxStack]
    congr 1
    refine List.filter_congr fun u hu => ?_
    rw [List.mem_range] at hu
    exact decide_eq_decide.2 (prefMax_append_left hu)

/-! ## Order structure of the boundary stacks -/

lemma pmaxStack_pairwise_gt (X : List ℚ) (m : Nat) :
    (pmaxStack X m).Pairwise (fun a b => b < a) := by
  have h := (List.pairwise_lt_range m).filter (fun u => decide (PrefMax X u))
  simpa [pmaxStack, List.pairwise_reverse] using h

/-- Along `vis_p` (most recent first), values strictly decrease. -/
lemma pmaxStack_pairwise_val (X : List ℚ) (m : Nat) :
    (pmaxStack X m).Pairwise (fun a b => val X b < val X a) := by
  refine (pmaxStack_pairwise_gt X m).imp_of_mem ?_
  intro a b ha _ hr
  exact (mem_pmaxStack.1 ha).2 b hr

namespace DT

/-- On a value-sorted stack the `takeWhile` threshold test of `merge` is a
plain filter. -/
lemma takeWhile_pair_filter {X : List ℚ} {lab : Nat → Nat} {l : List Nat}
    {c : WithBot ℚ} (hl : l.Pairwise (fun a b => val X b < val X a)) :
    (l.map (pair X lab)).takeWhile (fun e => decide (c < ((e.1 : ℚ) : WithBot ℚ)))
      = (l.map (pair X lab)).filter (fun e => decide (c < ((e.1 : ℚ) : WithBot ℚ))) := by
  refine @takeWhile_eq_filter_of_pairwise _ _
    (fun x y : ℚ × Nat => ((y.1 : ℚ) : WithBot ℚ) < ((x.1 : ℚ) : WithBot ℚ))
    _ (hl.map _ ?_) ?_
  · intro a b hab
    exact WithBot.coe_lt_coe.2 hab
  · intro a b hR hpb
    rw [decide_eq_true_eq] at hpb
    exact decide_eq_true (lt_trans hpb hR)

/-- The success path of `merge`, given the shapes the failure checks probe. -/
lemma merge_ok (s o : St) (hnw : s.neighbour_weight = o.neighbour_weight)
    (fx : ℚ) (fu : Nat) (fr : List (ℚ × Nat)) (hf : s.vis_f = (fx, fu) :: fr)
    (px : ℚ) (p0 : Nat) (hp : o.vis_p.getLast? = some (px, p0)) :
    merge s o = .ok
      { V := s.V ++ o.V
        E := s.E ++ o.E ++
          (((fu, p0), s.neighbour_weight) ::
            (addSeq (init ⊤) (s.vis_f.reverse ++ o.vis_p.reverse)).E.filter
              (fun e => decide (e.2 ≠ s.neighbour_weight)))
        vis_p := o.vis_p.takeWhile (fun e => decide (s.max_val < ((e.1 : ℚ) : WithBot ℚ)))
          ++ s.vis_p
        vis_f := o.vis_f ++
          (s.vis_f.reverse.takeWhile fun e =>
            decide (o.max_val < ((e.1 : ℚ) : WithBot ℚ))).reverse
        max_val := max s.max_val o.max_val
        neighbour_weight := s.neighbour_weight } := by
  have hne : ¬ s.neighbour_weight ≠ o.neighbour_weight := by simp [hnw]
  have hjoin : (s.vis_f.reverse ++ o.vis_p.reverse).isEmpty = false := by
    rw [hf]; simp
  rw [merge, if_neg hne]
  rw [hf] at hjoin
  simp only [hjoin, Bool.false_eq_true, if_false, hf, hp]

/-- With at least one ingested value, `vis_f` starts with the latest vertex. -/
lemma buildFrom_vis_f_cons (off : Nat) {X : List ℚ} {m : Nat} (h : X.length = m + 1) :
    (buildFrom off X).vis_f
      = pair X (labFn off X.length) m ::
          (popStack X m (stackUpTo X m)).map (pair X (labFn off X.length)) := by
  rw [buildFrom_spec]
  show (stackUpTo X X.length).map (pair X (labFn off X.length)) = _
  rw [h]
  rfl

/-- With at least one ingested value, `vis_p` has a last (oldest) entry. -/
lemma buildFrom_vis_p_getLast (off : Nat) {X : List ℚ} (h : X ≠ []) :
    ∃ px p0, (buildFrom off X).vis_p.getLast? = some (px, p0) := by
  have h0 : 0 ∈ pmaxStack X X.length :=
    mem_pmaxStack.2 ⟨List.length_pos.2 h, fun k hk => absurd hk (Nat.not_lt_zero k)⟩
  have hne : (buildFrom off X).vis_p ≠ [] := by
    rw [buildFrom_spec]
    show (pmaxStack X X.length).map (pair X (labFn off X.length)) ≠ []
    intro hc
    rw [List.map_eq_nil_iff] at hc
    exact List.ne_nil_of_mem h0 hc
  obtain ⟨e, he⟩ := Option.isSome_iff_exists.1 (List.getLast?_isSome.2 hne)
  exact ⟨e.1, e.2, he⟩

lemma buildFrom_max_val (off : Nat) (X : List ℚ) :
    (buildFrom off X).max_val = X.maximum := by
  rw [buildFrom_spec]
  show maxUpTo X X.length = X.maximum
  exact maxUpTo_length_eq_maximum X

end DT

namespace Claims

/-- **C5**: merging built HVGs of chunks `X1` (left) and `X2` (right), the
result's `vis_p` is `vis_p₁` plus exactly the `vis_p₂` entries whose value
exceeds `max(X1)` (in original order: the stacks are stored newest-first, so
the older `vis_p₁` block sits at the tail), its `vis_f` is exactly the
`vis_f₁` entries whose value exceeds `max(X2)` followed by all of `vis_f₂`,
and its `max_val` is `max(max_val₁, max_val₂)`. -/
theorem merged_boundary_state (off : Nat) (X1 X2 : List ℚ)
    (h1 : X1 ≠ []) (h2 : X2 ≠ []) :
    ∃ m, DT.merge (DT.buildFrom off X1) (DT.buildFrom (off + X1.length) X2)
        = Except.ok m ∧
      m.vis_p
        = (DT.buildFrom (off + X1.length) X2).vis_p.filter
            (fun e => decide (X1.maximum < ((e.1 : ℚ) : WithBot ℚ)))
          ++ (DT.buildFrom off X1).vis_p ∧
      m.vis_f
        = (DT.buildFrom (off + X1.length) X2).vis_f
          ++ (DT.buildFrom off X1).vis_f.filter
            (fun e => decide (X2.maximum < ((e.1 : ℚ) : WithBot ℚ))) ∧
      m.max_val
        = max (DT.buildFrom off X1).max_val
            (DT.buildFrom (off + X1.length) X2).max_val := by
  obtain ⟨m1, hm1⟩ : ∃ m1, X1.length = m1 + 1 :=
    ⟨X1.length - 1, by have := List.length_pos.2 h1; omega⟩
  have hf := DT.buildFrom_vis_f_cons off hm1
  obtain ⟨px, p0, hp⟩ := DT.buildFrom_vis_p_getLast (off + X1.length) h2
  have hnw : (DT.buildFrom off X1).neighbour_weight
      = (DT.buildFrom (off + X1.length) X2).neighbour_weight := by
    rw [DT.buildFrom_spec, DT.buildFrom_spec]
  refine ⟨_, DT.merge_ok _ _ hnw _ _ _ hf px p0 hp, ?_, ?_, ?_⟩
  · show (DT.buildFrom (off + X1.length) X2).vis_p.takeWhile
        (fun e => decide ((DT.buildFrom off X1).max_val < ((e.1 : ℚ) : WithBot ℚ)))
      ++ (DT.buildFrom off X1).vis_p = _
    rw [DT.buildFrom_max_val]
    congr 1
    have hvp : (DT.buildFrom (off + X1.length) X2).vis_p
        = (pmaxStack X2 X2.length).map
            (DT.pair X2 (DT.labFn (off + X1.length) X2.length)) := by
      rw [DT.buildFrom_spec]
    rw [hvp]
    exact DT.takeWhile_pair_filter (pmaxStack_pairwise_val X2 X2.length)
  · show (DT.buildFrom (off + X1.length) X2).vis_f
        ++ ((DT.buildFrom off X1).vis_f.reverse.takeWhile fun e =>
          decide ((DT.buildFrom (off + X1.length) X2).max_val
            < ((e.1 : ℚ) : WithBot ℚ))).reverse = _
    rw [DT.buildFrom_max_val]
    congr 1
    have hvf : (DT.buildFrom off X1).vis_f
        = (goodStack X1 X1.length).map (DT.pair X1 (DT.labFn off X1.length)) := by
      rw [DT.buildFrom_spec]
      show (stackUpTo X1 X1.length).map (DT.pair X1 (DT.labFn off X1.length)) = _
      rw [stackUpTo_eq_goodStack]
    rw [hvf]
    rw [← List.map_reverse,
      DT.takeWhile_pair_filter (List.pairwise_reverse.2 (goodStack_pairwise_val X1 X1.length)),
      List.map_reverse, List.filter_reverse, List.reverse_reverse]
  · rfl

/-- Closed instance of `merged_boundary_state` at `X1 = [1]`, `X2 = [2]`. -/
theorem merged_boundary_state_witness :
    ∃ m, DT.merge (DT.buildFrom 0 [(1 : ℚ)])
          (DT.buildFrom (0 + [(1 : ℚ)].length) [(2 : ℚ)])
        = Except.ok m ∧
      m.vis_p
        = (DT.buildFrom (0 + [(1 : ℚ)].length) [(2 : ℚ)]).vis_p.filter
            (fun e => decide ([(1 : ℚ)].maximum < ((e.1 : ℚ) : WithBot ℚ)))
          ++ (DT.buildFrom 0 [(1 : ℚ)]).vis_p ∧
      m.vis_f
        = (DT.buildFrom (0 + [(1 : ℚ)].length) [(2 : ℚ)]).vis_f
          ++ (DT.buildFrom 0 [(1 : ℚ)]).vis_f.filter
            (fun e => decide ([(2 : ℚ)].maximum < ((e.1 : ℚ) : WithBot ℚ))) ∧
      m.max_val
        = max (DT.buildFrom 0 [(1 : ℚ)]).max_val
            (DT.buildFrom (0 + [(1 : ℚ)].length) [(2 : ℚ)]).max_val :=
  merged_boundary_state 0 [1] [2] (by decide) (by decide)

end Claims

/-! ## Completion lemmas: dominating unblocked / running-maximum positions -/

/-- Every position is weakly dominated by an unblocked position at or after
it. -/
lemma exists_ub_ge (X : List ℚ) (n : Nat) :
    ∀ g, g < n → ∃ g', g ≤ g' ∧ g' < n ∧ Ub X n g' ∧ val X g ≤ val X g' := by
  have key : ∀ d g, g < n → n - g ≤ d →
      ∃ g', g ≤ g' ∧ g' < n ∧ Ub X n g' ∧ val X g ≤ val X g' := by
    intro d
    induction d with
    | zero => intro g hg hd; exact absurd hg (by omega)
    | succ d ih =>
      intro g hg hd
      by_cases h : Ub X n g
      · exact ⟨g, le_rfl, hg, h, le_rfl⟩
      · simp only [Ub, not_forall] at h
        obtain ⟨k, hk, hgk, hvk⟩ := h
        obtain ⟨g', hg1, hg2, hg3, hg4⟩ := ih k hk (by omega)
        exact ⟨g', by omega, hg2, hg3, le_trans (not_lt.1 hvk) hg4⟩
  intro g hg
  exact key (n - g) g hg le_rfl

/-- Every position is weakly dominated by a running-maximum position at or
before it. -/
lemma exists_prefMax_ge (X : List ℚ) :
    ∀ j, ∃ j', j' ≤ j ∧ PrefMax X j' ∧ val X j ≤ val X j' := by
  intro j
  induction j using Nat.strong_induction_on with
  | h j ih =>
    by_cases h : PrefMax X j
    · exact ⟨j, le_rfl, h, le_rfl⟩
    · simp only [PrefMax, not_forall] at h
      obtain ⟨k, hk, hvk⟩ := h
      obtain ⟨j', h1, h2, h3⟩ := ih k hk
      exact ⟨j', by omega, h2, le_trans (not_lt.1 hvk) h3⟩

/-! ## The non-sentinel part of a scan: all visits but the first -/

/-- The `(u, v)` pairs emitted at each step beyond the first visit (the first
visit of a step is always to the immediately preceding vertex). -/
def tailPairs (X : List ℚ) : Nat → List (Nat × Nat)
  | 0 => []
  | m + 1 =>
    tailPairs X m ++ ((visited X m (stackUpTo X m)).tail).map (fun u => (u, m))

/-- First visit of a nonempty stack is to its head. -/
lemma visited_cons (X : List ℚ) (v a : Nat) (rest : List Nat) :
    ∃ t, visited X v (a :: rest) = a :: t ∧ List.Sublist t rest := by
  by_cases hle : val X a ≤ val X v
  · by_cases heq : val X a = val X v
    · exact ⟨[], by simp [visited, hle, heq], List.nil_sublist rest⟩
    · exact ⟨visited X v rest, by simp [visited, hle, heq], DT.visited_sublist X v rest⟩
  · exact ⟨[], by simp [visited, hle], List.nil_sublist rest⟩

/-- Membership in the visit list with its head (the previous vertex) removed:
exactly the visible partners other than the immediate neighbour. -/
lemma mem_tail_visited (X : List ℚ) (m u : Nat) (hm : 1 ≤ m) :
    u ∈ (visited X m (stackUpTo X m)).tail ↔ VisV X u m ∧ u ≠ m - 1 := by
  obtain ⟨m', rfl⟩ : ∃ m', m = m' + 1 := ⟨m - 1, by omega⟩
  have hstk : stackUpTo X (m' + 1)
      = m' :: popStack X m' (stackUpTo X m') := rfl
  obtain ⟨t, ht, hsub⟩ := visited_cons X (m' + 1) m' (popStack X m' (stackUpTo X m'))
  have htail : (visited X (m' + 1) (stackUpTo X (m' + 1))).tail = t := by
    rw [hstk, ht]
    rfl
  rw [htail]
  have hnd : (m' :: t).Nodup := by
    rw [← ht, ← hstk]
    exact (DT.visited_sublist X (m' + 1) _).nodup (DT.stackUpTo_nodup X (m' + 1))
  constructor
  · intro hu
    have humem : u ∈ visited X (m' + 1) (stackUpTo X (m' + 1)) := by
      rw [hstk, ht]
      exact List.mem_cons_of_mem _ hu
    refine ⟨(visited_stackUpTo_iff X (m' + 1) u).1 humem, ?_⟩
    rcases List.nodup_cons.1 hnd with ⟨hm'notin, _⟩
    intro hc
    rw [Nat.add_sub_cancel] at hc
    exact hm'notin (hc ▸ hu)
  · rintro ⟨hvis, hne⟩
    have humem := (visited_stackUpTo_iff X (m' + 1) u).2 hvis
    rw [hstk, ht] at humem
    rcases List.mem_cons.1 humem with rfl | hu
    · exact absurd (by omega) hne
    · exact hu

/-- `tailPairs` holds exactly the visible pairs that are not temporally
adjacent. -/
lemma tailPairs_mem (X : List ℚ) : ∀ (m u w : Nat),
    (u, w) ∈ tailPairs X m ↔ w < m ∧ VisV X u w ∧ u ≠ w - 1 := by
  intro m u w
  induction m with
  | zero => simp [tailPairs]
  | succ m ih =>
    simp only [tailPairs, List.mem_append, List.mem_map, ih]
    constructor
    · rintro (⟨h1, h2, h3⟩ | ⟨a, ha, heq⟩)
      · exact ⟨by omega, h2, h3⟩
      · obtain ⟨rfl, rfl⟩ := Prod.mk.inj heq
        have hm1 : 1 ≤ m := by
          rcases Nat.eq_zero_or_pos m with rfl | h
          · simp [stackUpTo, visited] at ha
          · exact h
        rcases (mem_tail_visited X m a hm1).1 ha with ⟨hv, hne⟩
        exact ⟨Nat.lt_succ_self m, hv, hne⟩
    · rintro ⟨h1, h2, h3⟩
      rcases Nat.lt_succ_iff_lt_or_eq.1 h1 with h1 | rfl
      · exact Or.inl ⟨h1, h2, h3⟩
      · refine Or.inr ⟨u, (mem_tail_visited X w u ?_).2 ⟨h2, h3⟩, rfl⟩
        have := h2.1
        omega

namespace DT

/-- With `neighbour_added = true` every weight written by the scan is a
finite height difference, never the `⊤` sentinel. -/
lemma scan_true_ne_top (vx : ℚ) (v : Nat) (nw : Wt) :
    ∀ (stk : List (ℚ × Nat)) (h : ℚ), ∀ e ∈ (scan vx v nw stk true h).1,
      e.2 ≠ (⊤ : Wt)
  | [], h => by simp [scan]
  | (ux, u) :: rest, h => by
    intro e he
    by_cases hle : ux ≤ vx
    · by_cases heq : ux = vx
      · simp only [scan, if_pos hle, if_pos heq, if_true, List.mem_singleton] at he
        subst he
        simp
      · simp only [scan, if_pos hle, if_neg heq, if_true, List.mem_cons] at he
        rcases he with rfl | he
        · simp
        · exact scan_true_ne_top vx v nw rest ux e he
    · simp only [scan, if_neg hle, if_true, List.mem_singleton] at he
      subst he
      simp

/-- With the default `⊤` sentinel, filtering out sentinel-weighted edges
drops exactly the first visit of the scan. -/
lemma scan_filter_keys (vx : ℚ) (v : Nat) :
    ∀ stk : List (ℚ × Nat),
      ((scan vx v ⊤ stk false 0).1.filter
          (fun e => decide (e.2 ≠ (⊤ : Wt)))).map (·.1)
        = ((scan vx v ⊤ stk false 0).1.map (·.1)).tail
  | [] => by simp [scan]
  | (ux, u) :: rest => by
    by_cases hle : ux ≤ vx
    · by_cases heq : ux = vx
      · simp [scan, hle, heq]
      · have hrest := scan_true_ne_top vx v ⊤ rest ux
        simp only [scan, if_pos hle, if_neg heq]
        show ((((u, v), (⊤ : Wt)) :: (scan vx v ⊤ rest true ux).1).filter
            (fun e => decide (e.2 ≠ (⊤ : Wt)))).map (·.1)
          = ((((u, v), (⊤ : Wt)) :: (scan vx v ⊤ rest true ux).1).map (·.1)).tail
        rw [List.filter_cons_of_neg (by simp),
          List.filter_eq_self.2 fun e he => decide_eq_true (hrest e he)]
        simp
    · simp [scan, hle]

/-- Keys of the non-sentinel edges of a default-sentinel build: the
non-adjacent visible pairs, relabelled. -/
lemma edgesW_filter_keys (X : List ℚ) (lab : Nat → Nat) :
    ∀ m, ((edgesW X lab ⊤ m).filter
        (fun e => decide (e.2 ≠ (⊤ : Wt)))).map (·.1)
      = (tailPairs X m).map (fun p => (lab p.1, lab p.2)) := by
  intro m
  induction m with
  | zero => rfl
  | succ m ih =>
    rw [edgesW, tailPairs, List.filter_append, List.map_append, ih,
      List.map_append]
    congr 1
    rw [scan_filter_keys, scan_keys, List.map_map]
    cases visited X m (stackUpTo X m) with
    | nil => rfl
    | cons a t => rfl

end DT

/-! ## The join sequence of a merge, as indices into the concatenation -/

lemma getD_of_lt {α : Type} {l : List α} {t : Nat} {d : α} (h : t < l.length) :
    l.getD t d = l[t] := by
  rw [List.getD_eq_getElem?_getD, List.getElem?_eq_getElem h, Option.getD_some]

/-- `join_vtx` of `HVG.merge` at the index level, oldest first: the
future-facing stack of the left chunk followed by the shifted past-facing
stack of the right chunk. -/
def crossIdx (X1 X2 : List ℚ) : List Nat :=
  (stackUpTo X1 X1.length).reverse
    ++ (pmaxStack X2 X2.length).reverse.map (X1.length + ·)

lemma crossIdx_mem {X1 X2 : List ℚ} {a : Nat} :
    a ∈ crossIdx X1 X2 ↔
      (a < X1.length ∧ Ub X1 X1.length a) ∨
      (∃ j, a = X1.length + j ∧ j < X2.length ∧ PrefMax X2 j) := by
  rw [crossIdx, List.mem_append, List.mem_reverse, List.mem_map,
    stackUpTo_eq_goodStack]
  constructor
  · rintro (h | ⟨j, hj, rfl⟩)
    · exact Or.inl (mem_goodStack.1 h)
    · rcases mem_pmaxStack.1 (List.mem_reverse.1 hj) with ⟨hj1, hj2⟩
      exact Or.inr ⟨j, rfl, hj1, hj2⟩
  · rintro (⟨ha1, ha2⟩ | ⟨j, rfl, hj1, hj2⟩)
    · exact Or.inl (mem_goodStack.2 ⟨ha1, ha2⟩)
    · exact Or.inr ⟨j, List.mem_reverse.2 (mem_pmaxStack.2 ⟨hj1, hj2⟩), rfl⟩

lemma crossIdx_pairwise_lt (X1 X2 : List ℚ) :
    (crossIdx X1 X2).Pairwise (· < ·) := by
  rw [crossIdx, List.pairwise_append]
  refine ⟨?_, ?_, ?_⟩
  · rw [List.pairwise_reverse, stackUpTo_eq_goodStack]
    exact goodStack_pairwise_gt X1 X1.length
  · have h := List.pairwise_reverse.2 (pmaxStack_pairwise_gt X2 X2.length)
    exact List.Pairwise.map _ (fun a b hab => by omega) h
  · intro a ha b hb
    have ha' : a < X1.length := by
      rw [List.mem_reverse, stackUpTo_eq_goodStack] at ha
      exact (mem_goodStack.1 ha).1
    rcases List.mem_map.1 hb with ⟨j, _, rfl⟩
    omega

lemma crossIdx_mono {X1 X2 : List ℚ} {t1 t2 : Nat}
    (h2 : t2 < (crossIdx X1 X2).length) (h12 : t1 < t2) :
    (crossIdx X1 X2).getD t1 0 < (crossIdx X1 X2).getD t2 0 := by
  have h1 : t1 < (crossIdx X1 X2).length := lt_trans h12 h2
  rw [getD_of_lt h1, getD_of_lt h2]
  exact List.pairwise_iff_getElem.1 (crossIdx_pairwise_lt X1 X2) t1 t2 h1 h2 h12

lemma crossIdx_lt_pos {X1 X2 : List ℚ} {t1 t2 : Nat}
    (h1 : t1 < (crossIdx X1 X2).length) (h2 : t2 < (crossIdx X1 X2).length)
    (h : (crossIdx X1 X2).getD t1 0 < (crossIdx X1 X2).getD t2 0) : t1 < t2 := by
  rcases lt_trichotomy t1 t2 with h' | rfl | h'
  · exact h'
  · exact absurd h (lt_irrefl _)
  · exact absurd (crossIdx_mono h1 h') (by omega)

lemma crossIdx_elem_cases {X1 X2 : List ℚ} {t : Nat}
    (ht : t < (crossIdx X1 X2).length) :
    ((crossIdx X1 X2).getD t 0 < X1.length
        ∧ Ub X1 X1.length ((crossIdx X1 X2).getD t 0))
    ∨ (∃ j, (crossIdx X1 X2).getD t 0 = X1.length + j
        ∧ j < X2.length ∧ PrefMax X2 j) := by
  refine crossIdx_mem.1 ?_
  rw [getD_of_lt ht]
  exact List.getElem_mem _

lemma crossIdx_surj {X1 X2 : List ℚ} {a : Nat} (h : a ∈ crossIdx X1 X2) :
    ∃ t, t < (crossIdx X1 X2).length ∧ (crossIdx X1 X2).getD t 0 = a := by
  obtain ⟨t, ht, he⟩ := List.mem_iff_getElem.1 h
  exact ⟨t, ht, by rw [getD_of_lt ht, he]⟩

lemma val_crossIdx_map (X1 X2 : List ℚ) {t : Nat}
    (ht : t < (crossIdx X1 X2).length) :
    val ((crossIdx X1 X2).map (val (X1 ++ X2))) t
      = val (X1 ++ X2) ((crossIdx X1 X2).getD t 0) := by
  rw [val_eq_getElem (by simpa using ht), List.getElem_map, getD_of_lt ht]

/-- Local visibility along the join sequence coincides with global
visibility in the concatenation, for pairs that straddle the seam. -/
lemma cross_visV (X1 X2 : List ℚ) {t1 t2 : Nat}
    (h1 : t1 < (crossIdx X1 X2).length) (h2 : t2 < (crossIdx X1 X2).length)
    (h12 : t1 < t2)
    (ha : (crossIdx X1 X2).getD t1 0 < X1.length)
    (hb : X1.length ≤ (crossIdx X1 X2).getD t2 0) :
    VisV ((crossIdx X1 X2).map (val (X1 ++ X2))) t1 t2
      ↔ VisV (X1 ++ X2) ((crossIdx X1 X2).getD t1 0)
          ((crossIdx X1 X2).getD t2 0) := by
  constructor
  · rintro ⟨-, hloc⟩
    refine ⟨crossIdx_mono h2 h12, ?_⟩
    intro g hg hag
    rcases Nat.lt_or_ge g X1.length with hgn | hgn
    · obtain ⟨g', hgg', hg'n, hub, hvle⟩ := exists_ub_ge X1 X1.length g hgn
      obtain ⟨t, ht, hte⟩ := crossIdx_surj (crossIdx_mem.2 (Or.inl ⟨hg'n, hub⟩))
      have ht1 : t1 < t := crossIdx_lt_pos h1 ht (by rw [hte]; omega)
      have ht2 : t < t2 := crossIdx_lt_pos ht h2 (by rw [hte]; omega)
      have hl := hloc t ht2 ht1
      rw [val_crossIdx_map X1 X2 ht, val_crossIdx_map X1 X2 h1,
        val_crossIdx_map X1 X2 h2, hte] at hl
      have hgv : val (X1 ++ X2) g ≤ val (X1 ++ X2) g' := by
        rw [val_append_left hgn, val_append_left hg'n]
        exact hvle
      exact lt_of_le_of_lt hgv hl
    · obtain ⟨j2, hbj, hj2n, hpm⟩ :
          ∃ j, (crossIdx X1 X2).getD t2 0 = X1.length + j
            ∧ j < X2.length ∧ PrefMax X2 j := by
        rcases crossIdx_elem_cases h2 with ⟨hlt, -⟩ | h
        · omega
        · exact h
      obtain ⟨j', hj'le, hj'pm, hj'v⟩ := exists_prefMax_ge X2 (g - X1.length)
      have hj'n : j' < X2.length := by omega
      obtain ⟨t, ht, hte⟩ :=
        crossIdx_surj (crossIdx_mem.2 (Or.inr ⟨j', rfl, hj'n, hj'pm⟩))
      have ht1 : t1 < t := crossIdx_lt_pos h1 ht (by rw [hte]; omega)
      have ht2 : t < t2 := crossIdx_lt_pos ht h2 (by rw [hte, hbj]; omega)
      have hl := hloc t ht2 ht1
      rw [val_crossIdx_map X1 X2 ht, val_crossIdx_map X1 X2 h1,
        val_crossIdx_map X1 X2 h2, hte] at hl
      have hgv : val (X1 ++ X2) g ≤ val (X1 ++ X2) (X1.length + j') := by
        rw [show g = X1.length + (g - X1.length) from by omega,
          val_append_right, val_append_right]
        exact hj'v
      exact lt_of_le_of_lt hgv hl
  · rintro ⟨-, hglob⟩
    refine ⟨h12, ?_⟩
    intro t ht2 ht1
    have htlen : t < (crossIdx X1 X2).length := lt_trans ht2 h2
    rw [val_crossIdx_map X1 X2 htlen, val_crossIdx_map X1 X2 h1,
      val_crossIdx_map X1 X2 h2]
    exact hglob ((crossIdx X1 X2).getD t 0) (crossIdx_mono h2 ht2)
      (crossIdx_mono htlen ht1)

/-- Within either side of the join sequence, only locally adjacent pairs are
locally visible (the two stacks are value-sorted). -/
lemma cross_internal_adjacent (X1 X2 : List ℚ) {t1 t2 : Nat}
    (h1 : t1 < (crossIdx X1 X2).length) (h2 : t2 < (crossIdx X1 X2).length)
    (h12 : t1 < t2)
    (hside : (crossIdx X1 X2).getD t2 0 < X1.length
      ∨ X1.length ≤ (crossIdx X1 X2).getD t1 0)
    (hvis : VisV ((crossIdx X1 X2).map (val (X1 ++ X2))) t1 t2) :
    t2 = t1 + 1 := by
  by_contra hne
  have hmid : t1 + 1 < t2 := by omega
  have hmidlen : t1 + 1 < (crossIdx X1 X2).length := lt_trans hmid h2
  have hl := hvis.2 (t1 + 1) hmid (Nat.lt_succ_self t1)
  rw [val_crossIdx_map X1 X2 hmidlen, val_crossIdx_map X1 X2 h1,
    val_crossIdx_map X1 X2 h2] at hl
  rcases hside with hF | hP
  · have ht1F : (crossIdx X1 X2).getD t1 0 < X1.length :=
      lt_trans (crossIdx_mono h2 h12) hF
    have htmF : (crossIdx X1 X2).getD (t1 + 1) 0 < X1.length :=
      lt_trans (crossIdx_mono h2 hmid) hF
    have hmidt2 : val X1 ((crossIdx X1 X2).getD t2 0)
        < val X1 ((crossIdx X1 X2).getD (t1 + 1) 0) := by
      rcases crossIdx_elem_cases hmidlen with ⟨-, hubm⟩ | ⟨j, hj, -, -⟩
      · exact hubm _ hF (crossIdx_mono h2 hmid)
      · omega
    rw [val_append_left htmF, val_append_left ht1F, val_append_left hF] at hl
    exact absurd (lt_of_lt_of_le hl (min_le_right _ _)) (not_lt.2 hmidt2.le)
  · have ht2P : X1.length ≤ (crossIdx X1 X2).getD t2 0 :=
      le_trans hP (crossIdx_mono h2 h12).le
    have htmP : X1.length ≤ (crossIdx X1 X2).getD (t1 + 1) 0 :=
      le_trans hP (crossIdx_mono hmidlen (Nat.lt_succ_self t1)).le
    obtain ⟨j1, hje1, hj1n, hpm1⟩ :
        ∃ j, (crossIdx X1 X2).getD t1 0 = X1.length + j
          ∧ j < X2.length ∧ PrefMax X2 j := by
      rcases crossIdx_elem_cases h1 with ⟨hlt, -⟩ | h
      · omega
      · exact h
    obtain ⟨jm, hjem, hjmn, hpmm⟩ :
        ∃ j, (crossIdx X1 X2).getD (t1 + 1) 0 = X1.length + j
          ∧ j < X2.length ∧ PrefMax X2 j := by
      rcases crossIdx_elem_cases hmidlen with ⟨hlt, -⟩ | h
      · omega
      · exact h
    have hj1m : j1 < jm := by
      have := crossIdx_mono hmidlen (Nat.lt_succ_self t1)
      omega
    have hv1m : val X2 j1 < val X2 jm := hpmm j1 hj1m
    rw [hje1, hjem, val_append_right, val_append_right] at hl
    exact absurd (lt_of_lt_of_le hl (min_le_left _ _)) (not_lt.2 hv1m.le)

/-- A cross pair of the concatenation has an unblocked left endpoint and a
running-maximum right endpoint. -/
lemma cross_endpoints {X1 X2 : List ℚ} {a b : Nat} (ha : a < X1.length)
    (hb1 : X1.length ≤ b) (hb2 : b < (X1 ++ X2).length)
    (hvis : VisV (X1 ++ X2) a b) :
    Ub X1 X1.length a ∧ PrefMax X2 (b - X1.length) ∧ b - X1.length < X2.length := by
  have hblen : b - X1.length < X2.length := by
    rw [List.length_append] at hb2
    omega
  refine ⟨?_, ?_, hblen⟩
  · intro k hk hak
    have h1 := hvis.2 k (by omega) hak
    rw [val_append_left hk, val_append_left ha] at h1
    exact lt_of_lt_of_le h1 (min_le_left _ _)
  · intro k hk
    have h1 := hvis.2 (X1.length + k) (by omega) (by omega)
    rw [val_append_right] at h1
    have hb : b = X1.length + (b - X1.length) := by omega
    rw [hb, val_append_right] at h1
    exact lt_of_lt_of_le h1 (min_le_right _ _)

/-- The non-sentinel-weighted pairs of the join build are exactly the
seam-straddling visible pairs of the concatenation other than the boundary
pair `(|X1| - 1, |X1|)`. -/
theorem crossPairs_char (X1 X2 : List ℚ) (u w : Nat) :
    (u, w) ∈ (tailPairs ((crossIdx X1 X2).map (val (X1 ++ X2)))
        (crossIdx X1 X2).length).map
        (fun p => ((crossIdx X1 X2).getD p.1 0, (crossIdx X1 X2).getD p.2 0))
      ↔ (u < X1.length ∧ X1.length ≤ w ∧ w < (X1 ++ X2).length
          ∧ VisV (X1 ++ X2) u w
          ∧ ¬(u = X1.length - 1 ∧ w = X1.length)) := by
  have hlenmap : ((crossIdx X1 X2).map (val (X1 ++ X2))).length
      = (crossIdx X1 X2).length := List.length_map _ _
  constructor
  · rintro h
    rcases List.mem_map.1 h with ⟨⟨t1, t2⟩, hp, heq⟩
    have hu : (crossIdx X1 X2).getD t1 0 = u := congrArg Prod.fst heq
    have hw : (crossIdx X1 X2).getD t2 0 = w := congrArg Prod.snd heq
    subst hu
    subst hw
    rcases (tailPairs_mem _ (crossIdx X1 X2).length t1 t2).1 hp
      with ⟨ht2, hvisL, hnadj⟩
    have h12 : t1 < t2 := hvisL.1
    have h1 : t1 < (crossIdx X1 X2).length := lt_trans h12 ht2
    have hgap : t1 + 1 < t2 := by omega
    by_cases hcross : (crossIdx X1 X2).getD t1 0 < X1.length
        ∧ X1.length ≤ (crossIdx X1 X2).getD t2 0
    · obtain ⟨hc1, hc2⟩ := hcross
      have hw : (crossIdx X1 X2).getD t2 0 < (X1 ++ X2).length := by
        rw [List.length_append]
        rcases crossIdx_elem_cases ht2 with ⟨hlt, -⟩ | ⟨j, hj, hjn, -⟩ <;> omega
      refine ⟨hc1, hc2, hw, (cross_visV X1 X2 h1 ht2 h12 hc1 hc2).1 hvisL, ?_⟩
      rintro ⟨hu, hwv⟩
      have hmlen : t1 + 1 < (crossIdx X1 X2).length := lt_trans hgap ht2
      have hm1 := crossIdx_mono hmlen (Nat.lt_succ_self t1)
      have hm2 := crossIdx_mono ht2 hgap
      omega
    · have hside : (crossIdx X1 X2).getD t2 0 < X1.length
          ∨ X1.length ≤ (crossIdx X1 X2).getD t1 0 := by
        rcases not_and_or.1 hcross with h | h
        · exact Or.inr (by omega)
        · exact Or.inl (by omega)
      exact absurd (cross_internal_adjacent X1 X2 h1 ht2 h12 hside hvisL)
        (by omega)
  · rintro ⟨hu, hw1, hw2, hvis, hnb⟩
    obtain ⟨hub, hpm, hblen⟩ := cross_endpoints hu hw1 hw2 hvis
    obtain ⟨t1, h1, he1⟩ :=
      crossIdx_surj ((@crossIdx_mem X1 X2 u).2 (Or.inl ⟨hu, hub⟩))
    obtain ⟨t2, h2, he2⟩ := crossIdx_surj ((@crossIdx_mem X1 X2 w).2
      (Or.inr ⟨w - X1.length, by omega, hblen, hpm⟩))
    have h12 : t1 < t2 := crossIdx_lt_pos h1 h2 (by rw [he1, he2]; omega)
    have hvisL : VisV ((crossIdx X1 X2).map (val (X1 ++ X2))) t1 t2 := by
      refine (cross_visV X1 X2 h1 h2 h12 (by rw [he1]; omega)
        (by rw [he2]; omega)).2 ?_
      rw [he1, he2]
      exact hvis
    have hnadj : t1 ≠ t2 - 1 := by
      intro hc
      have ht2e : t2 = t1 + 1 := by omega
      by_cases huc : u = X1.length - 1
      · have hwc : X1.length < w := by
          rcases Nat.lt_or_ge X1.length w with h | h
          · exact h
          · exact absurd ⟨huc, by omega⟩ hnb
        have h0n : 0 < X2.length := by
          rw [List.length_append] at hw2
          omega
        obtain ⟨t, ht, hte⟩ := crossIdx_surj
          ((@crossIdx_mem X1 X2 (X1.length + 0)).2
            (Or.inr ⟨0, rfl, h0n, fun k hk => absurd hk (Nat.not_lt_zero k)⟩))
        have hta : t1 < t := crossIdx_lt_pos h1 ht (by rw [hte, he1]; omega)
        have htb : t < t2 := crossIdx_lt_pos ht h2 (by rw [hte, he2]; omega)
        omega
      · have huu : u < X1.length - 1 := by omega
        have hubound : Ub X1 X1.length (X1.length - 1) := by
          intro k hk hlk
          omega
        obtain ⟨t, ht, hte⟩ := crossIdx_surj
          ((@crossIdx_mem X1 X2 (X1.length - 1)).2
            (Or.inl ⟨by omega, hubound⟩))
        have hta : t1 < t := crossIdx_lt_pos h1 ht (by rw [hte, he1]; omega)
        have htb : t < t2 := crossIdx_lt_pos ht h2 (by rw [hte, he2]; omega)
        omega
    refine List.mem_map.2 ⟨(t1, t2), ?_, by rw [he1, he2]⟩
    exact (tailPairs_mem _ (crossIdx X1 X2).length t1 t2).2 ⟨h2, hvisL, hnadj⟩

namespace DT

/-- The merged `vis_p` is the `vis_p` of the direct build of the
concatenation. -/
lemma merge_vis_p_eq (off : Nat) (X1 X2 : List ℚ) :
    (buildFrom (off + X1.length) X2).vis_p.takeWhile
        (fun e => decide ((buildFrom off X1).max_val < ((e.1 : ℚ) : WithBot ℚ)))
      ++ (buildFrom off X1).vis_p
    = (buildFrom off (X1 ++ X2)).vis_p := by
  have e1 : (buildFrom (off + X1.length) X2).vis_p
      = (pmaxStack X2 X2.length).map (pair X2 (labFn (off + X1.length) X2.length)) := by
    rw [buildFrom_spec]
  have e2 : (buildFrom off X1).vis_p
      = (pmaxStack X1 X1.length).map (pair X1 (labFn off X1.length)) := by
    rw [buildFrom_spec]
  have e3 : (buildFrom off X1).max_val = maxUpTo X1 X1.length := by
    rw [buildFrom_spec]
  have e4 : (buildFrom off (X1 ++ X2)).vis_p
      = (pmaxStack (X1 ++ X2) (X1 ++ X2).length).map
          (pair (X1 ++ X2) (labFn off (X1 ++ X2).length)) := by
    rw [buildFrom_spec]
  rw [e1, e2, e3, e4, takeWhile_pair_filter (pmaxStack_pairwise_val X2 X2.length),
    List.length_append, pmaxStack_append, List.map_append]
  congr 1
  · rw [List.filter_map, List.map_map]
    have hfc : (pmaxStack X2 X2.length).filter
          ((fun e : ℚ × Nat =>
            decide (maxUpTo X1 X1.length < ((e.1 : ℚ) : WithBot ℚ)))
            ∘ pair X2 (labFn (off + X1.length) X2.length))
        = (pmaxStack X2 X2.length).filter
          (fun j => decide (maxUpTo X1 X1.length < ((val X2 j : ℚ) : WithBot ℚ))) :=
      List.filter_congr fun j _ => rfl
    rw [hfc]
    refine List.map_congr_left fun j hj => ?_
    have hjn : j < X2.length := (mem_pmaxStack.1 (List.mem_of_mem_filter hj)).1
    show pair X2 (labFn (off + X1.length) X2.length) j
      = pair (X1 ++ X2) (labFn off (X1.length + X2.length)) (X1.length + j)
    rw [pair, pair, labFn_eq hjn, labFn_eq (by omega), val_append_right]
    congr 1
    omega
  · refine List.map_congr_left fun u hu => ?_
    have hun : u < X1.length := (mem_pmaxStack.1 hu).1
    show pair X1 (labFn off X1.length) u
      = pair (X1 ++ X2) (labFn off (X1.length + X2.length)) u
    rw [pair, pair, labFn_eq hun, labFn_eq (by omega : u < X1.length + X2.length),
      val_append_left hun]

/-- The merged `vis_f` is the `vis_f` of the direct build of the
concatenation. -/
lemma merge_vis_f_eq (off : Nat) (X1 X2 : List ℚ) :
    (buildFrom (off + X1.length) X2).vis_f
      ++ ((buildFrom off X1).vis_f.reverse.takeWhile (fun e =>
          decide ((buildFrom (off + X1.length) X2).max_val
            < ((e.1 : ℚ) : WithBot ℚ)))).reverse
    = (buildFrom off (X1 ++ X2)).vis_f := by
  have e1 : (buildFrom (off + X1.length) X2).vis_f
      = (goodStack X2 X2.length).map (pair X2 (labFn (off + X1.length) X2.length)) := by
    rw [buildFrom_spec]
    show (stackUpTo X2 X2.length).map _ = _
    rw [stackUpTo_eq_goodStack]
  have e2 : (buildFrom off X1).vis_f
      = (goodStack X1 X1.length).map (pair X1 (labFn off X1.length)) := by
    rw [buildFrom_spec]
    show (stackUpTo X1 X1.length).map _ = _
    rw [stackUpTo_eq_goodStack]
  have e3 : (buildFrom (off + X1.length) X2).max_val = maxUpTo X2 X2.length := by
    rw [buildFrom_spec]
  have e4 : (buildFrom off (X1 ++ X2)).vis_f
      = (goodStack (X1 ++ X2) (X1 ++ X2).length).map
          (pair (X1 ++ X2) (labFn off (X1 ++ X2).length)) := by
    rw [buildFrom_spec]
    show (stackUpTo (X1 ++ X2) (X1 ++ X2).length).map _ = _
    rw [stackUpTo_eq_goodStack]
  rw [e1, e2, e3, e4, ← List.map_reverse,
    takeWhile_pair_filter (List.pairwise_reverse.2 (goodStack_pairwise_val X1 X1.length)),
    List.map_reverse, List.filter_reverse, List.reverse_reverse,
    List.length_append, goodStack_append, List.map_append]
  congr 1
  · rw [List.map_map]
    refine List.map_congr_left fun j hj => ?_
    have hjn : j < X2.length := (mem_goodStack.1 hj).1
    show pair X2 (labFn (off + X1.length) X2.length) j
      = pair (X1 ++ X2) (labFn off (X1.length + X2.length)) (X1.length + j)
    rw [pair, pair, labFn_eq hjn, labFn_eq (by omega), val_append_right]
    congr 1
    omega
  · rw [List.filter_map]
    have hfc : (goodStack X1 X1.length).filter
          ((fun e : ℚ × Nat =>
            decide (maxUpTo X2 X2.length < ((e.1 : ℚ) : WithBot ℚ)))
            ∘ pair X1 (labFn off X1.length))
        = (goodStack X1 X1.length).filter
          (fun u => decide (maxUpTo X2 X2.length < ((val X1 u : ℚ) : WithBot ℚ))) :=
      List.filter_congr fun u _ => rfl
    rw [hfc]
    refine List.map_congr_left fun u hu => ?_
    have hun : u < X1.length := (mem_goodStack.1 (List.mem_of_mem_filter hu)).1
    show pair X1 (labFn off X1.length) u
      = pair (X1 ++ X2) (labFn off (X1.length + X2.length)) u
    rw [pair, pair, labFn_eq hun, labFn_eq (by omega : u < X1.length + X2.length),
      val_append_left hun]

/-- The merged `max_val` is the `max_val` of the direct build of the
concatenation. -/
lemma merge_max_val_eq (off : Nat) (X1 X2 : List ℚ) :
    max (buildFrom off X1).max_val (buildFrom (off + X1.length) X2).max_val
      = (buildFrom off (X1 ++ X2)).max_val := by
  have e1 : (buildFrom off X1).max_val = maxUpTo X1 X1.length := by
    rw [buildFrom_spec]
  have e2 : (buildFrom (off + X1.length) X2).max_val = maxUpTo X2 X2.length := by
    rw [buildFrom_spec]
  have e3 : (buildFrom off (X1 ++ X2)).max_val
      = maxUpTo (X1 ++ X2) (X1 ++ X2).length := by
    rw [buildFrom_spec]
  rw [e1, e2, e3, List.length_append, maxUpTo_add]

/-- Membership in the edge-key log of a sequentially labelled build. -/
lemma edgeKeys_buildFrom_mem (off : Nat) (X : List ℚ) (k : Nat × Nat) :
    k ∈ edgeKeys (buildFrom off X)
      ↔ ∃ u w, w < X.length ∧ VisV X u w ∧ k = (off + u, off + w) := by
  have h : edgeKeys (buildFrom off X) = (edgesUpTo X X.length).map
      (fun p => (labFn off X.length p.1, labFn off X.length p.2)) := by
    rw [edgeKeys, buildFrom_spec]
    show (edgesW X (labFn off X.length) ⊤ X.length).map (·.1) = _
    exact edgesW_keys X (labFn off X.length) ⊤ X.length
  rw [h]
  constructor
  · intro hk
    rcases List.mem_map.1 hk with ⟨⟨u, w⟩, hp, heq⟩
    rcases (edgesUpTo_mem X X.length u w).1 hp with ⟨hw, hv⟩
    refine ⟨u, w, hw, hv, ?_⟩
    rw [← heq]
    have hu : u < X.length := lt_trans hv.1 hw
    simp [labFn_eq hu, labFn_eq hw]
  · rintro ⟨u, w, hw, hv, rfl⟩
    refine List.mem_map.2 ⟨(u, w), (edgesUpTo_mem X X.length u w).2 ⟨hw, hv⟩, ?_⟩
    have hu : u < X.length := lt_trans hv.1 hw
    simp [labFn_eq hu, labFn_eq hw]

/-- A builder state that carries the same boundary data and the same edge-key
set as the direct sequential build of `X` labelled from `off`.  `merge` reads
nothing else, so this is the invariant preserved by pairwise merging. -/
def SimBuild (s : St) (off : Nat) (X : List ℚ) : Prop :=
  s.vis_p = (buildFrom off X).vis_p ∧
  s.vis_f = (buildFrom off X).vis_f ∧
  s.max_val = (buildFrom off X).max_val ∧
  s.neighbour_weight = ⊤ ∧
  ∀ k : Nat × Nat, k ∈ edgeKeys s ↔ k ∈ edgeKeys (buildFrom off X)

lemma simBuild_refl (off : Nat) (X : List ℚ) : SimBuild (buildFrom off X) off X :=
  ⟨rfl, rfl, rfl, by rw [buildFrom_spec], fun k => Iff.rfl⟩

/-- `join_vtx` of a merge of built states is the join sequence, paired with
its values and global labels. -/
lemma join_vtx_eq (off : Nat) (X1 X2 : List ℚ) :
    (buildFrom off X1).vis_f.reverse ++ (buildFrom (off + X1.length) X2).vis_p.reverse
      = (crossIdx X1 X2).map
          (pair (X1 ++ X2) (labFn off (X1.length + X2.length))) := by
  have e1 : (buildFrom off X1).vis_f
      = (stackUpTo X1 X1.length).map (pair X1 (labFn off X1.length)) := by
    rw [buildFrom_spec]
  have e2 : (buildFrom (off + X1.length) X2).vis_p
      = (pmaxStack X2 X2.length).map (pair X2 (labFn (off + X1.length) X2.length)) := by
    rw [buildFrom_spec]
  rw [e1, e2, ← List.map_reverse, ← List.map_reverse, crossIdx, List.map_append,
    List.map_map]
  congr 1
  · refine List.map_congr_left fun u hu => ?_
    have hun : u < X1.length := by
      rw [List.mem_reverse, stackUpTo_eq_goodStack] at hu
      exact (mem_goodStack.1 hu).1
    show pair X1 (labFn off X1.length) u
      = pair (X1 ++ X2) (labFn off (X1.length + X2.length)) u
    rw [pair, pair, labFn_eq hun, labFn_eq (by omega : u < X1.length + X2.length),
      val_append_left hun]
  · refine List.map_congr_left fun j hj => ?_
    have hjn : j < X2.length := (mem_pmaxStack.1 (List.mem_reverse.1 hj)).1
    show pair X2 (labFn (off + X1.length) X2.length) j
      = pair (X1 ++ X2) (labFn off (X1.length + X2.length)) (X1.length + j)
    rw [pair, pair, labFn_eq hjn, labFn_eq (by omega), val_append_right]
    congr 1
    omega

/-- Keys of the non-sentinel edges of the join build, in terms of the join
sequence's non-adjacent visible pairs. -/
lemma join_E_filter_keys (off : Nat) (X1 X2 : List ℚ) :
    ((addSeq (init ⊤) ((crossIdx X1 X2).map (pair (X1 ++ X2)
          (labFn off (X1.length + X2.length))))).E.filter
        (fun e => decide (e.2 ≠ (⊤ : Wt)))).map (·.1)
      = ((tailPairs ((crossIdx X1 X2).map (val (X1 ++ X2)))
            (crossIdx X1 X2).length).map
          (fun p => ((crossIdx X1 X2).getD p.1 0, (crossIdx X1 X2).getD p.2 0))).map
          (fun q => (labFn off (X1.length + X2.length) q.1,
            labFn off (X1.length + X2.length) q.2)) := by
  have hzip : (crossIdx X1 X2).map
        (pair (X1 ++ X2) (labFn off (X1.length + X2.length)))
      = ((crossIdx X1 X2).map (val (X1 ++ X2))).zip
          ((crossIdx X1 X2).map (labFn off (X1.length + X2.length))) :=
    (List.zip_map' (val (X1 ++ X2)) (labFn off (X1.length + X2.length))
      (crossIdx X1 X2)).symm
  have hlen : ((crossIdx X1 X2).map (labFn off (X1.length + X2.length))).length
      = ((crossIdx X1 X2).map (val (X1 ++ X2))).length := by
    simp
  have htake : (((crossIdx X1 X2).map (val (X1 ++ X2))).zip
        ((crossIdx X1 X2).map (labFn off (X1.length + X2.length)))).take
        ((crossIdx X1 X2).map (val (X1 ++ X2))).length
      = ((crossIdx X1 X2).map (val (X1 ++ X2))).zip
          ((crossIdx X1 X2).map (labFn off (X1.length + X2.length))) := by
    apply List.take_of_length_le
    rw [List.length_zip]
    omega
  have hspec := addSeq_take_spec ⊤ ((crossIdx X1 X2).map (val (X1 ++ X2)))
    ((crossIdx X1 X2).map (labFn off (X1.length + X2.length))) hlen
    ((crossIdx X1 X2).map (val (X1 ++ X2))).length le_rfl
  rw [htake] at hspec
  rw [hzip, hspec]
  show ((edgesW ((crossIdx X1 X2).map (val (X1 ++ X2)))
      (fun u => ((crossIdx X1 X2).map
        (labFn off (X1.length + X2.length))).getD u 0) ⊤
      ((crossIdx X1 X2).map (val (X1 ++ X2))).length).filter
        (fun e => decide (e.2 ≠ (⊤ : Wt)))).map (·.1) = _
  rw [edgesW_filter_keys, List.map_map]
  have hmlen : ((crossIdx X1 X2).map (val (X1 ++ X2))).length
      = (crossIdx X1 X2).length := List.length_map _ _
  rw [hmlen]
  refine List.map_congr_left fun p hp => ?_
  rcases p with ⟨t1, t2⟩
  rcases (tailPairs_mem _ (crossIdx X1 X2).length t1 t2).1 hp with ⟨ht2, hvisL, -⟩
  have h1 : t1 < (crossIdx X1 X2).length := lt_trans hvisL.1 ht2
  have hgetD : ∀ t, t < (crossIdx X1 X2).length →
      ((crossIdx X1 X2).map (labFn off (X1.length + X2.length))).getD t 0
        = labFn off (X1.length + X2.length) ((crossIdx X1 X2).getD t 0) := by
    intro t ht
    rw [getD_of_lt (by simpa using ht), List.getElem_map, getD_of_lt ht]
  show (((crossIdx X1 X2).map (labFn off (X1.length + X2.length))).getD t1 0,
      ((crossIdx X1 X2).map (labFn off (X1.length + X2.length))).getD t2 0) = _
  rw [hgetD t1 h1, hgetD t2 ht2]
  rfl

/-- Merging two states that simulate builds of adjacent chunks succeeds and
simulates the build of the concatenation. -/
theorem merge_simBuild (off : Nat) (X1 X2 : List ℚ) (h1 : X1 ≠ []) (h2 : X2 ≠ [])
    {s o : St} (hs : SimBuild s off X1) (ho : SimBuild o (off + X1.length) X2) :
    ∃ m, merge s o = .ok m ∧ SimBuild m off (X1 ++ X2) := by
  obtain ⟨hsp, hsf, hsm, hsn, hse⟩ := hs
  obtain ⟨hop, hof, hom, hon, hoe⟩ := ho
  obtain ⟨m1, hm1⟩ : ∃ m1, X1.length = m1 + 1 :=
    ⟨X1.length - 1, by have := List.length_pos.2 h1; omega⟩
  obtain ⟨m2, hm2⟩ : ∃ m2, X2.length = m2 + 1 :=
    ⟨X2.length - 1, by have := List.length_pos.2 h2; omega⟩
  have hfcons : s.vis_f = (val X1 m1, labFn off X1.length m1)
      :: (popStack X1 m1 (stackUpTo X1 m1)).map (pair X1 (labFn off X1.length)) := by
    rw [hsf, buildFrom_vis_f_cons off hm1, pair]
  have hplast : o.vis_p.getLast?
      = some (val X2 0, labFn (off + X1.length) X2.length 0) := by
    have e1 : (buildFrom (off + X1.length) X2).vis_p
        = (pmaxStack X2 X2.length).map
            (pair X2 (labFn (off + X1.length) X2.length)) := by
      rw [buildFrom_spec]
    have hpm0 : (pmaxStack X2 X2.length).getLast? = some 0 := by
      have hfilter : (0 :: (List.range m2).map Nat.succ).filter
            (fun u => decide (PrefMax X2 u))
          = 0 :: ((List.range m2).map Nat.succ).filter
              (fun u => decide (PrefMax X2 u)) := by
        apply List.filter_cons_of_pos
        exact decide_eq_true
          (show PrefMax X2 0 from fun k hk => absurd hk (Nat.not_lt_zero k))
      rw [pmaxStack, List.getLast?_reverse, hm2, List.range_succ_eq_map, hfilter]
      rfl
    rw [hop, e1, List.getLast?_map, hpm0]
    rfl
  have hnw : s.neighbour_weight = o.neighbour_weight := by rw [hsn, hon]
  have hM := merge_ok s o hnw (val X1 m1) (labFn off X1.length m1) _ hfcons
    (val X2 0) (labFn (off + X1.length) X2.length 0) hplast
  refine ⟨_, hM, ?_, ?_, ?_, hsn, ?_⟩
  · show o.vis_p.takeWhile
        (fun e => decide (s.max_val < ((e.1 : ℚ) : WithBot ℚ))) ++ s.vis_p = _
    rw [hsm, hsp, hop]
    exact merge_vis_p_eq off X1 X2
  · show o.vis_f ++ (s.vis_f.reverse.takeWhile fun e =>
        decide (o.max_val < ((e.1 : ℚ) : WithBot ℚ))).reverse = _
    rw [hom, hsf, hof]
    exact merge_vis_f_eq off X1 X2
  · show max s.max_val o.max_val = _
    rw [hsm, hom]
    exact merge_max_val_eq off X1 X2
  · intro k
    have hjoin : s.vis_f.reverse ++ o.vis_p.reverse
        = (crossIdx X1 X2).map
            (pair (X1 ++ X2) (labFn off (X1.length + X2.length))) := by
      rw [hsf, hop]
      exact join_vtx_eq off X1 X2
    show k ∈ (s.E ++ o.E ++
        (((labFn off X1.length m1, labFn (off + X1.length) X2.length 0),
            s.neighbour_weight) ::
          (addSeq (init ⊤) (s.vis_f.reverse ++ o.vis_p.reverse)).E.filter
            (fun e => decide (e.2 ≠ s.neighbour_weight)))).map (·.1) ↔ _
    rw [hsn, hjoin, List.map_append, List.map_append, List.map_cons,
      join_E_filter_keys, edgeKeys_buildFrom_mem]
    simp only [List.mem_append, List.mem_cons]
    constructor
    · rintro ((hk | hk) | hk | hk)
      · rcases (edgeKeys_buildFrom_mem off X1 k).1 ((hse k).1 hk)
          with ⟨u, w, hw, hv, rfl⟩
        exact ⟨u, w, by rw [List.length_append]; omega,
          (visV_append_left hw).2 hv, rfl⟩
      · rcases (edgeKeys_buildFrom_mem (off + X1.length) X2 k).1 ((hoe k).1 hk)
          with ⟨u, w, hw, hv, rfl⟩
        refine ⟨X1.length + u, X1.length + w, by rw [List.length_append]; omega,
          (visV_append_right X1 X2 u w).2 hv, ?_⟩
        congr 1 <;> omega
      · subst hk
        refine ⟨m1, m1 + 1, by rw [List.length_append]; omega,
          ⟨Nat.lt_succ_self m1, fun kk hk1 hk2 => absurd hk1 (by omega)⟩, ?_⟩
        show (labFn off X1.length m1, labFn (off + X1.length) X2.length 0) = _
        rw [labFn_eq (by omega : m1 < X1.length),
          labFn_eq (by omega : 0 < X2.length)]
        congr 1 <;> omega
      · rcases List.mem_map.1 hk with ⟨⟨a, b⟩, hab, rfl⟩
        rcases (crossPairs_char X1 X2 a b).1 hab with ⟨hau, hbw1, hbw2, hvis, -⟩
        refine ⟨a, b, hbw2, hvis, ?_⟩
        rw [List.length_append] at hbw2
        rw [labFn_eq (by omega : a < X1.length + X2.length),
          labFn_eq (by omega : b < X1.length + X2.length)]
    · rintro ⟨u, w, hw, hv, rfl⟩
      rw [List.length_append] at hw
      rcases Nat.lt_or_ge w X1.length with hwn | hwn
      · exact Or.inl (Or.inl ((hse _).2 ((edgeKeys_buildFrom_mem off X1 _).2
          ⟨u, w, hwn, (visV_append_left hwn).1 hv, rfl⟩)))
      · rcases Nat.lt_or_ge u X1.length with hun | hun
        · by_cases hbd : u = X1.length - 1 ∧ w = X1.length
          · refine Or.inr (Or.inl ?_)
            show _ = (labFn off X1.length m1, labFn (off + X1.length) X2.length 0)
            rw [labFn_eq (by omega : m1 < X1.length),
              labFn_eq (by omega : 0 < X2.length)]
            obtain ⟨hbu, hbw⟩ := hbd
            congr 1 <;> omega
          · refine Or.inr (Or.inr (List.mem_map.2 ⟨(u, w),
              (crossPairs_char X1 X2 u w).2
                ⟨hun, hwn, by rw [List.length_append]; omega, hv, hbd⟩, ?_⟩))
            show (labFn off (X1.length + X2.length) u,
                labFn off (X1.length + X2.length) w) = _
            rw [labFn_eq (by omega : u < X1.length + X2.length),
              labFn_eq (by omega : w < X1.length + X2.length)]
        · refine Or.inl (Or.inr ?_)
          obtain ⟨u', rfl⟩ : ∃ u', u = X1.length + u' := ⟨u - X1.length, by omega⟩
          obtain ⟨w', rfl⟩ : ∃ w', w = X1.length + w' := ⟨w - X1.length, by omega⟩
          refine (hoe _).2 ((edgeKeys_buildFrom_mem (off + X1.length) X2 _).2
            ⟨u', w', by omega, (visV_append_right X1 X2 u' w').1 hv, ?_⟩)
          congr 1 <;> omega

end DT

/-! ## Helpers for the linear-merge analysis -/

lemma val_le_maxUpTo (X : List ℚ) {k m : Nat} (h : k < m) :
    ((val X k : ℚ) : WithBot ℚ) ≤ maxUpTo X m :=
  le_of_not_lt fun hc => lt_irrefl _ (maxUpTo_lt_iff.1 hc k h)

/-- The running maximum is constant across a stretch with no new strict
maximum. -/
lemma maxUpTo_eq_of_no_prefMax (X : List ℚ) :
    ∀ b a, a ≤ b → (∀ k, a ≤ k → k < b → ¬ PrefMax X k) →
      maxUpTo X b = maxUpTo X a := by
  intro b
  induction b with
  | zero =>
    intro a ha _
    have h0 : a = 0 := by omega
    rw [h0]
  | succ b ih =>
    intro a ha h
    rcases Nat.lt_or_ge a (b + 1) with hab | hab
    · have hnb : ¬ PrefMax X b := h b (by omega) (by omega)
      simp only [PrefMax, not_forall] at hnb
      obtain ⟨k', hk', hge⟩ := hnb
      have hle : ((val X b : ℚ) : WithBot ℚ) ≤ maxUpTo X b := by
        refine le_trans ?_ (val_le_maxUpTo X hk')
        exact_mod_cast not_lt.1 hge
      rw [maxUpTo, max_eq_left hle]
      exact ih a (by omega) (fun k h1 h2 => h k h1 (by omega))
    · have : a = b + 1 := by omega
      rw [this]

lemma prefMax_map_add (X : List ℚ) (t : ℚ) {u : Nat} (hu : u < X.length) :
    PrefMax (X.map (· + t)) u ↔ PrefMax X u := by
  constructor
  · intro h k hk
    have := h k hk
    rwa [Lin.val_map_add (lt_trans hk hu), Lin.val_map_add hu, add_lt_add_iff_right]
      at this
  · intro h k hk
    rw [Lin.val_map_add (lt_trans hk hu), Lin.val_map_add hu, add_lt_add_iff_right]
    exact h k hk

lemma pmaxStack_map_add (X : List ℚ) (t : ℚ) {m : Nat} (hm : m ≤ X.length) :
    pmaxStack (X.map (· + t)) m = pmaxStack X m := by
  rw [pmaxStack, pmaxStack]
  congr 1
  refine List.filter_congr fun u hu => ?_
  have hu' : u < X.length := lt_of_lt_of_le (List.mem_range.1 hu) hm
  exact decide_eq_decide.2 (prefMax_map_add X t hu')

lemma withBot_map_add_mono (c : ℚ) :
    Monotone (fun x : WithBot ℚ => x.map (· + c)) := by
  intro x y hxy
  rcases x with - | qx
  · exact bot_le
  · rcases y with - | qy
    · exact absurd (le_bot_iff.1 hxy) (by simp)
    · show ((qx + c : ℚ) : WithBot ℚ) ≤ ((qy + c : ℚ) : WithBot ℚ)
      rw [WithBot.coe_le_coe]
      exact add_le_add_right (WithBot.coe_le_coe.1 hxy) c

lemma withBot_map_add_max (a b : WithBot ℚ) (c : ℚ) :
    (max a b).map (· + c) = max (a.map (· + c)) (b.map (· + c)) :=
  (withBot_map_add_mono c).map_max

lemma maxUpTo_map_add (X : List ℚ) (t : ℚ) :
    ∀ m, m ≤ X.length →
      maxUpTo (X.map (· + t)) m = (maxUpTo X m).map (· + t)
  | 0, _ => rfl
  | m + 1, hm => by
    rw [maxUpTo, maxUpTo, maxUpTo_map_add X t m (by omega),
      Lin.val_map_add (show m < X.length by omega), withBot_map_add_max,
      WithBot.map_coe]

lemma map_add_lt_iff (a b : WithBot ℚ) (c : ℚ) :
    a.map (· + c) < b.map (· + c) ↔ a < b := by
  rcases a with - | qa <;> rcases b with - | qb
  · exact Iff.rfl
  · exact iff_of_true (WithBot.bot_lt_coe _) (WithBot.bot_lt_coe _)
  · exact iff_of_false not_lt_bot not_lt_bot
  · show ((qa + c : ℚ) : WithBot ℚ) < ((qb + c : ℚ) : WithBot ℚ)
      ↔ ((qa : ℚ) : WithBot ℚ) < ((qb : ℚ) : WithBot ℚ)
    rw [WithBot.coe_lt_coe, WithBot.coe_lt_coe]
    exact add_lt_add_iff_right c

namespace Lin

/-- The `vis_p` indices of the single pass are the running-maximum
positions, and `max_val` is the running maximum. -/
lemma foldSteps_vis_p (Y : List ℚ) (m : Nat) :
    ((List.range m).foldl (step Y) stInit).vis_p.map Prod.fst = pmaxStack Y m ∧
      ((List.range m).foldl (step Y) stInit).max_val = maxUpTo Y m := by
  induction m with
  | zero => exact ⟨rfl, rfl⟩
  | succ m ih =>
    have hr : List.range (m + 1) = List.range m ++ [m] := List.range_succ m
    rw [hr, List.foldl_append]
    set s := (List.range m).foldl (step Y) stInit
    by_cases hmax : maxUpTo Y m < ((val Y m : ℚ) : WithBot ℚ)
    · have hpm : PrefMax Y m := fun k hk => maxUpTo_lt_iff.1 hmax k hk
      constructor
      · simp only [List.foldl_cons, List.foldl_nil, step, ih.2, if_pos hmax,
          List.map_cons, ih.1, pmaxStack_succ, if_pos hpm]
      · simp only [List.foldl_cons, List.foldl_nil, step, ih.2, if_pos hmax,
          DT.maxUpTo_succ_ite]
    · have hpm : ¬ PrefMax Y m := fun hc =>
        hmax (maxUpTo_lt_iff.2 fun k hk => hc k hk)
      constructor
      · simp only [List.foldl_cons, List.foldl_nil, step, ih.2, if_neg hmax,
          ih.1, pmaxStack_succ, if_neg hpm]
      · simp only [List.foldl_cons, List.foldl_nil, step, ih.2, if_neg hmax,
          DT.maxUpTo_succ_ite]

end Lin

/-- Popping the boundary stack against a new right-chunk value tightens the
threshold filter by one step of the right chunk's running maximum. -/
lemma popStack_cross (X1 X2 : List ℚ) (j : Nat) :
    popStack (X1 ++ X2) (X1.length + j)
        ((goodStack X1 X1.length).filter
          (fun u => decide (maxUpTo X2 j < ((val X1 u : ℚ) : WithBot ℚ))))
      = (goodStack X1 X1.length).filter
          (fun u => decide (maxUpTo X2 (j + 1) < ((val X1 u : ℚ) : WithBot ℚ))) := by
  have hpw : ((goodStack X1 X1.length).filter
        (fun u => decide (maxUpTo X2 j < ((val X1 u : ℚ) : WithBot ℚ)))).Pairwise
      (fun a b => val (X1 ++ X2) a < val (X1 ++ X2) b) := by
    refine ((goodStack_pairwise_val X1 X1.length).filter _).imp_of_mem ?_
    intro a b ha hb hr
    have han : a < X1.length := (mem_goodStack.1 (List.mem_of_mem_filter ha)).1
    have hbn : b < X1.length := (mem_goodStack.1 (List.mem_of_mem_filter hb)).1
    rwa [val_append_left han, val_append_left hbn]
  rw [popStack_eq_filter hpw, List.filter_filter]
  refine List.filter_congr fun u hu => ?_
  have hun : u < X1.length := (mem_goodStack.1 hu).1
  rw [← Bool.decide_and]
  refine decide_eq_decide.2 ?_
  rw [val_append_right, val_append_left hun,
    show maxUpTo X2 (j + 1)
      = max (maxUpTo X2 j) ((val X2 j : ℚ) : WithBot ℚ) from rfl, max_lt_iff,
    WithBot.coe_lt_coe]
  exact and_comm

/-- At a right-chunk running-maximum position, the boundary scan visits
exactly the globally visible left-chunk partners. -/
lemma visited_cross_step (X1 X2 : List ℚ) {j : Nat} (hj : j < X2.length)
    (hpm : PrefMax X2 j) (u : Nat) :
    u ∈ visited (X1 ++ X2) (X1.length + j)
        ((goodStack X1 X1.length).filter
          (fun w => decide (maxUpTo X2 j < ((val X1 w : ℚ) : WithBot ℚ))))
      ↔ u < X1.length ∧ VisV (X1 ++ X2) u (X1.length + j) := by
  have hmemS : ∀ w, w ∈ (goodStack X1 X1.length).filter
        (fun w => decide (maxUpTo X2 j < ((val X1 w : ℚ) : WithBot ℚ))) →
      w < X1.length ∧ Ub X1 X1.length w
        ∧ maxUpTo X2 j < ((val X1 w : ℚ) : WithBot ℚ) := by
    intro w hw
    rcases List.mem_filter.1 hw with ⟨hw1, hw2⟩
    rcases mem_goodStack.1 hw1 with ⟨h1, h2⟩
    exact ⟨h1, h2, of_decide_eq_true hw2⟩
  have hgt : ((goodStack X1 X1.length).filter
        (fun w => decide (maxUpTo X2 j < ((val X1 w : ℚ) : WithBot ℚ)))).Pairwise
      (fun a b => b < a) := (goodStack_pairwise_gt X1 X1.length).filter _
  have hpw : ((goodStack X1 X1.length).filter
        (fun w => decide (maxUpTo X2 j < ((val X1 w : ℚ) : WithBot ℚ)))).Pairwise
      (fun a b => val (X1 ++ X2) a < val (X1 ++ X2) b) := by
    refine ((goodStack_pairwise_val X1 X1.length).filter _).imp_of_mem ?_
    intro a b ha hb hr
    rwa [val_append_left (hmemS a ha).1, val_append_left (hmemS b hb).1]
  rw [visited_mem_of hgt hpw]
  constructor
  · rintro ⟨hu, hall⟩
    rcases hmemS u hu with ⟨hu1, hu2, hu3⟩
    refine ⟨hu1, by omega, ?_⟩
    intro g hg hug
    rcases Nat.lt_or_ge g X1.length with hgn | hgn
    · obtain ⟨g', hgg', hg'n, hub, hvle⟩ := exists_ub_ge X1 X1.length g hgn
      have hminu : val (X1 ++ X2) g < val (X1 ++ X2) u := by
        rw [val_append_left hgn, val_append_left hu1]
        exact lt_of_le_of_lt
          (le_trans hvle (le_of_eq rfl))
          (hu2 g' hg'n (by omega))
      by_cases hg'S : maxUpTo X2 j < ((val X1 g' : ℚ) : WithBot ℚ)
      · have hg'mem : g' ∈ (goodStack X1 X1.length).filter
            (fun w => decide (maxUpTo X2 j < ((val X1 w : ℚ) : WithBot ℚ))) :=
          List.mem_filter.2 ⟨mem_goodStack.2 ⟨hg'n, hub⟩, decide_eq_true hg'S⟩
        have := hall g' hg'mem (by omega)
        refine lt_min hminu ?_
        calc val (X1 ++ X2) g ≤ val (X1 ++ X2) g' := by
              rw [val_append_left hgn, val_append_left hg'n]; exact hvle
          _ < val (X1 ++ X2) (X1.length + j) := this
      · refine lt_min hminu ?_
        rw [val_append_left hgn, val_append_right]
        have h1 : ((val X1 g' : ℚ) : WithBot ℚ) ≤ maxUpTo X2 j := not_lt.1 hg'S
        have h2 : maxUpTo X2 j < ((val X2 j : ℚ) : WithBot ℚ) :=
          maxUpTo_lt_iff.2 fun k hk => hpm k hk
        have : ((val X1 g : ℚ) : WithBot ℚ) < ((val X2 j : ℚ) : WithBot ℚ) :=
          lt_of_le_of_lt (le_trans (by exact_mod_cast hvle) h1) h2
        exact_mod_cast this
    · obtain ⟨k2, rfl⟩ : ∃ k2, g = X1.length + k2 := ⟨g - X1.length, by omega⟩
      have hk2j : k2 < j := by omega
      refine lt_min ?_ ?_
      · rw [val_append_right, val_append_left hu1]
        have h1 : ((val X2 k2 : ℚ) : WithBot ℚ) ≤ maxUpTo X2 j :=
          val_le_maxUpTo X2 hk2j
        have : ((val X2 k2 : ℚ) : WithBot ℚ) < ((val X1 u : ℚ) : WithBot ℚ) :=
          lt_of_le_of_lt h1 hu3
        exact_mod_cast this
      · rw [val_append_right, val_append_right]
        exact hpm k2 hk2j
  · rintro ⟨hu1, -, hvis⟩
    have hub : Ub X1 X1.length u := by
      intro k hk huk
      have := hvis k (by omega) huk
      rw [val_append_left hk, val_append_left hu1] at this
      exact lt_of_lt_of_le this (min_le_left _ _)
    have hu3 : maxUpTo X2 j < ((val X1 u : ℚ) : WithBot ℚ) := by
      refine maxUpTo_lt_iff.2 fun k hk => ?_
      have := hvis (X1.length + k) (by omega) (by omega)
      rw [val_append_right, val_append_left hu1] at this
      exact lt_of_lt_of_le this (min_le_left _ _)
    refine ⟨List.mem_filter.2 ⟨mem_goodStack.2 ⟨hu1, hub⟩, decide_eq_true hu3⟩, ?_⟩
    intro w hw huw
    rcases hmemS w hw with ⟨hw1, -, -⟩
    have := hvis w (by omega) huw
    exact lt_of_lt_of_le this (min_le_right _ _)

namespace Lin

/-- The `for (v, val) in vis_p2` loop of `linear_hvg.merge`: each shifted
past-facing vertex of the right tuple may extend `vis_p` and then scans the
left tuple's `vis_f` exactly as `batch_hvg`'s inner loop does (without the
final push).  `Y` is the aligned concatenated series; `acc` is `E_merge`. -/
def mergeLoop (Y : List ℚ) :
    List (Nat × WithBot ℚ) → List (Nat × WithBot ℚ) → List (Nat × WithBot ℚ) →
      WithBot ℚ → List (Nat × Nat × ℚ) →
      List (Nat × WithBot ℚ) × List (Nat × WithBot ℚ) × WithBot ℚ
        × List (Nat × Nat × ℚ)
  | [], visP, visF, maxv, acc => (visP, visF, maxv, acc)
  | (v, _) :: rest, visP, visF, maxv, acc =>
    let pm :=
      if maxv < ((val Y v : ℚ) : WithBot ℚ) then
        ((v, maxv) :: visP, ((val Y v : ℚ) : WithBot ℚ))
      else (visP, maxv)
    let sc := scan Y v visF
    mergeLoop Y rest pm.1 sc.2 pm.2 (acc ++ sc.1)

/-- Full characterisation of the merge loop on (shifted) inputs satisfying
the batch invariants: the final `vis_f1` indices, the `vis_p` pushes, and
the `E_merge` index pairs. -/
theorem mergeLoop_spec (X1 X2 : List ℚ) (c : ℚ) :
    ∀ (todo done : List Nat),
      done ++ todo = (pmaxStack X2 X2.length).reverse →
      ∀ (b : Nat), b ≤ X2.length →
      (∀ k, k < X2.length → PrefMax X2 k → (k < b ↔ k ∈ done)) →
      ∀ (vps visP visF : List (Nat × WithBot ℚ)) (maxv : WithBot ℚ)
        (acc : List (Nat × Nat × ℚ)),
      vps.map Prod.fst = todo.map (X1.length + ·) →
      visF.map Prod.fst = (goodStack X1 X1.length).filter
        (fun u => decide (maxUpTo X2 b < ((val X1 u : ℚ) : WithBot ℚ))) →
      maxv = (max (maxUpTo X1 X1.length) (maxUpTo X2 b)).map (· + c) →
      ((mergeLoop ((X1 ++ X2).map (· + c)) vps visP visF maxv acc).2.1).map Prod.fst
          = (goodStack X1 X1.length).filter
              (fun u => decide (maxUpTo X2 X2.length < ((val X1 u : ℚ) : WithBot ℚ)))
        ∧ ((mergeLoop ((X1 ++ X2).map (· + c)) vps visP visF maxv acc).1).map Prod.fst
          = ((todo.filter (fun j =>
                decide (maxUpTo X1 X1.length < ((val X2 j : ℚ) : WithBot ℚ)))).map
              (X1.length + ·)).reverse ++ visP.map Prod.fst
        ∧ ∀ a w, ((a, w) ∈ ((mergeLoop ((X1 ++ X2).map (· + c))
              vps visP visF maxv acc).2.2.2).map (fun e => (e.1, e.2.1))
          ↔ ((a, w) ∈ acc.map (fun e => (e.1, e.2.1))
            ∨ ∃ j ∈ todo, w = X1.length + j ∧ a < X1.length
                ∧ VisV (X1 ++ X2) a w)) := by
  intro todo
  induction todo with
  | nil =>
    intro done hsplit b hb hchar vps visP visF maxv acc hvps hvf hmaxv
    have hvnil : vps = [] := List.map_eq_nil_iff.1 (by rw [hvps]; rfl)
    subst hvnil
    have hdone : done = (pmaxStack X2 X2.length).reverse := by
      rw [← hsplit, List.append_nil]
    have hno : ∀ k, b ≤ k → k < X2.length → ¬ PrefMax X2 k := by
      intro k h1 h2 hpk
      have hkin : k ∈ done := by
        rw [hdone]
        exact List.mem_reverse.2 (mem_pmaxStack.2 ⟨h2, hpk⟩)
      have := (hchar k h2 hpk).2 hkin
      omega
    have heq := maxUpTo_eq_of_no_prefMax X2 X2.length b hb hno
    refine ⟨?_, rfl, ?_⟩
    · rw [heq]
      exact hvf
    · intro a w
      constructor
      · exact Or.inl
      · rintro (h | ⟨j, hj, -⟩)
        · exact h
        · exact absurd hj (List.not_mem_nil j)
  | cons j todo ih =>
    intro done hsplit b hb hchar vps visP visF maxv acc hvps hvf hmaxv
    rcases vps with - | ⟨⟨v, bot⟩, vps'⟩
    · exact absurd hvps (by simp)
    rw [List.map_cons, List.map_cons] at hvps
    obtain ⟨hv, hvps'⟩ : v = X1.length + j ∧ vps'.map Prod.fst
        = todo.map (X1.length + ·) :=
      ⟨List.head_eq_of_cons_eq hvps, List.tail_eq_of_cons_eq hvps⟩
    subst hv
    have hjmem : j ∈ (pmaxStack X2 X2.length).reverse := by
      rw [← hsplit]
      exact List.mem_append.2 (Or.inr (List.mem_cons_self j todo))
    rcases mem_pmaxStack.1 (List.mem_reverse.1 hjmem) with ⟨hjn, hjpm⟩
    have hnd : ((pmaxStack X2 X2.length).reverse).Nodup := by
      rw [List.nodup_reverse, pmaxStack]
      exact List.nodup_reverse.2 ((List.nodup_range X2.length).filter _)
    have hasc : ((pmaxStack X2 X2.length).reverse).Pairwise (· < ·) :=
      List.pairwise_reverse.2 (pmaxStack_pairwise_gt X2 X2.length)
    rw [← hsplit] at hnd hasc
    have hjnotdone : j ∉ done := by
      intro hc
      rcases (List.nodup_append.1 hnd) with ⟨-, -, hdisj⟩
      exact hdisj hc (List.mem_cons_self j todo)
    have hjb : b ≤ j := by
      rcases Nat.lt_or_ge j b with h | h
      · exact absurd ((hchar j hjn hjpm).1 h) hjnotdone
      · exact h
    have hpwapp := (List.pairwise_append.1 hasc).2.2
    have hjtodo : ∀ k ∈ todo, j < k := by
      intro k hk
      rcases List.pairwise_cons.1 (List.pairwise_append.1 hasc).2.1 with ⟨hj1, -⟩
      exact hj1 k hk
    have hnoj : ∀ k, b ≤ k → k < j → ¬ PrefMax X2 k := by
      intro k h1 h2 hpk
      have hkmem : k ∈ done ++ j :: todo := by
        rw [hsplit]
        exact List.mem_reverse.2 (mem_pmaxStack.2 ⟨by omega, hpk⟩)
      rcases List.mem_append.1 hkmem with hk | hk
      · have := (hchar k (by omega) hpk).2 hk
        omega
      · rcases List.mem_cons.1 hk with rfl | hk
        · omega
        · exact absurd (hjtodo k hk) (by omega)
    have hmaxeq : maxUpTo X2 j = maxUpTo X2 b :=
      maxUpTo_eq_of_no_prefMax X2 j b hjb hnoj
    have hvlen : X1.length + j < ((X1 ++ X2).map (· + c)).length := by
      rw [List.length_map, List.length_append]
      omega
    have hvY : val ((X1 ++ X2).map (· + c)) (X1.length + j) = val X2 j + c := by
      rw [val_map_add (by rw [List.length_append]; omega), val_append_right]
    have hjauto : maxUpTo X2 j < ((val X2 j : ℚ) : WithBot ℚ) :=
      maxUpTo_lt_iff.2 fun k hk => hjpm k hk
    have hcond : (maxv < ((val ((X1 ++ X2).map (· + c)) (X1.length + j) : ℚ)
          : WithBot ℚ))
        ↔ maxUpTo X1 X1.length < ((val X2 j : ℚ) : WithBot ℚ) := by
      rw [hvY, hmaxv,
        show (((val X2 j + c : ℚ)) : WithBot ℚ)
          = ((val X2 j : ℚ) : WithBot ℚ).map (· + c) from rfl,
        map_add_lt_iff, max_lt_iff]
      exact ⟨fun h => h.1, fun h => ⟨h, by rw [← hmaxeq]; exact hjauto⟩⟩
    have hsc := scan_spec ((X1 ++ X2).map (· + c)) (X1.length + j) visF
    have hstackmem : ∀ u ∈ visF.map Prod.fst, u < (X1 ++ X2).length := by
      intro u hu
      rw [hvf] at hu
      have := (mem_goodStack.1 (List.mem_of_mem_filter hu)).1
      rw [List.length_append]
      omega
    have hscan2 : (scan ((X1 ++ X2).map (· + c)) (X1.length + j) visF).2.map
          Prod.fst
        = (goodStack X1 X1.length).filter
            (fun u => decide (maxUpTo X2 (j + 1)
              < ((val X1 u : ℚ) : WithBot ℚ))) := by
      rw [hsc.2, popStack_map_add (X1 ++ X2) c
          (by rw [List.length_append]; omega) _ hstackmem, hvf, ← hmaxeq,
        popStack_cross X1 X2 j]
    have hscan1 : ∀ a w, ((a, w) ∈ (scan ((X1 ++ X2).map (· + c))
          (X1.length + j) visF).1.map (fun e => (e.1, e.2.1))
        ↔ (w = X1.length + j ∧ a < X1.length
            ∧ VisV (X1 ++ X2) a (X1.length + j))) := by
      intro a w
      rw [hsc.1, visited_map_add (X1 ++ X2) c
          (by rw [List.length_append]; omega) _ hstackmem, hvf, ← hmaxeq]
      constructor
      · intro h
        rcases List.mem_map.1 h with ⟨u, hu, heq⟩
        obtain ⟨rfl, rfl⟩ := Prod.mk.inj heq
        rcases (visited_cross_step X1 X2 hjn hjpm u).1 hu with ⟨h1, h2⟩
        exact ⟨rfl, h1, h2⟩
      · rintro ⟨rfl, h1, h2⟩
        exact List.mem_map.2 ⟨a, (visited_cross_step X1 X2 hjn hjpm a).2
          ⟨h1, h2⟩, rfl⟩
    have hchar' : ∀ k, k < X2.length → PrefMax X2 k →
        (k < j + 1 ↔ k ∈ done ++ [j]) := by
      intro k hk hpk
      constructor
      · intro hkj
        rcases Nat.lt_or_ge k b with h | h
        · exact List.mem_append.2 (Or.inl ((hchar k hk hpk).1 h))
        · rcases Nat.lt_or_ge k j with h' | h'
          · exact absurd hpk (hnoj k h h')
          · have : k = j := by omega
            exact List.mem_append.2 (Or.inr (this ▸ List.mem_singleton_self j))
      · intro hk'
        rcases List.mem_append.1 hk' with h | h
        · have := (hchar k hk hpk).2 h
          omega
        · rcases List.mem_singleton.1 h with rfl
          omega
    have hsplit' : (done ++ [j]) ++ todo = (pmaxStack X2 X2.length).reverse := by
      rw [List.append_assoc, List.singleton_append]
      exact hsplit
    by_cases hc : maxUpTo X1 X1.length < ((val X2 j : ℚ) : WithBot ℚ)
    · have hcond' : maxv < ((val ((X1 ++ X2).map (· + c)) (X1.length + j) : ℚ)
          : WithBot ℚ) := hcond.2 hc
      have hstep : mergeLoop ((X1 ++ X2).map (· + c))
            ((X1.length + j, bot) :: vps') visP visF maxv acc
          = mergeLoop ((X1 ++ X2).map (· + c)) vps'
              ((X1.length + j, maxv) :: visP)
              (scan ((X1 ++ X2).map (· + c)) (X1.length + j) visF).2
              ((val ((X1 ++ X2).map (· + c)) (X1.length + j) : ℚ) : WithBot ℚ)
              (acc ++ (scan ((X1 ++ X2).map (· + c)) (X1.length + j) visF).1) := by
        rw [mergeLoop]
        simp only [if_pos hcond']
      have hmaxv' : ((val ((X1 ++ X2).map (· + c)) (X1.length + j) : ℚ) : WithBot ℚ)
          = (max (maxUpTo X1 X1.length) (maxUpTo X2 (j + 1))).map (· + c) := by
        rw [hvY, show maxUpTo X2 (j + 1)
            = max (maxUpTo X2 j) ((val X2 j : ℚ) : WithBot ℚ) from rfl]
        rw [max_eq_right hjauto.le, max_eq_right hc.le]
        rfl
      obtain ⟨ih1, ih2, ih3⟩ := ih (done ++ [j]) hsplit' (j + 1) (by omega) hchar'
        vps' ((X1.length + j, maxv) :: visP)
        (scan ((X1 ++ X2).map (· + c)) (X1.length + j) visF).2
        ((val ((X1 ++ X2).map (· + c)) (X1.length + j) : ℚ) : WithBot ℚ)
        (acc ++ (scan ((X1 ++ X2).map (· + c)) (X1.length + j) visF).1)
        hvps' hscan2 hmaxv'
      rw [hstep]
      refine ⟨ih1, ?_, ?_⟩
      · have hfc : (j :: todo).filter (fun j' =>
              decide (maxUpTo X1 X1.length < ((val X2 j' : ℚ) : WithBot ℚ)))
            = j :: todo.filter (fun j' =>
              decide (maxUpTo X1 X1.length < ((val X2 j' : ℚ) : WithBot ℚ))) := by
          apply List.filter_cons_of_pos
          exact decide_eq_true hc
        have hr : (((j :: todo).filter (fun j' =>
              decide (maxUpTo X1 X1.length < ((val X2 j' : ℚ) : WithBot ℚ)))).map
              (X1.length + ·)).reverse
            = ((todo.filter (fun j' =>
              decide (maxUpTo X1 X1.length < ((val X2 j' : ℚ) : WithBot ℚ)))).map
              (X1.length + ·)).reverse ++ [X1.length + j] := by
          rw [hfc, List.map_cons, List.reverse_cons]
        rw [ih2, hr, List.append_assoc, List.singleton_append]
        rfl
      · intro a w
        rw [ih3 a w, List.map_append, List.mem_append]
        constructor
        · rintro ((h | h) | ⟨j', hj', h1, h2, h3⟩)
          · exact Or.inl h
          · rcases (hscan1 a w).1 h with ⟨rfl, h1, h2⟩
            exact Or.inr ⟨j, List.mem_cons_self j todo, rfl, h1, h2⟩
          · exact Or.inr ⟨j', List.mem_cons_of_mem j hj', h1, h2, h3⟩
        · rintro (h | ⟨j', hj', h1, h2, h3⟩)
          · exact Or.inl (Or.inl h)
          · rcases List.mem_cons.1 hj' with rfl | hj'
            · exact Or.inl (Or.inr ((hscan1 a w).2 ⟨h1, h2, by rw [← h1]; exact h3⟩))
            · exact Or.inr ⟨j', hj', h1, h2, h3⟩
    · have hcond' : ¬ maxv < ((val ((X1 ++ X2).map (· + c)) (X1.length + j) : ℚ)
          : WithBot ℚ) := fun h => hc (hcond.1 h)
      have hstep : mergeLoop ((X1 ++ X2).map (· + c))
            ((X1.length + j, bot) :: vps') visP visF maxv acc
          = mergeLoop ((X1 ++ X2).map (· + c)) vps' visP
              (scan ((X1 ++ X2).map (· + c)) (X1.length + j) visF).2 maxv
              (acc ++ (scan ((X1 ++ X2).map (· + c)) (X1.length + j) visF).1) := by
        rw [mergeLoop]
        simp only [if_neg hcond']
      have hmaxv' : maxv
          = (max (maxUpTo X1 X1.length) (maxUpTo X2 (j + 1))).map (· + c) := by
        rw [hmaxv, ← hmaxeq]
        congr 1
        rw [show maxUpTo X2 (j + 1)
            = max (maxUpTo X2 j) ((val X2 j : ℚ) : WithBot ℚ) from rfl,
          ← max_assoc]
        rw [max_eq_left (le_trans (not_lt.1 hc) (le_max_left _ _))]
      obtain ⟨ih1, ih2, ih3⟩ := ih (done ++ [j]) hsplit' (j + 1) (by omega) hchar'
        vps' visP (scan ((X1 ++ X2).map (· + c)) (X1.length + j) visF).2 maxv
        (acc ++ (scan ((X1 ++ X2).map (· + c)) (X1.length + j) visF).1)
        hvps' hscan2 hmaxv'
      rw [hstep]
      refine ⟨ih1, ?_, ?_⟩
      · have hfc : (j :: todo).filter (fun j' =>
              decide (maxUpTo X1 X1.length < ((val X2 j' : ℚ) : WithBot ℚ)))
            = todo.filter (fun j' =>
              decide (maxUpTo X1 X1.length < ((val X2 j' : ℚ) : WithBot ℚ))) := by
          apply List.filter_cons_of_neg
          simp [hc]
        rw [ih2, hfc]
      · intro a w
        rw [ih3 a w, List.map_append, List.mem_append]
        constructor
        · rintro ((h | h) | ⟨j', hj', h1, h2, h3⟩)
          · exact Or.inl h
          · rcases (hscan1 a w).1 h with ⟨rfl, h1, h2⟩
            exact Or.inr ⟨j, List.mem_cons_self j todo, rfl, h1, h2⟩
          · exact Or.inr ⟨j', List.mem_cons_of_mem j hj', h1, h2, h3⟩
        · rintro (h | ⟨j', hj', h1, h2, h3⟩)
          · exact Or.inl (Or.inl h)
          · rcases List.mem_cons.1 hj' with rfl | hj'
            · exact Or.inl (Or.inr ((hscan1 a w).2 ⟨h1, h2, by rw [← h1]; exact h3⟩))
            · exact Or.inr ⟨j', hj', h1, h2, h3⟩

/-- The quadruple `(V,E), (vis_p, vis_f), X, translate` returned by
`batch_hvg` and consumed/produced by `linear_hvg.merge` (`V` is `range` of
the length of `Y` and is not stored). -/
structure BT where
  E : List (Nat × Nat × ℚ)
  vis_p : List (Nat × WithBot ℚ)
  vis_f : List (Nat × WithBot ℚ)
  Y : List ℚ
  t : ℚ
  deriving Repr

/-- `batch_hvg` packaged as a tuple (`none` models the `np.min` failure on
empty input). -/
def batchBT (X : List ℚ) : Option BT :=
  match batchHvg X with
  | none => none
  | some (s, Y, t) => some ⟨s.E, s.vis_p, s.vis_f, Y, t⟩

/-- `vis_f1[-1] = (u, np.max(X2))`: replace the bound of the most recent
remaining entry (`np.max` of an empty array would raise; `⊥` stands in). -/
def bumpLast : List (Nat × WithBot ℚ) → WithBot ℚ → List (Nat × WithBot ℚ)
  | [], _ => []
  | (u, _) :: tl, m => (u, m) :: tl

/-- `align = t2 - t1` applied to the left tuple (0 if already aligned). -/
def alignL (b1 b2 : BT) : ℚ := if b1.t < b2.t then b2.t - b1.t else 0

/-- `align = t1 - t2` applied to the right tuple (0 if already aligned). -/
def alignR (b1 b2 : BT) : ℚ := if b2.t < b1.t then b1.t - b2.t else 0

/-- The Python locals of `linear_hvg.merge` after relabelling/alignment. -/
def mY1 (b1 b2 : BT) : List ℚ := b1.Y.map (· + alignL b1 b2)

def mY2 (b1 b2 : BT) : List ℚ := b2.Y.map (· + alignR b1 b2)

def mVp1 (b1 b2 : BT) : List (Nat × WithBot ℚ) :=
  b1.vis_p.map (fun e => (e.1, e.2.map (· + alignL b1 b2)))

def mVf1 (b1 b2 : BT) : List (Nat × WithBot ℚ) :=
  b1.vis_f.map (fun e => (e.1, e.2.map (· + alignL b1 b2)))

def mVp2 (b1 b2 : BT) : List (Nat × WithBot ℚ) :=
  b2.vis_p.map (fun e => (e.1 + b1.Y.length, e.2.map (· + alignR b1 b2)))

def mVf2 (b1 b2 : BT) : List (Nat × WithBot ℚ) :=
  b2.vis_f.map (fun e => (e.1 + b1.Y.length, e.2.map (· + alignR b1 b2)))

/-- The `for (v, val) in vis_p2` loop run to completion (`vis_p2` iterated
oldest first, starting from `vis_p = vis_p1` and `max_val = np.max(X1)`). -/
def mLoop (b1 b2 : BT) :
    List (Nat × WithBot ℚ) × List (Nat × WithBot ℚ) × WithBot ℚ
      × List (Nat × Nat × ℚ) :=
  mergeLoop (mY1 b1 b2 ++ mY2 b1 b2) (mVp2 b1 b2).reverse (mVp1 b1 b2)
    (mVf1 b1 b2) (mY1 b1 b2).maximum []

/-- `linear_hvg.merge(hvg_1, hvg_2)`. -/
def mergeBT (b1 b2 : BT) : BT :=
  { E := b1.E ++ (mLoop b1 b2).2.2.2
      ++ b2.E.map (fun e => (e.1 + b1.Y.length, e.2.1 + b1.Y.length, e.2.2))
    vis_p := (mLoop b1 b2).1
    vis_f := mVf2 b1 b2 ++ bumpLast (mLoop b1 b2).2.1 (mY2 b1 b2).maximum
    Y := mY1 b1 b2 ++ mY2 b1 b2
    t := max b1.t b2.t }

/-- The tuple invariant: edge-index pairs are the abstract pairs of `X`, the
boundary stacks carry the abstract index stacks, and the stored series is
`X` shifted by the stored translation. -/
def SimBT (b : BT) (X : List ℚ) : Prop :=
  (∀ a w : Nat, (a, w) ∈ b.E.map (fun e => (e.1, e.2.1))
      ↔ (a, w) ∈ edgesUpTo X X.length) ∧
  b.vis_p.map Prod.fst = pmaxStack X X.length ∧
  b.vis_f.map Prod.fst = stackUpTo X X.length ∧
  b.Y = X.map (· + b.t)

lemma bumpLast_map_fst (l : List (Nat × WithBot ℚ)) (m : WithBot ℚ) :
    (bumpLast l m).map Prod.fst = l.map Prod.fst := by
  cases l with
  | nil => rfl
  | cons e tl => cases e; rfl

/-- `batch_hvg` establishes the tuple invariant. -/
theorem batchBT_simBT (X : List ℚ) (hX : X ≠ []) :
    ∃ b, batchBT X = some b ∧ SimBT b X := by
  obtain ⟨x, xs, rfl⟩ := List.exists_cons_of_ne_nil hX
  have hlen : ((x :: xs).map (· + (-(minVal x xs) + 1))).length
      = (x :: xs).length := by simp
  have hE := foldSteps_spec ((x :: xs).map (· + (-(minVal x xs) + 1)))
    (x :: xs).length
  have hP := foldSteps_vis_p ((x :: xs).map (· + (-(minVal x xs) + 1)))
    (x :: xs).length
  refine ⟨_, rfl, ?_, ?_, ?_, rfl⟩
  · intro a w
    show (a, w) ∈ (((List.range (x :: xs).length).foldl
        (step ((x :: xs).map (· + (-(minVal x xs) + 1)))) stInit).E).map
        (fun e => (e.1, e.2.1)) ↔ _
    rw [hE.1, edgesUpTo_map_add (x :: xs) _ _ le_rfl]
  · show (((List.range (x :: xs).length).foldl
        (step ((x :: xs).map (· + (-(minVal x xs) + 1)))) stInit).vis_p).map
        Prod.fst = _
    rw [hP.1, pmaxStack_map_add (x :: xs) _ le_rfl]
  · show (((List.range (x :: xs).length).foldl
        (step ((x :: xs).map (· + (-(minVal x xs) + 1)))) stInit).vis_f).map
        Prod.fst = _
    rw [hE.2, stackUpTo_map_add (x :: xs) _ _ le_rfl]

lemma map_fst_pair_map (l : List (Nat × WithBot ℚ)) (g : WithBot ℚ → WithBot ℚ) :
    (l.map (fun e => (e.1, g e.2))).map Prod.fst = l.map Prod.fst := by
  rw [List.map_map]
  exact List.map_congr_left fun e _ => rfl

lemma map_fst_shift_map (l : List (Nat × WithBot ℚ)) (g : WithBot ℚ → WithBot ℚ)
    (L : Nat) :
    (l.map (fun e => (e.1 + L, g e.2))).map Prod.fst
      = (l.map Prod.fst).map (· + L) := by
  rw [List.map_map, List.map_map]
  exact List.map_congr_left fun e _ => rfl

/-- `linear_hvg.merge` preserves the tuple invariant. -/
theorem mergeBT_simBT {b1 b2 : BT} {X1 X2 : List ℚ} (h1 : X1 ≠ []) (h2 : X2 ≠ [])
    (hs1 : SimBT b1 X1) (hs2 : SimBT b2 X2) :
    SimBT (mergeBT b1 b2) (X1 ++ X2) := by
  obtain ⟨he1, hp1, hf1, hy1⟩ := hs1
  obtain ⟨he2, hp2, hf2, hy2⟩ := hs2
  have hL1 : b1.Y.length = X1.length := by rw [hy1]; simp
  have hal1 : ∀ q : ℚ, q + b1.t + alignL b1 b2 = q + max b1.t b2.t := by
    intro q
    rw [alignL]
    rcases lt_or_ge b1.t b2.t with h | h
    · rw [if_pos h, max_eq_right h.le]; ring
    · rw [if_neg (not_lt.2 h), max_eq_left h]; ring
  have hal2 : ∀ q : ℚ, q + b2.t + alignR b1 b2 = q + max b1.t b2.t := by
    intro q
    rw [alignR]
    rcases lt_or_ge b2.t b1.t with h | h
    · rw [if_pos h, max_eq_left h.le]; ring
    · rw [if_neg (not_lt.2 h), max_eq_right h]; ring
  have hY1 : mY1 b1 b2 = X1.map (· + max b1.t b2.t) := by
    rw [mY1, hy1, List.map_map]
    exact List.map_congr_left fun q _ => hal1 q
  have hY2 : mY2 b1 b2 = X2.map (· + max b1.t b2.t) := by
    rw [mY2, hy2, List.map_map]
    exact List.map_congr_left fun q _ => hal2 q
  have hYall : mY1 b1 b2 ++ mY2 b1 b2 = (X1 ++ X2).map (· + max b1.t b2.t) := by
    rw [hY1, hY2, List.map_append]
  have hvf1' : (mVf1 b1 b2).map Prod.fst = stackUpTo X1 X1.length := by
    rw [mVf1, map_fst_pair_map, hf1]
  have hvp1' : (mVp1 b1 b2).map Prod.fst = pmaxStack X1 X1.length := by
    rw [mVp1, map_fst_pair_map, hp1]
  have hvp2' : (mVp2 b1 b2).reverse.map Prod.fst
      = ((pmaxStack X2 X2.length).reverse).map (X1.length + ·) := by
    rw [List.map_reverse, mVp2, map_fst_shift_map, hp2, ← List.map_reverse]
    refine List.map_congr_left fun j _ => ?_
    rw [hL1]
    omega
  have hvf0 : (mVf1 b1 b2).map Prod.fst = (goodStack X1 X1.length).filter
      (fun u => decide (maxUpTo X2 0 < ((val X1 u : ℚ) : WithBot ℚ))) := by
    rw [hvf1', stackUpTo_eq_goodStack]
    exact (List.filter_eq_self.2 fun u _ =>
      decide_eq_true (WithBot.bot_lt_coe _)).symm
  have hmax0 : (mY1 b1 b2).maximum
      = (max (maxUpTo X1 X1.length) (maxUpTo X2 0)).map (· + max b1.t b2.t) := by
    have hmm : max (maxUpTo X1 X1.length) (maxUpTo X2 0)
        = maxUpTo X1 X1.length := max_eq_left bot_le
    rw [hmm, hY1, ← maxUpTo_length_eq_maximum, List.length_map,
      maxUpTo_map_add X1 _ X1.length le_rfl]
  have hchar0 : ∀ k, k < X2.length → PrefMax X2 k → (k < 0 ↔ k ∈ ([] : List Nat)) := by
    intro k _ _
    exact ⟨fun h => absurd h (Nat.not_lt_zero k),
      fun h => absurd h (List.not_mem_nil k)⟩
  obtain ⟨hfin, hpush, hmem⟩ := mergeLoop_spec X1 X2 (max b1.t b2.t)
    ((pmaxStack X2 X2.length).reverse) [] rfl 0 (by omega) hchar0
    (mVp2 b1 b2).reverse (mVp1 b1 b2) (mVf1 b1 b2) (mY1 b1 b2).maximum []
    hvp2' hvf0 hmax0
  have hml : mLoop b1 b2 = mergeLoop ((X1 ++ X2).map (· + max b1.t b2.t))
      (mVp2 b1 b2).reverse (mVp1 b1 b2) (mVf1 b1 b2) (mY1 b1 b2).maximum [] := by
    rw [mLoop, hYall]
  refine ⟨?_, ?_, ?_, ?_⟩
  · intro a w
    show (a, w) ∈ (b1.E ++ (mLoop b1 b2).2.2.2
        ++ b2.E.map (fun e => (e.1 + b1.Y.length, e.2.1 + b1.Y.length, e.2.2))).map
        (fun e => (e.1, e.2.1)) ↔ _
    rw [List.map_append, List.map_append, hml]
    simp only [List.mem_append]
    rw [edgesUpTo_mem]
    have hsh : ((a, w) ∈ (b2.E.map (fun e =>
          (e.1 + b1.Y.length, e.2.1 + b1.Y.length, e.2.2))).map
          (fun e => (e.1, e.2.1)))
        ↔ ∃ u' w', (u', w') ∈ b2.E.map (fun e => (e.1, e.2.1))
            ∧ a = u' + X1.length ∧ w = w' + X1.length := by
      rw [List.map_map, hL1]
      constructor
      · intro h
        rcases List.mem_map.1 h with ⟨e, he, heq⟩
        rcases Prod.mk.inj heq with ⟨ha, hw⟩
        exact ⟨e.1, e.2.1, List.mem_map.2 ⟨e, he, rfl⟩, ha.symm, hw.symm⟩
      · rintro ⟨u', w', hw, rfl, rfl⟩
        rcases List.mem_map.1 hw with ⟨e, he, heq⟩
        rcases Prod.mk.inj heq with ⟨hh1, hh2⟩
        refine List.mem_map.2 ⟨e, he, ?_⟩
        show (e.1 + X1.length, e.2.1 + X1.length) = (u' + X1.length, w' + X1.length)
        rw [hh1, hh2]
    rw [hsh]
    constructor
    · rintro ((hk | hk) | hk)
      · rcases (edgesUpTo_mem X1 X1.length a w).1 ((he1 a w).1 hk) with ⟨hw, hv⟩
        exact ⟨by rw [List.length_append]; omega, (visV_append_left hw).2 hv⟩
      · rcases (hmem a w).1 hk with h | ⟨j, hj, rfl, ha, hv⟩
        · exact absurd h (by simp)
        · rcases mem_pmaxStack.1 (List.mem_reverse.1 hj) with ⟨hjn, -⟩
          exact ⟨by rw [List.length_append]; omega, hv⟩
      · rcases hk with ⟨u', w', hw, rfl, rfl⟩
        rcases (edgesUpTo_mem X2 X2.length u' w').1 ((he2 u' w').1 hw)
          with ⟨hwn, hv⟩
        refine ⟨by rw [List.length_append]; omega, ?_⟩
        have := (visV_append_right X1 X2 u' w').2 hv
        rw [show u' + X1.length = X1.length + u' from by omega,
          show w' + X1.length = X1.length + w' from by omega]
        exact this
    · rintro ⟨hw, hv⟩
      rw [List.length_append] at hw
      rcases Nat.lt_or_ge w X1.length with hwn | hwn
      · exact Or.inl (Or.inl ((he1 a w).2 ((edgesUpTo_mem X1 X1.length a w).2
          ⟨hwn, (visV_append_left hwn).1 hv⟩)))
      · rcases Nat.lt_or_ge a X1.length with han | han
        · refine Or.inl (Or.inr ((hmem a w).2 (Or.inr ?_)))
          obtain ⟨hub, hpm, hbl⟩ := cross_endpoints han hwn
            (by rw [List.length_append]; omega) hv
          exact ⟨w - X1.length, List.mem_reverse.2 (mem_pmaxStack.2 ⟨hbl, hpm⟩),
            by omega, han, hv⟩
        · refine Or.inr ?_
          obtain ⟨u', rfl⟩ : ∃ u', a = X1.length + u' := ⟨a - X1.length, by omega⟩
          obtain ⟨w', rfl⟩ : ∃ w', w = X1.length + w' := ⟨w - X1.length, by omega⟩
          refine ⟨u', w', (he2 u' w').2 ((edgesUpTo_mem X2 X2.length u' w').2
            ⟨by omega, (visV_append_right X1 X2 u' w').1 hv⟩), by omega, by omega⟩
  · show ((mLoop b1 b2).1).map Prod.fst = _
    rw [hml, hpush, hvp1', List.length_append, pmaxStack_append]
    congr 1
    rw [List.filter_reverse, List.map_reverse, List.reverse_reverse]
  · show (mVf2 b1 b2 ++ bumpLast (mLoop b1 b2).2.1 (mY2 b1 b2).maximum).map
        Prod.fst = _
    rw [List.map_append, bumpLast_map_fst, hml, hfin, List.length_append,
      stackUpTo_eq_goodStack, goodStack_append]
    congr 1
    rw [mVf2, map_fst_shift_map, hf2, stackUpTo_eq_goodStack]
    refine List.map_congr_left fun j _ => ?_
    rw [hL1]
    omega
  · show mY1 b1 b2 ++ mY2 b1 b2 = (X1 ++ X2).map (· + max b1.t b2.t)
    exact hYall

end Lin

/-! ## Chunked builds merged pairwise in any left-to-right folding order -/

/-- A parenthesisation of an ordered list of chunks: any left-to-right
pairwise folding order is such a tree. -/
inductive MTree where
  | leaf (X : List ℚ)
  | node (l r : MTree)

/-- The concatenated series. -/
def MTree.seq : MTree → List ℚ
  | .leaf X => X
  | .node l r => l.seq ++ r.seq

/-- All chunks nonempty (merging empty builders raises, see C10). -/
def MTree.ok : MTree → Prop
  | .leaf X => X ≠ []
  | .node l r => l.ok ∧ r.ok

/-- Build each chunk with `dt_hvg` (labels continuing across chunks, as the
experiment drivers do) and merge pairwise along the tree. -/
def MTree.run (off : Nat) : MTree → Except DT.Err DT.St
  | .leaf X => .ok (DT.buildFrom off X)
  | .node l r =>
    match l.run off, r.run (off + l.seq.length) with
    | .ok a, .ok b => DT.merge a b
    | .error e, _ => .error e
    | .ok _, .error e => .error e

/-- Build each chunk with `linear_hvg.batch_hvg` and merge the tuples
pairwise along the tree with `linear_hvg.merge`. -/
def MTree.runLin : MTree → Option Lin.BT
  | .leaf X => Lin.batchBT X
  | .node l r =>
    match l.runLin, r.runLin with
    | some a, some b => some (Lin.mergeBT a b)
    | _, _ => none

lemma MTree.seq_ne_nil : ∀ t : MTree, t.ok → t.seq ≠ []
  | .leaf X, h => h
  | .node l r, ⟨hl, _⟩ => by
    have h := seq_ne_nil l hl
    show l.seq ++ r.seq ≠ []
    intro hc
    exact h (List.append_eq_nil.1 hc).1

/-- Every fold order of streaming merges succeeds and simulates the direct
build of the concatenation. -/
theorem MTree.run_simBuild : ∀ (t : MTree) (off : Nat), t.ok →
    ∃ m, t.run off = .ok m ∧ DT.SimBuild m off t.seq
  | .leaf X, off, _ => ⟨_, rfl, DT.simBuild_refl off X⟩
  | .node l r, off, ⟨hl, hr⟩ => by
    obtain ⟨a, ha, hsa⟩ := run_simBuild l off hl
    obtain ⟨b, hb, hsb⟩ := run_simBuild r (off + l.seq.length) hr
    obtain ⟨m, hm, hsm⟩ := DT.merge_simBuild off l.seq r.seq
      (seq_ne_nil l hl) (seq_ne_nil r hr) hsa hsb
    refine ⟨m, ?_, hsm⟩
    simp only [MTree.run]
    rw [ha, hb]
    exact hm

/-- Every fold order of tuple merges yields a tuple with the batch
invariant for the concatenation. -/
theorem MTree.runLin_simBT : ∀ (t : MTree), t.ok →
    ∃ b, t.runLin = some b ∧ Lin.SimBT b t.seq
  | .leaf X, h => Lin.batchBT_simBT X h
  | .node l r, ⟨hl, hr⟩ => by
    obtain ⟨a, ha, hsa⟩ := runLin_simBT l hl
    obtain ⟨b, hb, hsb⟩ := runLin_simBT r hr
    refine ⟨Lin.mergeBT a b, ?_,
      Lin.mergeBT_simBT (seq_ne_nil l hl) (seq_ne_nil r hr) hsa hsb⟩
    simp only [MTree.runLin]
    rw [ha, hb]

namespace Claims

/-- **C2**: for every split of a sequence into nonempty chunks and every
left-to-right pairwise folding order (any such order is an `MTree` over the
ordered chunks; a single prefix/suffix split is `node (leaf X1) (leaf X2)`),
merging the independently built chunk HVGs yields the same edge set as
building the whole sequence directly — both for the streaming builder's
`merge` (`dt_hvg`, edge-key sets) and for `linear_hvg.merge` on `batch_hvg`
tuples (edge-index pairs versus the direct `batch_hvg` pairs). -/
theorem merge_chunks_edge_sets (t : MTree) (hok : t.ok) :
    (∃ m, t.run 0 = Except.ok m ∧
      ∀ k : Nat × Nat, k ∈ DT.edgeKeys m ↔ k ∈ DT.edgeKeys (DT.build t.seq)) ∧
    (∃ b, t.runLin = some b ∧
      ∀ k : Nat × Nat, k ∈ b.E.map (fun e => (e.1, e.2.1))
        ↔ k ∈ Lin.pairs t.seq) := by
  constructor
  · obtain ⟨m, hm, hsim⟩ := MTree.run_simBuild t 0 hok
    exact ⟨m, hm, hsim.2.2.2.2⟩
  · obtain ⟨b, hb, hsim⟩ := MTree.runLin_simBT t hok
    refine ⟨b, hb, fun k => ?_⟩
    rcases k with ⟨a, w⟩
    rw [Lin.pairs_eq t.seq (MTree.seq_ne_nil t hok)]
    exact hsim.1 a w

/-- Closed instance of `merge_chunks_edge_sets`: three chunks `[1]`, `[2]`,
`[3]`, folded as `([1] + [2]) + [3]`. -/
theorem merge_chunks_edge_sets_witness :
    (MTree.node (MTree.node (MTree.leaf [(1 : ℚ)]) (MTree.leaf [(2 : ℚ)]))
        (MTree.leaf [(3 : ℚ)])).ok ∧
    ((∃ m, (MTree.node (MTree.node (MTree.leaf [(1 : ℚ)]) (MTree.leaf [(2 : ℚ)]))
          (MTree.leaf [(3 : ℚ)])).run 0 = Except.ok m ∧
        ∀ k : Nat × Nat, k ∈ DT.edgeKeys m ↔ k ∈ DT.edgeKeys (DT.build
          (MTree.node (MTree.node (MTree.leaf [(1 : ℚ)]) (MTree.leaf [(2 : ℚ)]))
            (MTree.leaf [(3 : ℚ)])).seq)) ∧
      (∃ b, (MTree.node (MTree.node (MTree.leaf [(1 : ℚ)]) (MTree.leaf [(2 : ℚ)]))
          (MTree.leaf [(3 : ℚ)])).runLin = some b ∧
        ∀ k : Nat × Nat, k ∈ b.E.map (fun e => (e.1, e.2.1))
          ↔ k ∈ Lin.pairs (MTree.node (MTree.node (MTree.leaf [(1 : ℚ)])
              (MTree.leaf [(2 : ℚ)])) (MTree.leaf [(3 : ℚ)])).seq)) :=
  ⟨⟨⟨List.cons_ne_nil _ _, List.cons_ne_nil _ _⟩, List.cons_ne_nil _ _⟩,
    merge_chunks_edge_sets _
      ⟨⟨List.cons_ne_nil _ _, List.cons_ne_nil _ _⟩, List.cons_ne_nil _ _⟩⟩

end Claims

/-! ## Store semantics for `copy=True` merging (`ChainMap` aliasing) -/

namespace Alias

/-- The mutable vertex dictionaries (`{v: vx}` assignment logs), addressed by
allocation order. -/
abbrev VDict := List (Nat × ℚ)

/-- The mutable edge dictionaries (`{(u,v): w}` assignment logs). -/
abbrev EDict := List ((Nat × Nat) × DT.Wt)

/-- The heap of dictionaries live in the process. -/
structure Heap where
  Vs : List VDict
  Es : List EDict
  deriving Repr, DecidableEq

def Heap.writeV (h : Heap) (a : Nat) (e : Nat × ℚ) : Heap :=
  ⟨h.Vs.set a (h.Vs.getD a [] ++ [e]), h.Es⟩

def Heap.writeEs (h : Heap) (a : Nat) (es : EDict) : Heap :=
  ⟨h.Vs, h.Es.set a (h.Es.getD a [] ++ es)⟩

def Heap.allocV (h : Heap) (d : VDict) : Heap × Nat :=
  (⟨h.Vs ++ [d], h.Es⟩, h.Vs.length)

def Heap.allocE (h : Heap) (d : EDict) : Heap × Nat :=
  (⟨h.Vs, h.Es ++ [d]⟩, h.Es.length)

/-- An `HVG` instance: the attribute slots relevant to mutation.  `Vtarget` /
`Etarget` are the addresses of the plain dicts that receive `self.V[...] = `
and `self.E[...] = ` writes — for a fresh instance its own dicts, for a
`ChainMap` the first (writable) map, resolved through nesting. -/
structure Obj where
  Vtarget : Nat
  Etarget : Nat
  vis_p : List (ℚ × Nat)
  vis_f : List (ℚ × Nat)
  max_val : WithBot ℚ
  neighbour_weight : DT.Wt
  deriving Repr, DecidableEq

/-- `HVG.__init__` with no initial sequence: fresh empty `V` and `E` dicts. -/
def newHVG (h : Heap) (nw : DT.Wt) : Heap × Obj :=
  let pv := h.allocV []
  let pe := pv.1.allocE []
  (pe.1, ⟨pv.2, pe.2, [], [], ⊥, nw⟩)

/-- `HVG.add_one(vx, v)` with the store made explicit: `self.V[v] = vx` and
the scan's `self.E[u, v] = w` assignments land in the writable dicts. -/
def addOne (h : Heap) (s : Obj) (vx : ℚ) (v : Nat) : Heap × Obj :=
  let h1 := h.writeV s.Vtarget (v, vx)
  let pm :=
    if s.max_val < ((vx : ℚ) : WithBot ℚ) then
      ((vx, v) :: s.vis_p, ((vx : ℚ) : WithBot ℚ))
    else (s.vis_p, s.max_val)
  let sc := DT.scan vx v s.neighbour_weight s.vis_f false 0
  let h2 := h1.writeEs s.Etarget sc.1
  (h2, { s with vis_p := pm.1, vis_f := (vx, v) :: sc.2, max_val := pm.2 })

/-- `add_batch`. -/
def addSeqH (h : Heap) (s : Obj) (xs : List (ℚ × Nat)) : Heap × Obj :=
  xs.foldl (fun p q => addOne p.1 p.2 q.1 q.2) (h, s)

/-- `HVG.merge(other, copy=True)` (the `+` operator).  The returned instance
shares the operands' dicts: `hvg.E = ChainMap(merge_edges, other.E, self.E)`
— a *fresh* writable `merge_edges` layer — while
`hvg.V = ChainMap(other.V, self.V)` gains *no* fresh layer, so its writable
map is the right operand's `V` dict.  `join_hvg` is a fresh local instance. -/
def mergeCopy (h : Heap) (s o : Obj) : Except DT.Err (Heap × Obj) :=
  if s.neighbour_weight ≠ o.neighbour_weight then .error .assertionError
  else
    let join_vtx : List (ℚ × Nat) := s.vis_f.reverse ++ o.vis_p.reverse
    if join_vtx.isEmpty then .error .valueError
    else
      let pj := newHVG h ⊤
      let pj2 := addSeqH pj.1 pj.2 join_vtx
      match s.vis_f, o.vis_p.getLast? with
      | [], _ => .error .indexError
      | _, none => .error .indexError
      | (_, fu) :: _, some (_, p0) =>
        let merge_edges : EDict :=
          ((fu, p0), s.neighbour_weight) ::
            (pj2.1.Es.getD pj2.2.Etarget []).filter
              fun e => decide (e.2 ≠ s.neighbour_weight)
        let pe := pj2.1.allocE merge_edges
        .ok (pe.1,
          { Vtarget := o.Vtarget
            Etarget := pe.2
            vis_p := (o.vis_p.takeWhile fun e =>
                decide (s.max_val < ((e.1 : ℚ) : WithBot ℚ))) ++ s.vis_p
            vis_f := o.vis_f ++ (s.vis_f.reverse.takeWhile fun e =>
                decide (o.max_val < ((e.1 : ℚ) : WithBot ℚ))).reverse
            max_val := max s.max_val o.max_val
            neighbour_weight := s.neighbour_weight })

lemma getD_set_ne {α : Type} (l : List α) {i j : Nat} (x : α) (d : α)
    (h : i ≠ j) : (l.set i x).getD j d = l.getD j d := by
  rw [List.getD_eq_getElem?_getD, List.getD_eq_getElem?_getD,
    List.getElem?_set_ne h]

lemma getD_append_lt {α : Type} (l l' : List α) {a : Nat} (d : α)
    (h : a < l.length) : (l ++ l').getD a d = l.getD a d := by
  rw [List.getD_eq_getElem?_getD, List.getD_eq_getElem?_getD,
    List.getElem?_append, if_pos h]

/-- `add_one` writes only to its own two writable dicts. -/
lemma addOne_frame (h : Heap) (s : Obj) (vx : ℚ) (v : Nat) :
    (∀ a, a ≠ s.Vtarget → (addOne h s vx v).1.Vs.getD a [] = h.Vs.getD a []) ∧
    (∀ a, a ≠ s.Etarget → (addOne h s vx v).1.Es.getD a [] = h.Es.getD a []) ∧
    (addOne h s vx v).2.Vtarget = s.Vtarget ∧
    (addOne h s vx v).2.Etarget = s.Etarget := by
  refine ⟨?_, ?_, rfl, rfl⟩
  · intro a ha
    exact getD_set_ne _ _ _ (fun hc => ha hc.symm)
  · intro a ha
    exact getD_set_ne _ _ _ (fun hc => ha hc.symm)

/-- `add_batch` writes only to the instance's two writable dicts. -/
lemma addSeqH_frame (xs : List (ℚ × Nat)) :
    ∀ (h : Heap) (s : Obj),
      (∀ a, a ≠ s.Vtarget →
        (addSeqH h s xs).1.Vs.getD a [] = h.Vs.getD a []) ∧
      (∀ a, a ≠ s.Etarget →
        (addSeqH h s xs).1.Es.getD a [] = h.Es.getD a []) ∧
      (addSeqH h s xs).2.Vtarget = s.Vtarget ∧
      (addSeqH h s xs).2.Etarget = s.Etarget := by
  induction xs with
  | nil => exact fun h s => ⟨fun a _ => rfl, fun a _ => rfl, rfl, rfl⟩
  | cons q xs ih =>
    intro h s
    have h1 := addOne_frame h s q.1 q.2
    have h2 := ih (addOne h s q.1 q.2).1 (addOne h s q.1 q.2).2
    have hstep : addSeqH h s (q :: xs)
        = addSeqH (addOne h s q.1 q.2).1 (addOne h s q.1 q.2).2 xs := rfl
    refine ⟨?_, ?_, ?_, ?_⟩
    · intro a ha
      rw [hstep, (h2.1 a (by rw [h1.2.2.1]; exact ha)), h1.1 a ha]
    · intro a ha
      rw [hstep, (h2.2.1 a (by rw [h1.2.2.2]; exact ha)), h1.2.1 a ha]
    · rw [hstep, h2.2.2.1, h1.2.2.1]
    · rw [hstep, h2.2.2.2, h1.2.2.2]

lemma addOne_lens (h : Heap) (s : Obj) (vx : ℚ) (v : Nat) :
    (addOne h s vx v).1.Vs.length = h.Vs.length ∧
      (addOne h s vx v).1.Es.length = h.Es.length := by
  constructor
  · show (h.Vs.set _ _).length = h.Vs.length
    exact List.length_set h.Vs _ _
  · show (h.Es.set _ _).length = h.Es.length
    exact List.length_set h.Es _ _

lemma addSeqH_lens (xs : List (ℚ × Nat)) :
    ∀ (h : Heap) (s : Obj),
      (addSeqH h s xs).1.Vs.length = h.Vs.length ∧
        (addSeqH h s xs).1.Es.length = h.Es.length := by
  induction xs with
  | nil => exact fun h s => ⟨rfl, rfl⟩
  | cons q xs ih =>
    intro h s
    have h1 := addOne_lens h s q.1 q.2
    have h2 := ih (addOne h s q.1 q.2).1 (addOne h s q.1 q.2).2
    exact ⟨h2.1.trans h1.1, h2.2.trans h1.2⟩

/-- The success path of `mergeCopy`. -/
lemma mergeCopy_ok (h : Heap) (s o : Obj)
    (hnw : s.neighbour_weight = o.neighbour_weight)
    (fx : ℚ) (fu : Nat) (fr : List (ℚ × Nat)) (hf : s.vis_f = (fx, fu) :: fr)
    (px : ℚ) (p0 : Nat) (hp : o.vis_p.getLast? = some (px, p0)) :
    mergeCopy h s o = .ok
      (⟨(addSeqH (newHVG h ⊤).1 (newHVG h ⊤).2
            (s.vis_f.reverse ++ o.vis_p.reverse)).1.Vs,
        (addSeqH (newHVG h ⊤).1 (newHVG h ⊤).2
            (s.vis_f.reverse ++ o.vis_p.reverse)).1.Es ++
          [((fu, p0), s.neighbour_weight) ::
            ((addSeqH (newHVG h ⊤).1 (newHVG h ⊤).2
                (s.vis_f.reverse ++ o.vis_p.reverse)).1.Es.getD
              (addSeqH (newHVG h ⊤).1 (newHVG h ⊤).2
                (s.vis_f.reverse ++ o.vis_p.reverse)).2.Etarget []).filter
              fun e => decide (e.2 ≠ s.neighbour_weight)]⟩,
        { Vtarget := o.Vtarget
          Etarget := (addSeqH (newHVG h ⊤).1 (newHVG h ⊤).2
            (s.vis_f.reverse ++ o.vis_p.reverse)).1.Es.length
          vis_p := (o.vis_p.takeWhile fun e =>
              decide (s.max_val < ((e.1 : ℚ) : WithBot ℚ))) ++ s.vis_p
          vis_f := o.vis_f ++ (s.vis_f.reverse.takeWhile fun e =>
              decide (o.max_val < ((e.1 : ℚ) : WithBot ℚ))).reverse
          max_val := max s.max_val o.max_val
          neighbour_weight := s.neighbour_weight }) := by
  have hne : ¬ s.neighbour_weight ≠ o.neighbour_weight := by simp [hnw]
  have hjoin : (s.vis_f.reverse ++ o.vis_p.reverse).isEmpty = false := by
    rw [hf]
    simp
  rw [mergeCopy, if_neg hne]
  rw [hf] at hjoin
  simp only [hjoin, Bool.false_eq_true, if_false, hf, hp]
  rfl

/-- **C9** (amended): a `copy=True` merge itself mutates neither operand (it
only allocates), the merged instance's *edge* writes land in the fresh
`merge_edges` overlay so no pre-existing `E` dict is ever touched, but the
merged instance's *vertex* writes resolve to the right operand's `V` dict
(the `V` `ChainMap` gains no fresh layer), so a later `add_one` on the
merged result leaves every dict unchanged except that one. -/
theorem merge_copy_frame (h : Heap) (s o : Obj)
    (hnw : s.neighbour_weight = o.neighbour_weight)
    (hf : s.vis_f ≠ []) (hp : o.vis_p ≠ []) :
    ∃ r, mergeCopy h s o = .ok r ∧
      (∀ a, a < h.Vs.length → r.1.Vs.getD a [] = h.Vs.getD a []) ∧
      (∀ a, a < h.Es.length → r.1.Es.getD a [] = h.Es.getD a []) ∧
      r.2.Vtarget = o.Vtarget ∧
      h.Es.length ≤ r.2.Etarget ∧
      (∀ x v a, a ≠ o.Vtarget →
        (addOne r.1 r.2 x v).1.Vs.getD a [] = r.1.Vs.getD a []) ∧
      (∀ x v a, a ≠ r.2.Etarget →
        (addOne r.1 r.2 x v).1.Es.getD a [] = r.1.Es.getD a []) := by
  obtain ⟨⟨fx, fu⟩, fr, hfcons⟩ := List.exists_cons_of_ne_nil hf
  obtain ⟨e, he⟩ := Option.isSome_iff_exists.1 (List.getLast?_isSome.2 hp)
  rcases e with ⟨px, p0⟩
  have hM := mergeCopy_ok h s o hnw fx fu fr hfcons px p0 he
  have hjf := addSeqH_frame (s.vis_f.reverse ++ o.vis_p.reverse)
    (newHVG h ⊤).1 (newHVG h ⊤).2
  have hjl := addSeqH_lens (s.vis_f.reverse ++ o.vis_p.reverse)
    (newHVG h ⊤).1 (newHVG h ⊤).2
  refine ⟨_, hM, ?_, ?_, rfl, ?_, ?_, ?_⟩
  · intro a ha
    calc (addSeqH (newHVG h ⊤).1 (newHVG h ⊤).2
          (s.vis_f.reverse ++ o.vis_p.reverse)).1.Vs.getD a []
        = (newHVG h ⊤).1.Vs.getD a [] := hjf.1 a (by
          rw [show ((newHVG h ⊤).2.Vtarget : Nat) = h.Vs.length from rfl]
          omega)
      _ = h.Vs.getD a [] := getD_append_lt h.Vs [[]] [] ha
  · intro a ha
    have h1 : ((addSeqH (newHVG h ⊤).1 (newHVG h ⊤).2
          (s.vis_f.reverse ++ o.vis_p.reverse)).1.Es ++
          [((fu, p0), s.neighbour_weight) ::
            ((addSeqH (newHVG h ⊤).1 (newHVG h ⊤).2
                (s.vis_f.reverse ++ o.vis_p.reverse)).1.Es.getD
              (addSeqH (newHVG h ⊤).1 (newHVG h ⊤).2
                (s.vis_f.reverse ++ o.vis_p.reverse)).2.Etarget []).filter
              fun e => decide (e.2 ≠ s.neighbour_weight)]).getD a []
        = (addSeqH (newHVG h ⊤).1 (newHVG h ⊤).2
            (s.vis_f.reverse ++ o.vis_p.reverse)).1.Es.getD a [] := by
      refine getD_append_lt _ _ _ ?_
      rw [hjl.2]
      show a < (h.Es ++ [[]]).length
      rw [List.length_append]
      omega
    rw [h1, hjf.2.1 a (by rw [show ((newHVG h ⊤).2.Etarget : Nat)
        = h.Es.length from rfl]; omega)]
    exact getD_append_lt h.Es [[]] [] ha
  · show h.Es.length ≤ (addSeqH (newHVG h ⊤).1 (newHVG h ⊤).2
        (s.vis_f.reverse ++ o.vis_p.reverse)).1.Es.length
    rw [hjl.2]
    show h.Es.length ≤ (h.Es ++ [[]]).length
    rw [List.length_append]
    omega
  · intro x v a ha
    exact (addOne_frame _ _ x v).1 a ha
  · intro x v a ha
    exact (addOne_frame _ _ x v).2.1 a ha

def scn1 : Heap × Obj :=
  addOne (newHVG ⟨[], []⟩ ⊤).1 (newHVG ⟨[], []⟩ ⊤).2 1 0

def scn2 : Heap × Obj :=
  addOne (newHVG scn1.1 ⊤).1 (newHVG scn1.1 ⊤).2 2 1

end Alias

namespace Claims

/-- **C9** (counterexample): merging a one-vertex left operand with a
one-vertex right operand via `copy=True`, then calling `add_one` on the
merged result, mutates the right operand: the merged object's vertex
writes target the right operand's `V` dict (`Vtarget = o.Vtarget`), so
the dict at that address gains the new vertex. -/
theorem merge_copy_add_one_mutates_right_operand :
    ∃ r, Alias.mergeCopy Alias.scn2.1 Alias.scn1.2 Alias.scn2.2
        = Except.ok r ∧
      r.2.Vtarget = Alias.scn2.2.Vtarget ∧
      (Alias.addOne r.1 r.2 3 2).1.Vs.getD Alias.scn2.2.Vtarget [] ≠
        r.1.Vs.getD Alias.scn2.2.Vtarget [] :=
  ⟨_, rfl, rfl, by decide⟩

/-- Witness for the amended C9 theorem at concrete one-vertex operands. -/
theorem merge_copy_frame_witness :
    Alias.scn1.2.neighbour_weight = Alias.scn2.2.neighbour_weight ∧
    Alias.scn1.2.vis_f ≠ [] ∧ Alias.scn2.2.vis_p ≠ [] ∧
    (∃ r, Alias.mergeCopy Alias.scn2.1 Alias.scn1.2 Alias.scn2.2
        = Except.ok r ∧
      (∀ a, a < Alias.scn2.1.Vs.length →
        r.1.Vs.getD a [] = Alias.scn2.1.Vs.getD a []) ∧
      (∀ a, a < Alias.scn2.1.Es.length →
        r.1.Es.getD a [] = Alias.scn2.1.Es.getD a []) ∧
      r.2.Vtarget = Alias.scn2.2.Vtarget ∧
      Alias.scn2.1.Es.length ≤ r.2.Etarget ∧
      (∀ x v a, a ≠ Alias.scn2.2.Vtarget →
        (Alias.addOne r.1 r.2 x v).1.Vs.getD a [] = r.1.Vs.getD a []) ∧
      (∀ x v a, a ≠ r.2.Etarget →
        (Alias.addOne r.1 r.2 x v).1.Es.getD a [] = r.1.Es.getD a [])) :=
  ⟨by decide, by decide, by decide,
    Alias.merge_copy_frame Alias.scn2.1 Alias.scn1.2 Alias.scn2.2
      (by decide) (by decide) (by decide)⟩

end Claims

end HVGLib
